import Mathlib

/-!
Verification development for the bitcask-rs storage engine.

The Rust sources are shallowly embedded: byte strings are lists of `Nat`
(each element a byte value), machine integers are `Nat` with explicit
`% 2 ^ w` where wrap-around matters, fallible code returns `Except`, and
the file system is an explicit store mapping file ids to byte lists.

Layout of the development:
* varint (prost length delimiters), CRC-32 and the record codec
  (`src/data/log_record.rs`, `src/data/data_file.rs`);
* the keydir models (`src/index/skiplist.rs`, `src/index/bptree.rs`, and
  the ordered-map keydir whose source file is absent from the tree);
* the write-batch staging logic (`src/batch.rs`);
* the engine state machine: append path, put/get/delete, open/close and
  startup replay (`src/db.rs`), plus the merge space check
  (`src/merge.rs`, `src/util/file.rs`).
-/

namespace Bitcask

deriving instance DecidableEq for Except

/-- Byte strings: lists of byte values. -/
abbrev Bytes := List Nat

/-- Error enumeration from `src/errors.rs` (the constructors used by the
modelled code paths), plus `ModelPanic`, which models a Rust `panic!` or
`unwrap()` failure: the Rust process aborts, the model returns this error. -/
inductive Errors where
  | FailedReadFromDataFile
  | KeyIsEmpty
  | KeyIsNotFound
  | DataFileIsNotFound
  | ReadDataFileEOF
  | InvalidLogRecordCrc
  | ExceedMaxBatchNum
  | UnableToUseWriteBatch
  | MergeRatioUnreached
  | MergeNoEnoughSpace
  | DataFileSizeInvalid
  | ModelPanic
  deriving DecidableEq, Repr

/-! ## Varints

prost `encode_length_delimiter` / `decode_length_delimiter`: LEB128,
low seven bits first, high bit of a byte set when more bytes follow. -/

/-- Worker for `vEnc`, structurally recursive on a fuel argument so that
the definition evaluates by kernel reduction; with fuel at least `n` the
zero-fuel branch is only reached when `n < 128`, where it agrees. -/
def vEncGo : Nat → Nat → Bytes
  | 0, n => [n % 128]
  | fuel + 1, n => if n < 128 then [n] else (n % 128 + 128) :: vEncGo fuel (n / 128)

/-- LEB128 encoding of a natural number (prost length delimiter). -/
def vEnc (n : Nat) : Bytes := vEncGo n n

theorem vEncGo_fuel {f g n : Nat} (hf : n ≤ f) (hg : n ≤ g) :
    vEncGo f n = vEncGo g n := by
  induction f using Nat.strong_induction_on generalizing g n with
  | _ f ih =>
    match f, g with
    | 0, 0 => rfl
    | 0, g + 1 =>
      have : n < 128 := by omega
      simp [vEncGo, this, Nat.mod_eq_of_lt this]
    | f + 1, 0 =>
      have : n < 128 := by omega
      simp [vEncGo, this, Nat.mod_eq_of_lt this]
    | f + 1, g + 1 =>
      by_cases h : n < 128
      · simp [vEncGo, h]
      · have hdle : n / 128 ≤ f := by
          have := Nat.div_le_self n 128
          have : n / 128 < n := Nat.div_lt_self (by omega) (by omega)
          omega
        have hgle : n / 128 ≤ g := by
          have : n / 128 < n := Nat.div_lt_self (by omega) (by omega)
          omega
        simp only [vEncGo, if_neg h]
        rw [ih f (by omega) hdle hdle, ih f (by omega) hdle hgle]

/-- Unfolding equation for `vEnc`, matching the recursion of the source
encoder. -/
theorem vEnc_eq (n : Nat) :
    vEnc n = if n < 128 then [n] else (n % 128 + 128) :: vEnc (n / 128) := by
  by_cases h : n < 128
  · cases n with
    | zero => simp [vEnc, vEncGo, h]
    | succ m => simp [vEnc, vEncGo, h]
  · obtain ⟨m, rfl⟩ : ∃ m, n = m + 1 := ⟨n - 1, by omega⟩
    simp only [vEnc, vEncGo, if_neg h]
    rw [vEncGo_fuel (show (m + 1) / 128 ≤ m by omega) (Nat.le_refl ((m + 1) / 128))]

/-- Byte length of the LEB128 encoding (prost `length_delimiter_len`). -/
def vLen (n : Nat) : Nat := (vEnc n).length

/-- LEB128 decoding; returns the value and the number of bytes consumed. -/
def vDec : Bytes → Option (Nat × Nat)
  | [] => none
  | b :: bs =>
    if b < 128 then some (b, 1)
    else
      match vDec bs with
      | some (v, c) => some (b % 128 + 128 * v, c + 1)
      | none => none

theorem vEnc_ne_nil (n : Nat) : vEnc n ≠ [] := by
  rw [vEnc_eq]
  split <;> simp

theorem vLen_pos (n : Nat) : 0 < vLen n := by
  have h := vEnc_ne_nil n
  unfold vLen
  cases hv : vEnc n with
  | nil => exact absurd hv h
  | cons a l => simp

/-- Decoding an encoded value followed by arbitrary bytes recovers the
value and consumes exactly the encoded length. -/
theorem vDec_append (n : Nat) (rest : Bytes) :
    vDec (vEnc n ++ rest) = some (n, vLen n) := by
  induction n using Nat.strong_induction_on with
  | _ n ih =>
    rw [vLen, vEnc_eq]
    by_cases h : n < 128
    · simp [h, vDec]
    · have hdiv : n / 128 < n := Nat.div_lt_self (by omega) (by omega)
      have hrec := ih (n / 128) hdiv
      rw [vLen] at hrec
      simp only [if_neg h, List.cons_append, vDec, List.length_cons]
      have hb : ¬ (n % 128 + 128 < 128) := by omega
      rw [if_neg hb, hrec]
      have hm : (n % 128 + 128) % 128 + 128 * (n / 128) = n := by omega
      dsimp only
      rw [hm]

/-- vLen is bounded: values below `128 ^ k` encode in at most `k` bytes. -/
theorem vLen_le (k : Nat) : ∀ n, n < 128 ^ k → 0 < k → vLen n ≤ k := by
  induction k with
  | zero => intro n _ h; omega
  | succ k ih =>
    intro n hn _
    rw [vLen, vEnc_eq]
    by_cases h : n < 128
    · simp [h]
    · simp only [if_neg h, List.length_cons]
      have hk : 0 < k := by
        by_contra hk0
        have : k = 0 := by omega
        subst this
        simp [pow_succ, pow_zero] at hn
        omega
      have hlt : n / 128 < 128 ^ k := by
        rw [Nat.div_lt_iff_lt_mul (by omega)]
        calc n < 128 ^ (k + 1) := hn
        _ = 128 ^ k * 128 := by ring
      have := ih (n / 128) hlt hk
      rw [vLen] at this
      omega

theorem vLen_le_five {n : Nat} (h : n < 2 ^ 32) : vLen n ≤ 5 := by
  have : n < 128 ^ 5 := by
    calc n < 2 ^ 32 := h
    _ ≤ 128 ^ 5 := by norm_num
  exact vLen_le 5 n this (by omega)

/-! ## CRC-32 (IEEE, reflected; `crc32fast`) -/

/-- One bit step of the reflected CRC-32 computation. -/
def crcBit (c : Nat) : Nat :=
  if c % 2 = 1 then (c / 2) ^^^ 0xEDB88320 else c / 2

/-- One byte step: xor the byte in, then eight bit steps. -/
def crcByte (c b : Nat) : Nat :=
  crcBit (crcBit (crcBit (crcBit (crcBit (crcBit (crcBit (crcBit (c ^^^ b))))))))

/-- CRC-32 over a byte string, as computed by `crc32fast::Hasher`; the
result is a `u32`, hence the final reduction modulo `2 ^ 32`. -/
def crc32 (bs : Bytes) : Nat :=
  ((bs.foldl crcByte 0xFFFFFFFF) ^^^ 0xFFFFFFFF) % 2 ^ 32

/-- Big-endian 4-byte serialization of a `u32` (`BytesMut::put_u32`). -/
def putU32 (x : Nat) : Bytes :=
  [x / 2 ^ 24 % 256, x / 2 ^ 16 % 256, x / 2 ^ 8 % 256, x % 256]

/-- Big-endian read of a `u32` from the head of a buffer (`Buf::get_u32`). -/
def getU32 (bs : Bytes) : Nat :=
  ((bs.headD 0 * 256 + (bs.drop 1).headD 0) * 256 + (bs.drop 2).headD 0) * 256
    + (bs.drop 3).headD 0

theorem getU32_putU32 (x : Nat) (h : x < 2 ^ 32) (rest : Bytes) :
    getU32 (putU32 x ++ rest) = x := by
  simp only [putU32, getU32, List.cons_append, List.headD_cons, List.drop_succ_cons,
    List.drop_zero]
  omega

/-! ## Log records (`src/data/log_record.rs`) -/

/-- Record kinds; the misspelling `NOAMAL` is the source's. -/
inductive LogRecordType where
  | NOAMAL
  | DELETED
  | TXNFINISHED
  deriving DecidableEq, Repr

/-- Numeric discriminant (`LogRecordType as u8`). -/
def LogRecordType.toByte : LogRecordType → Nat
  | .NOAMAL => 1
  | .DELETED => 2
  | .TXNFINISHED => 3

/-- `LogRecordType::from_u8`; the catch-all arm panics in the source, the
model returns `none`. -/
def LogRecordType.fromByte : Nat → Option LogRecordType
  | 1 => some .NOAMAL
  | 2 => some .DELETED
  | 3 => some .TXNFINISHED
  | _ => none

theorem fromByte_toByte (t : LogRecordType) :
    LogRecordType.fromByte t.toByte = some t := by
  cases t <;> rfl

/-- A log record as written to a data file. -/
structure LogRecord where
  key : Bytes
  value : Bytes
  rec_type : LogRecordType
  deriving DecidableEq, Repr

/-- Position descriptor for a record on disk. The field set is the one
`Engine::append_log_record` constructs in `src/db.rs` (`file_id`, `offset`,
`size`); the struct declaration in the checked-in `log_record.rs` predates
the `size` field that the rest of the tree uses. -/
structure LogRecordPos where
  file_id : Nat
  offset : Nat
  size : Nat
  deriving DecidableEq, Repr

/-- Body of the encoding: type byte, two length delimiters, key, value
(the bytes the CRC is computed over). -/
def encBody (r : LogRecord) : Bytes :=
  r.rec_type.toByte :: (vEnc r.key.length ++ vEnc r.value.length ++ r.key ++ r.value)

/-- `LogRecord::get_crc`. -/
def LogRecord.getCrc (r : LogRecord) : Nat := crc32 (encBody r)

/-- `LogRecord::encode`: body followed by the big-endian CRC-32. -/
def LogRecord.encode (r : LogRecord) : Bytes :=
  encBody r ++ putU32 (crc32 (encBody r))

theorem encode_length (r : LogRecord) :
    r.encode.length =
      1 + vLen r.key.length + vLen r.value.length + r.key.length + r.value.length + 4 := by
  simp [LogRecord.encode, encBody, putU32, vLen]
  omega

/-- `max_log_record_header_size()`: type byte plus two maximal `u32`
length delimiters. -/
def maxLogRecordHeaderSize : Nat := 1 + vLen (2 ^ 32 - 1) * 2

theorem maxLogRecordHeaderSize_eq : maxLogRecordHeaderSize = 11 := by
  decide

/-! ## I/O managers (`src/fio`) and `DataFile::read` -/

/-- The two I/O backends (`IOType` in `src/options.rs`). -/
inductive IoType where
  | fileIo
  | mmapIo
  deriving DecidableEq, Repr

/-- Read buffer of length `len`: the caller hands in a zeroed buffer, a
short read leaves the tail zeroed. -/
def padTo (n : Nat) (bs : Bytes) : Bytes := bs ++ List.replicate (n - bs.length) 0

/-- Positional read of `len` bytes at `off`. `FileIO::read` uses
`read_at`, which short-reads at end of file into the zeroed buffer;
`MMapIO::read` returns `ReadDataFileEOF` whenever the requested range
extends past the mapped length. -/
def ioRead (io : IoType) (content : Bytes) (off len : Nat) : Except Errors Bytes :=
  match io with
  | .fileIo => .ok (padTo len ((content.drop off).take len))
  | .mmapIo =>
    if off + len > content.length then .error .ReadDataFileEOF
    else .ok ((content.drop off).take len)

/-- `DataFile::read` from `src/data/data_file.rs`: read the header window,
take the type byte, decode the two length delimiters, detect the
all-zeros end-of-file marker, then read key/value/CRC, rebuild the record
and check the CRC. `unwrap`/`from_u8` panics are `ModelPanic`. -/
def dataFileRead (io : IoType) (content : Bytes) (offset : Nat) :
    Except Errors (LogRecord × Nat) :=
  match ioRead io content offset maxLogRecordHeaderSize with
  | .error e => .error e
  | .ok headerBuf =>
    match vDec (headerBuf.drop 1) with
    | none => .error .ModelPanic
    | some (keySize, c1) =>
      match vDec (headerBuf.drop (1 + c1)) with
      | none => .error .ModelPanic
      | some (valueSize, _) =>
        if keySize = 0 ∧ valueSize = 0 then .error .ReadDataFileEOF
        else
          let headerSize := vLen keySize + vLen valueSize + 1
          match ioRead io content (offset + headerSize) (keySize + valueSize + 4) with
          | .error e => .error e
          | .ok kvBuf =>
            match LogRecordType.fromByte (headerBuf.headD 0) with
            | none => .error .ModelPanic
            | some rt =>
              let record : LogRecord :=
                ⟨kvBuf.take keySize,
                 (kvBuf.drop keySize).take (kvBuf.length - 4 - keySize), rt⟩
              if getU32 (kvBuf.drop (keySize + valueSize)) ≠ record.getCrc
              then .error .InvalidLogRecordCrc
              else .ok (record, headerSize + keySize + valueSize + 4)

theorem padTo_append {n : Nat} (a b : Bytes) (h : a.length ≤ n) :
    padTo n ((a ++ b).take n) =
      a ++ padTo (n - a.length) (b.take (n - a.length)) := by
  have h1 : (a ++ b).take n = a ++ b.take (n - a.length) := by
    rw [List.take_append_eq_append_take, List.take_of_length_le h]
  rw [h1]
  unfold padTo
  rw [List.append_assoc, List.length_append]
  have h2 : n - (a.length + (b.take (n - a.length)).length) =
      n - a.length - (b.take (n - a.length)).length := by omega
  rw [h2]

theorem padTo_of_le {n : Nat} (bs : Bytes) (h : n ≤ bs.length) :
    padTo n bs = bs := by
  simp [padTo, Nat.sub_eq_zero_of_le h]

/-- WFRecord: the side conditions under which the codec round-trips: a
non-empty key and `u32`-sized lengths (`key.len()`/`value.len()` are cast
to `u32`-compatible sizes throughout the engine). -/
def WFRecord (r : LogRecord) : Prop :=
  r.key ≠ [] ∧ r.key.length < 2 ^ 32 ∧ r.value.length < 2 ^ 32

instance (r : LogRecord) : Decidable (WFRecord r) := by
  unfold WFRecord
  infer_instance


/-- Round-trip at the byte level: reading at the start of an encoded
record (followed by arbitrary bytes) with the file-descriptor backend
recovers the record and consumes exactly its encoded length. -/
theorem dataFileRead_encode (r : LogRecord) (rest : Bytes) (hwf : WFRecord r) :
    dataFileRead .fileIo (r.encode ++ rest) 0 = .ok (r, r.encode.length) := by
  obtain ⟨hk, hk32, hv32⟩ := hwf
  have hvk : vLen r.key.length ≤ 5 := vLen_le_five hk32
  have hvv : vLen r.value.length ≤ 5 := vLen_le_five hv32
  set tb := r.rec_type.toByte with htb
  set vk := vEnc r.key.length with hvkdef
  set vv := vEnc r.value.length with hvvdef
  set B := putU32 (crc32 (encBody r)) with hBdef
  set tail := r.key ++ (r.value ++ (B ++ rest)) with htail
  have hvkl' : vk.length = vLen r.key.length := rfl
  have hvvl' : vv.length = vLen r.value.length := rfl
  have hcontent : r.encode ++ rest = tb :: (vk ++ (vv ++ tail)) := by
    rw [htail, hBdef, hvkdef, hvvdef, htb]
    simp [LogRecord.encode, encBody, List.append_assoc]
  set m := 10 - vk.length - vv.length with hm
  set R := padTo m (tail.take m) with hR
  -- the header buffer decomposes as the type byte, the two length
  -- delimiters and a (possibly zero-padded) remainder
  have hheader :
      padTo 11 (((tb :: (vk ++ (vv ++ tail))).drop 0).take 11) =
        tb :: (vk ++ (vv ++ R)) := by
    rw [List.drop_zero]
    have hsplit : tb :: (vk ++ (vv ++ tail)) = (tb :: (vk ++ vv)) ++ tail := by
      simp [List.append_assoc]
    rw [hsplit, padTo_append _ _
      (by simp only [List.length_cons, List.length_append]; omega)]
    have hlc : (tb :: (vk ++ vv)).length = vk.length + vv.length + 1 := by
      simp only [List.length_cons, List.length_append]
    rw [hlc]
    have h11 : 11 - (vk.length + vv.length + 1) = m := by rw [hm]; omega
    rw [h11, ← hR]
    simp [List.append_assoc]
  have hEOF : ¬ (r.key.length = 0 ∧ r.value.length = 0) := by
    intro hz
    exact hk (List.length_eq_zero.mp hz.1)
  -- second read window: exactly the key, the value and the CRC bytes
  have hBlen : B.length = 4 := by rw [hBdef]; rfl
  have hkv :
      padTo (r.key.length + r.value.length + 4)
        (((tb :: (vk ++ (vv ++ tail))).drop
            (0 + (vLen r.key.length + vLen r.value.length + 1))).take
          (r.key.length + r.value.length + 4)) =
        r.key ++ (r.value ++ B) := by
    have hdrop :
        (tb :: (vk ++ (vv ++ tail))).drop
            (0 + (vLen r.key.length + vLen r.value.length + 1)) = tail := by
      have hsplit : tb :: (vk ++ (vv ++ tail)) = ((tb :: vk) ++ vv) ++ tail := by
        simp [List.append_assoc]
      rw [hsplit]
      refine List.drop_left' ?hlen
      simp only [List.length_append, List.length_cons, ← hvkl', ← hvvl']
      omega
    rw [hdrop, htail]
    have hassoc : r.key ++ (r.value ++ (B ++ rest)) =
        (r.key ++ (r.value ++ B)) ++ rest := by
      simp [List.append_assoc]
    rw [hassoc, List.take_left' (by simp [hBlen]; omega),
      padTo_of_le _ (by simp [hBlen]; omega)]
  rw [dataFileRead, hcontent, maxLogRecordHeaderSize_eq, ioRead, hheader]
  dsimp only
  have hd1 : (tb :: (vk ++ (vv ++ R))).drop 1 = vk ++ (vv ++ R) := rfl
  rw [hd1, hvkdef, vDec_append, ← hvkdef]
  dsimp only
  have hd2 : (tb :: (vk ++ (vv ++ R))).drop (1 + vLen r.key.length) =
      vv ++ R := by
    have h1 : (1 + vLen r.key.length) = vk.length + 1 := by
      rw [hvkl']; omega
    rw [h1, List.drop_succ_cons, List.drop_left]
  rw [hd2, hvvdef, vDec_append, ← hvvdef]
  dsimp only
  simp only [if_neg hEOF]
  rw [ioRead, hkv]
  dsimp only
  have hhead : (tb :: (vk ++ (vv ++ R))).headD 0 = tb := rfl
  rw [hhead, htb, fromByte_toByte]
  dsimp only
  have hkey : (r.key ++ (r.value ++ B)).take r.key.length = r.key :=
    List.take_left' rfl
  have hlen : (r.key ++ (r.value ++ B)).length =
      r.key.length + r.value.length + 4 := by
    simp [hBlen]
    omega
  have hval : ((r.key ++ (r.value ++ B)).drop r.key.length).take
      ((r.key ++ (r.value ++ B)).length - 4 - r.key.length) = r.value := by
    rw [List.drop_left, hlen]
    have h2 : r.key.length + r.value.length + 4 - 4 - r.key.length =
        r.value.length := by omega
    rw [h2, List.take_left' rfl]
  have hrec : (⟨(r.key ++ (r.value ++ B)).take r.key.length,
      ((r.key ++ (r.value ++ B)).drop r.key.length).take
        ((r.key ++ (r.value ++ B)).length - 4 - r.key.length),
      r.rec_type⟩ : LogRecord) = r := by
    rw [hkey, hval]
  have hcrcbytes : (r.key ++ (r.value ++ B)).drop
      (r.key.length + r.value.length) = B := by
    have hassoc : r.key ++ (r.value ++ B) = (r.key ++ r.value) ++ B := by
      simp [List.append_assoc]
    rw [hassoc]
    exact List.drop_left' (by simp)
  have hcrcval : getU32 B = crc32 (encBody r) := by
    rw [hBdef]
    have h3 := getU32_putU32 (crc32 (encBody r))
      (by unfold crc32; exact Nat.mod_lt _ (by norm_num)) []
    simpa using h3
  simp only [hrec, hcrcbytes, hcrcval]
  have hcrceq : ¬ (crc32 (encBody r) ≠ r.getCrc) := by
    simp [LogRecord.getCrc]
  simp only [if_neg hcrceq]
  have hsz : vLen r.key.length + vLen r.value.length + 1 +
      r.key.length + r.value.length + 4 = r.encode.length := by
    rw [encode_length]; omega
  rw [hsz]


/-! ## Keydir maps

The canonical ordered map over byte keys: a sorted association list with
lexicographic key order. `BTreeMap`, `crossbeam_skiplist::SkipMap` and a
jammdb bucket are all ordered maps with first-match lookup; this is their
common semantics. -/

/-- Strict lexicographic order on byte strings. -/
def lexLt : Bytes → Bytes → Bool
  | _, [] => false
  | [], _ :: _ => true
  | a :: as, b :: bs => if a < b then true else if b < a then false else lexLt as bs

/-- Lookup in an association list (first match). -/
def assocGet {α : Type} : List (Bytes × α) → Bytes → Option α
  | [], _ => none
  | (k0, v0) :: rest, k => if k = k0 then some v0 else assocGet rest k

/-- Ordered insert-or-replace, keeping keys sorted by `lexLt`. -/
def assocInsert {α : Type} : List (Bytes × α) → Bytes → α → List (Bytes × α)
  | [], k, v => [(k, v)]
  | (k0, v0) :: rest, k, v =>
    if lexLt k k0 then (k, v) :: (k0, v0) :: rest
    else if k = k0 then (k, v) :: rest
    else (k0, v0) :: assocInsert rest k v

/-- Remove the entry for a key (first occurrence). -/
def assocErase {α : Type} : List (Bytes × α) → Bytes → List (Bytes × α)
  | [], _ => []
  | (k0, v0) :: rest, k => if k = k0 then rest else (k0, v0) :: assocErase rest k

/-- Insertion-ordered insert-or-replace (a `HashMap` determinized: a
replaced key keeps its slot, a new key goes last). -/
def hashInsert {α : Type} : List (Bytes × α) → Bytes → α → List (Bytes × α)
  | [], k, v => [(k, v)]
  | (k0, v0) :: rest, k, v =>
    if k = k0 then (k, v) :: rest else (k0, v0) :: hashInsert rest k v

/-- The keydir: keys to position descriptors. -/
abbrev IdxMap := List (Bytes × LogRecordPos)

def idxGet (m : IdxMap) (k : Bytes) : Option LogRecordPos := assocGet m k

def idxKeys (m : IdxMap) : List Bytes := m.map Prod.fst

theorem assocGet_insert_self {α : Type} (l : List (Bytes × α)) (k : Bytes) (v : α) :
    assocGet (assocInsert l k v) k = some v := by
  induction l with
  | nil => simp [assocInsert, assocGet]
  | cons h t ih =>
    obtain ⟨k0, v0⟩ := h
    by_cases hlt : lexLt k k0
    · simp [assocInsert, hlt, assocGet]
    · by_cases heq : k = k0
      · subst heq
        simp [assocInsert, hlt, assocGet]
      · simp [assocInsert, hlt, heq, assocGet, ih]

theorem assocGet_insert_ne {α : Type} (l : List (Bytes × α)) (k k' : Bytes) (v : α)
    (h : k' ≠ k) : assocGet (assocInsert l k v) k' = assocGet l k' := by
  induction l with
  | nil => simp [assocInsert, assocGet, h]
  | cons hd t ih =>
    obtain ⟨k0, v0⟩ := hd
    by_cases hlt : lexLt k k0
    · simp [assocInsert, hlt, assocGet, h]
    · by_cases heq : k = k0
      · subst heq
        simp [assocInsert, hlt, assocGet, h]
      · by_cases h0 : k' = k0
        · simp [assocInsert, hlt, heq, assocGet, h0]
        · simp [assocInsert, hlt, heq, assocGet, h0, ih]

theorem assocGet_erase_ne {α : Type} (l : List (Bytes × α)) (k k' : Bytes)
    (h : k' ≠ k) : assocGet (assocErase l k) k' = assocGet l k' := by
  induction l with
  | nil => simp [assocErase]
  | cons hd t ih =>
    obtain ⟨k0, v0⟩ := hd
    by_cases heq : k = k0
    · subst heq
      simp [assocErase, assocGet, h]
    · by_cases h0 : k' = k0
      · simp [assocErase, heq, assocGet, h0]
      · simp [assocErase, heq, assocGet, h0, ih]

theorem hashInsert_not_mem {α : Type} (l : List (Bytes × α)) (k : Bytes) (v : α)
    (h : assocGet l k = none) : hashInsert l k v = l ++ [(k, v)] := by
  induction l with
  | nil => simp [hashInsert]
  | cons hd t ih =>
    obtain ⟨k0, v0⟩ := hd
    by_cases heq : k = k0
    · simp [assocGet, heq] at h
    · simp [assocGet, heq] at h
      simp [hashInsert, heq, ih h]

/-! ## The three keydir implementations -/

/-- SkipList keydir put (`src/index/skiplist.rs`): remember the previous
entry, insert, return the previous entry. -/
def skipListPut (m : IdxMap) (k : Bytes) (p : LogRecordPos) :
    IdxMap × Option LogRecordPos :=
  (assocInsert m k p, assocGet m k)

/-- SkipList keydir delete: `SkipMap::remove` returns the removed entry. -/
def skipListDelete (m : IdxMap) (k : Bytes) : IdxMap × Option LogRecordPos :=
  (assocErase m k, assocGet m k)

/-- Modelled from the spec: the ordered-map (B-tree) keydir. `index/mod.rs`
declares `pub mod btree` and `new_indexer` constructs `BTree::new()`, but
`src/index/btree.rs` is absent from the tree; per the spec it is an ordered
map honoring the return-previous contract of `put`/`delete`. -/
def btreePut (m : IdxMap) (k : Bytes) (p : LogRecordPos) :
    IdxMap × Option LogRecordPos :=
  (assocInsert m k p, assocGet m k)

/-- Modelled from the spec: ordered-map keydir delete (see `btreePut`). -/
def btreeDelete (m : IdxMap) (k : Bytes) : IdxMap × Option LogRecordPos :=
  (assocErase m k, assocGet m k)

/-- Modelled from the spec: encoded position descriptor, three varints in
order `file_id`, `offset`, `size` (`LogRecordPos::encode` is called by
`data_file.rs`, `merge.rs` and `bptree.rs` but its definition is missing
from the checked-in `log_record.rs`). -/
def LogRecordPos.encode (p : LogRecordPos) : Bytes :=
  vEnc p.file_id ++ vEnc p.offset ++ vEnc p.size

/-- Modelled from the spec: decode a position descriptor (three varints);
`none` models the panic on malformed input. -/
def decodeLogRecordPos (bs : Bytes) : Option LogRecordPos :=
  match vDec bs with
  | none => none
  | some (fid, c1) =>
    match vDec (bs.drop c1) with
    | none => none
    | some (off, c2) =>
      match vDec ((bs.drop c1).drop c2) with
      | none => none
      | some (sz, _) => some ⟨fid, off, sz⟩

theorem decode_encode_pos (p : LogRecordPos) :
    decodeLogRecordPos p.encode = some p := by
  obtain ⟨fid, off, sz⟩ := p
  have he : LogRecordPos.encode ⟨fid, off, sz⟩ =
      vEnc fid ++ (vEnc off ++ vEnc sz) := by
    simp [LogRecordPos.encode, List.append_assoc]
  rw [he]
  unfold decodeLogRecordPos
  rw [vDec_append]
  dsimp only
  rw [List.drop_left' (show (vEnc fid).length = vLen fid from rfl), vDec_append]
  dsimp only
  rw [List.drop_left' (show (vEnc off).length = vLen off from rfl)]
  have h4 : vDec (vEnc sz) = some (sz, vLen sz) := by
    have h5 := vDec_append sz []
    simpa using h5
  rw [h4]

/-- A jammdb bucket as the B+-tree keydir uses it: ordered map from keys to
encoded positions. -/
abbrev BptBucket := List (Bytes × Bytes)

/-- B+-tree keydir put (`src/index/bptree.rs`): store the encoded position
and return `true` unconditionally — the previous entry is not reported. -/
def bptreePut (b : BptBucket) (k : Bytes) (p : LogRecordPos) :
    BptBucket × Bool :=
  (assocInsert b k p.encode, true)

/-- B+-tree keydir delete: `false` when the key was absent
(`Error::KeyValueMissing`), otherwise remove and return `true`. -/
def bptreeDelete (b : BptBucket) (k : Bytes) : BptBucket × Bool :=
  match assocGet b k with
  | none => (b, false)
  | some _ => (assocErase b k, true)

/-- B+-tree keydir get: decode the stored bytes. -/
def bptreeGet (b : BptBucket) (k : Bytes) : Option LogRecordPos :=
  match assocGet b k with
  | none => none
  | some v => decodeLogRecordPos v

/-! ## Write batch staging (`src/batch.rs`) -/

/-- `NON_TXN_SEQ_NO`. -/
def NON_TXN_SEQ_NO : Nat := 0

/-- `TXN_FIN_KEY` = "txn-fin". -/
def TXN_FIN_KEY : Bytes := [116, 120, 110, 45, 102, 105, 110]

/-- `log_record_key_with_seq`: prepend the varint sequence number. -/
def logRecordKeyWithSeq (key : Bytes) (seqNo : Nat) : Bytes :=
  vEnc seqNo ++ key

/-- `parse_log_record_key`: split a stored key into the real key and its
sequence number (`none` models the decode panic). -/
def parseLogRecordKey (key : Bytes) : Option (Bytes × Nat) :=
  match vDec key with
  | none => none
  | some (seqNo, c) => some (key.drop c, seqNo)

theorem parse_key_with_seq (key : Bytes) (seqNo : Nat) :
    parseLogRecordKey (logRecordKeyWithSeq key seqNo) = some (key, seqNo) := by
  unfold parseLogRecordKey logRecordKeyWithSeq
  rw [vDec_append]
  dsimp only
  rw [List.drop_left' (show (vEnc seqNo).length = vLen seqNo from rfl)]

/-- The staged writes of a `WriteBatch` (`prending_writes`), key to record. -/
abbrev PendingMap := List (Bytes × LogRecord)

/-- `WriteBatch::put`: reject the empty key, stage a Normal record. -/
def wbPut (pending : PendingMap) (k v : Bytes) : Except Errors PendingMap :=
  if k = [] then .error .KeyIsEmpty
  else .ok (hashInsert pending k ⟨k, v, .NOAMAL⟩)

/-- `WriteBatch::delete` as written in `src/batch.rs`: reject the empty
key; when the key is absent from the keydir, drop it from the pending map
if staged there; then stage a Deleted record unconditionally (the source
has no early return in the absent-absent case). -/
def wbDelete (idx : IdxMap) (pending : PendingMap) (k : Bytes) :
    Except Errors PendingMap :=
  if k = [] then .error .KeyIsEmpty
  else
    let pending1 :=
      match idxGet idx k with
      | none =>
        if (assocGet pending k).isSome then assocErase pending k else pending
      | some _ => pending
    .ok (hashInsert pending1 k ⟨k, [], .DELETED⟩)

/-! ## Merge space check (`src/merge.rs` lines 46-49) -/

/-- The disk-space gate of `Engine::merge`, reached once the engine is
non-empty, the merge lock is held and the reclaim-ratio test has passed:
`if total_size - reclaim_size as u64 >= available_disk_size() { return
Err(MergeNoEnoughSpace) }`. The `u64` subtraction wraps modulo `2 ^ 64`. -/
def mergeSpaceCheck (totalSize reclaimSize avail : Nat) : Except Errors Unit :=
  if (totalSize + 2 ^ 64 - reclaimSize) % 2 ^ 64 ≥ avail then
    .error .MergeNoEnoughSpace
  else .ok ()

/-- Claim C3: the B+-tree keydir does not honor the return-previous
contract: `put` returns the bare boolean `true` whether or not a previous
entry existed (so the previous position is not reported and the two cases
are indistinguishable), while the skip-list `put` returns the previous
position exactly when one existed. The trait in `src/index/mod.rs`
declares `put(...) -> Option<LogRecordPos>`; `src/index/bptree.rs`
implements `put(...) -> bool`. -/
theorem C3_bptree_put_return_contract :
    (bptreePut [] [1] ⟨1, 2, 3⟩).2 = true ∧
    (bptreePut [([1], LogRecordPos.encode ⟨9, 9, 9⟩)] [1] ⟨1, 2, 3⟩).2 = true ∧
    (bptreeDelete [([1], LogRecordPos.encode ⟨9, 9, 9⟩)] [1]).2 = true ∧
    (skipListPut [] [1] ⟨1, 2, 3⟩).2 = none ∧
    (skipListPut [([1], ⟨9, 9, 9⟩)] [1] ⟨1, 2, 3⟩).2 = some ⟨9, 9, 9⟩ ∧
    (skipListDelete [([1], ⟨9, 9, 9⟩)] [1]).2 = some ⟨9, 9, 9⟩ := by
  refine ⟨rfl, rfl, ?_, rfl, rfl, rfl⟩
  rfl

/-- Claim C4: `WriteBatch::delete` of a key that is neither in the keydir
nor in the pending map does not leave the pending map unchanged: it stages
a Deleted record (the early return its own comment promises is missing in
the source). -/
theorem C4_wb_delete_unknown_key_stages (idx : IdxMap) (pending : PendingMap)
    (k : Bytes) (hk : k ≠ []) (hidx : idxGet idx k = none)
    (hpend : assocGet pending k = none) :
    wbDelete idx pending k = .ok (pending ++ [(k, ⟨k, [], .DELETED⟩)]) := by
  unfold wbDelete
  rw [if_neg hk, hidx]
  simp only [hpend, Option.isSome_none, Bool.false_eq_true, if_false]
  rw [hashInsert_not_mem pending k _ hpend]

/-- Witness for C4 at a concrete input: deleting key `[1]` on an empty
keydir and empty pending map stages a tombstone. -/
theorem C4_wb_delete_unknown_key_stages_witness :
    wbDelete [] [] [1] = .ok [([1], ⟨[1], [], .DELETED⟩)] :=
  C4_wb_delete_unknown_key_stages [] [] [1] (by decide) rfl rfl

/-- Claim C9 (counterexample): at the boundary
`available_disk_space = dir_disk_size - reclaim_size` the claim says merge
proceeds past the disk-space check, but the source's `>=` comparison
returns `MergeNoEnoughSpace` there: with total 10, reclaim 4, available 6
the check errors although 6 ≥ 10 - 4. -/
theorem C9_merge_space_boundary :
    6 ≥ 10 - 4 ∧ mergeSpaceCheck 10 4 6 = .error .MergeNoEnoughSpace := by
  constructor
  · decide
  · decide

/-- Claim C9 (amended): given the reclaim-ratio gate has passed and
`reclaim_size ≤ dir_disk_size < 2 ^ 64`, the space check proceeds exactly
when `available_disk_space` is strictly greater than
`dir_disk_size - reclaim_size`, and returns `MergeNoEnoughSpace` exactly
when it is less than or equal to that difference. -/
theorem C9_merge_space_check (totalSize reclaimSize avail : Nat)
    (h1 : reclaimSize ≤ totalSize) (h2 : totalSize < 2 ^ 64) :
    (mergeSpaceCheck totalSize reclaimSize avail = .ok () ↔
      avail > totalSize - reclaimSize) ∧
    (mergeSpaceCheck totalSize reclaimSize avail = .error .MergeNoEnoughSpace ↔
      avail ≤ totalSize - reclaimSize) := by
  unfold mergeSpaceCheck
  have hwrap : (totalSize + 2 ^ 64 - reclaimSize) % 2 ^ 64 =
      totalSize - reclaimSize := by
    have h3 : totalSize + 2 ^ 64 - reclaimSize =
        (totalSize - reclaimSize) + 2 ^ 64 := by omega
    rw [h3, Nat.add_mod_right]
    exact Nat.mod_eq_of_lt (by omega)
  rw [hwrap]
  by_cases h : totalSize - reclaimSize ≥ avail
  · rw [if_pos h]
    constructor
    · constructor
      · intro hc; cases hc
      · intro hc; omega
    · constructor
      · intro _; omega
      · intro _; rfl
  · rw [if_neg h]
    constructor
    · constructor
      · intro _; omega
      · intro _; rfl
    · constructor
      · intro hc; cases hc
      · intro hc; omega

/-- Witness for C9 at a concrete input: total 10, reclaim 4, available 7
(strictly above the difference) proceeds. -/
theorem C9_merge_space_check_witness :
    (mergeSpaceCheck 10 4 7 = .ok () ↔ 7 > 10 - 4) ∧
    (mergeSpaceCheck 10 4 7 = .error .MergeNoEnoughSpace ↔ 7 ≤ 10 - 4) :=
  C9_merge_space_check 10 4 7 (by decide) (by decide)


/-! ## Engine state (`src/db.rs`)

The engine's observable state: the configuration, every data file on disk
(the active file included) with the I/O backend bound to it, the cached
write offset of the active file, the keydir, the sequence counter and the
bookkeeping counters. The keydir is carried in its decoded ordered-map
form for all three `index_type` settings: the `Indexer` trait contract
(`src/index/mod.rs`) is an ordered map whose `put`/`delete` return the
previous entry. Locks, fsync behavior and the `bytes_write` counter have
no observable effect in this embedding and are omitted. -/

/-- The three `IndexType` settings (`src/options.rs`). -/
inductive IndexType where
  | BTree
  | SkipList
  | BPlusTree
  deriving DecidableEq, Repr

/-- The configuration fields the embedded behavior depends on. -/
structure EngineOptions where
  dataFileSize : Nat
  indexType : IndexType
  mmapAtStartup : Bool
  deriving DecidableEq, Repr

/-- A data file: its on-disk bytes and the I/O backend bound to it. -/
structure FileEntry where
  data : Bytes
  io : IoType
  deriving DecidableEq, Repr

structure EngineState where
  opts : EngineOptions
  /-- every data file by id; the entry for `activeFid` is the active file,
  the rest are the `older_files` map. -/
  files : List (Nat × FileEntry)
  activeFid : Nat
  /-- the active `DataFile`'s cached `write_off`. -/
  writeOff : Nat
  index : IdxMap
  seqNo : Nat
  reclaimSize : Nat
  seqFileExists : Bool
  isInitial : Bool
  deriving DecidableEq, Repr

def lookupFid {α : Type} : List (Nat × α) → Nat → Option α
  | [], _ => none
  | (k0, v0) :: rest, k => if k = k0 then some v0 else lookupFid rest k

/-- Append bytes to the on-disk data of file `fid`. -/
def filesAppend : List (Nat × FileEntry) → Nat → Bytes → List (Nat × FileEntry)
  | [], _, _ => []
  | (k0, e0) :: rest, fid, bs =>
    if k0 = fid then (k0, ⟨e0.data ++ bs, e0.io⟩) :: filesAppend rest fid bs
    else (k0, e0) :: filesAppend rest fid bs

/-- Rebind file `fid` to an I/O backend (`DataFile::new` /
`set_io_manager`: the on-disk bytes are untouched). -/
def filesSetIo : List (Nat × FileEntry) → Nat → IoType → List (Nat × FileEntry)
  | [], _, _ => []
  | (k0, e0) :: rest, fid, io =>
    if k0 = fid then (k0, ⟨e0.data, io⟩) :: filesSetIo rest fid io
    else (k0, e0) :: filesSetIo rest fid io

/-- Keydir put with the `Indexer` trait contract: insert, return the
previous position. -/
def idxPut (m : IdxMap) (k : Bytes) (p : LogRecordPos) :
    IdxMap × Option LogRecordPos :=
  (assocInsert m k p, assocGet m k)

/-- Keydir delete with the `Indexer` trait contract: remove, return the
removed position. -/
def idxDel (m : IdxMap) (k : Bytes) : IdxMap × Option LogRecordPos :=
  (assocErase m k, assocGet m k)

/-- `Engine::append_log_record`: encode; roll the active file over when
the record would cross `data_file_size` (reopen the current id fd-backed
into the older map, start an empty file with id+1); record the pre-append
write offset; append; return `{file_id, offset, size}`. -/
def appendLogRecord (s : EngineState) (record : LogRecord) :
    EngineState × LogRecordPos :=
  let enc := record.encode
  let s1 :=
    if s.writeOff + enc.length > s.opts.dataFileSize then
      { s with
        files := filesSetIo s.files s.activeFid .fileIo ++
          [(s.activeFid + 1, ⟨[], .fileIo⟩)],
        activeFid := s.activeFid + 1,
        writeOff := 0 }
    else s
  let pos : LogRecordPos := ⟨s1.activeFid, s1.writeOff, enc.length⟩
  ({ s1 with
      files := filesAppend s1.files s1.activeFid enc,
      writeOff := s1.writeOff + enc.length },
    pos)

/-- `Engine::put`. -/
def enginePut (s : EngineState) (key value : Bytes) : Except Errors EngineState :=
  if key = [] then .error .KeyIsEmpty
  else
    let record : LogRecord := ⟨logRecordKeyWithSeq key NON_TXN_SEQ_NO, value, .NOAMAL⟩
    let (s1, pos) := appendLogRecord s record
    let (idx1, old) := idxPut s1.index key pos
    .ok { s1 with
      index := idx1,
      reclaimSize := s1.reclaimSize + (match old with
        | some oldPos => oldPos.size
        | none => 0) }

/-- `Engine::get_value_by_position`: read through the file the position
names (the active file when the ids match, the older map otherwise) and
hide tombstones as `KeyIsNotFound`. -/
def getValueByPosition (s : EngineState) (pos : LogRecordPos) :
    Except Errors Bytes :=
  match lookupFid s.files pos.file_id with
  | none => .error .DataFileIsNotFound
  | some f =>
    match dataFileRead f.io f.data pos.offset with
    | .error e => .error e
    | .ok (record, _) =>
      match record.rec_type with
      | .DELETED => .error .KeyIsNotFound
      | _ => .ok record.value

/-- `Engine::get`. -/
def engineGet (s : EngineState) (key : Bytes) : Except Errors Bytes :=
  if key = [] then .error .KeyIsEmpty
  else
    match idxGet s.index key with
    | none => .error .KeyIsNotFound
    | some pos => getValueByPosition s pos

/-- `Engine::delete`: no-op success on the empty key and on a key absent
from the keydir; otherwise append a tombstone, count its size as
reclaimable, remove the keydir entry and count the removed entry too. -/
def engineDelete (s : EngineState) (key : Bytes) : EngineState :=
  if key = [] then s
  else
    match idxGet s.index key with
    | none => s
    | some _ =>
      let record : LogRecord := ⟨logRecordKeyWithSeq key NON_TXN_SEQ_NO, [], .DELETED⟩
      let (s1, pos) := appendLogRecord s record
      let s2 := { s1 with reclaimSize := s1.reclaimSize + pos.size }
      let (idx1, old) := idxDel s2.index key
      { s2 with
        index := idx1,
        reclaimSize := s2.reclaimSize + (match old with
          | some oldPos => oldPos.size
          | none => 0) }

/-- `Engine::update_index` (startup replay and batch commit): Normal
records insert, Deleted records remove; reclaimable bytes are counted as
in the source. -/
def updateIndex (s : EngineState) (key : Bytes) (rt : LogRecordType)
    (pos : LogRecordPos) : EngineState :=
  match rt with
  | .NOAMAL =>
    let (idx1, old) := idxPut s.index key pos
    { s with
      index := idx1,
      reclaimSize := s.reclaimSize + (match old with
        | some oldPos => oldPos.size
        | none => 0) }
  | .DELETED =>
    let (idx1, old) := idxDel s.index key
    { s with
      index := idx1,
      reclaimSize := s.reclaimSize + pos.size + (match old with
        | some oldPos => oldPos.size
        | none => 0) }
  | .TXNFINISHED => s

/-- The append loop of `WriteBatch::commit` step 4: append every pending
record with the sequence-prefixed key, collecting each returned position
under the record's key. -/
def appendPending (seqNo : Nat) :
    EngineState → List (Bytes × LogRecordPos) → PendingMap →
      EngineState × List (Bytes × LogRecordPos)
  | st, ps, [] => (st, ps)
  | st, ps, (k, item) :: rest =>
    let record : LogRecord := ⟨logRecordKeyWithSeq k seqNo, item.value, item.rec_type⟩
    let (st1, pos) := appendLogRecord st record
    appendPending seqNo st1 (hashInsert ps item.key pos) rest

/-- The index-application loop of `WriteBatch::commit` step 7; the
`positions.get(key).unwrap()` panic is `ModelPanic`. -/
def applyPendingIndex (positions : List (Bytes × LogRecordPos)) :
    EngineState → PendingMap → Except Errors EngineState
  | st, [] => .ok st
  | st, (k, record) :: rest =>
    match assocGet positions k with
    | none => .error .ModelPanic
    | some pos => applyPendingIndex positions (updateIndex st k record.rec_type pos) rest

/-- `WriteBatch::commit`: empty batch is a no-op; oversize batch errors;
otherwise allocate the next sequence number, append the staged records
then the TxnFinished terminator, and apply the staged records to the
keydir at their returned positions. -/
def wbCommit (s : EngineState) (pending : PendingMap) (maxBatchNum : Nat) :
    Except Errors EngineState :=
  if pending.length = 0 then .ok s
  else if pending.length > maxBatchNum then .error .ExceedMaxBatchNum
  else
    let seqNo := s.seqNo
    let s0 := { s with seqNo := s.seqNo + 1 }
    let (s1, positions) := appendPending seqNo s0 [] pending
    let (s2, _) := appendLogRecord s1
      ⟨logRecordKeyWithSeq TXN_FIN_KEY seqNo, [], .TXNFINISHED⟩
    applyPendingIndex positions s2 pending


/-! ## Lookup and update lemmas for the file store -/

theorem lookupFid_filesAppend_self (fs : List (Nat × FileEntry)) (fid : Nat)
    (bs : Bytes) (f : FileEntry) (h : lookupFid fs fid = some f) :
    lookupFid (filesAppend fs fid bs) fid = some ⟨f.data ++ bs, f.io⟩ := by
  induction fs with
  | nil => simp [lookupFid] at h
  | cons hd t ih =>
    obtain ⟨k0, e0⟩ := hd
    by_cases heq : k0 = fid
    · subst heq
      simp [lookupFid] at h
      subst h
      simp [filesAppend, lookupFid]
    · have hne : fid ≠ k0 := fun hc => heq hc.symm
      simp [lookupFid, hne] at h
      simp [filesAppend, heq, lookupFid, hne]
      exact ih h

theorem lookupFid_filesAppend_ne (fs : List (Nat × FileEntry)) (fid fid' : Nat)
    (bs : Bytes) (h : fid' ≠ fid) :
    lookupFid (filesAppend fs fid bs) fid' = lookupFid fs fid' := by
  induction fs with
  | nil => simp [filesAppend]
  | cons hd t ih =>
    obtain ⟨k0, e0⟩ := hd
    by_cases heq : k0 = fid
    · subst heq
      simp [filesAppend, lookupFid, h, ih]
    · simp only [filesAppend, if_neg heq]
      by_cases h0 : fid' = k0
      · simp [lookupFid, h0]
      · simp [lookupFid, h0, ih]

theorem lookupFid_filesSetIo_self (fs : List (Nat × FileEntry)) (fid : Nat)
    (io : IoType) (f : FileEntry) (h : lookupFid fs fid = some f) :
    lookupFid (filesSetIo fs fid io) fid = some ⟨f.data, io⟩ := by
  induction fs with
  | nil => simp [lookupFid] at h
  | cons hd t ih =>
    obtain ⟨k0, e0⟩ := hd
    by_cases heq : k0 = fid
    · subst heq
      simp [lookupFid] at h
      subst h
      simp [filesSetIo, lookupFid]
    · have hne : fid ≠ k0 := fun hc => heq hc.symm
      simp [lookupFid, hne] at h
      simp [filesSetIo, heq, lookupFid, hne]
      exact ih h

theorem lookupFid_filesSetIo_ne (fs : List (Nat × FileEntry)) (fid fid' : Nat)
    (io : IoType) (h : fid' ≠ fid) :
    lookupFid (filesSetIo fs fid io) fid' = lookupFid fs fid' := by
  induction fs with
  | nil => simp [filesSetIo]
  | cons hd t ih =>
    obtain ⟨k0, e0⟩ := hd
    by_cases heq : k0 = fid
    · subst heq
      simp [filesSetIo, lookupFid, h, ih]
    · simp only [filesSetIo, if_neg heq]
      by_cases h0 : fid' = k0
      · simp [lookupFid, h0]
      · simp [lookupFid, h0, ih]

theorem lookupFid_append_left {α : Type} (fs l : List (Nat × α)) (fid : Nat)
    (v : α) (h : lookupFid fs fid = some v) :
    lookupFid (fs ++ l) fid = some v := by
  induction fs with
  | nil => simp [lookupFid] at h
  | cons hd t ih =>
    obtain ⟨k0, v0⟩ := hd
    by_cases heq : fid = k0
    · subst heq
      simp [lookupFid] at h ⊢
      exact h
    · simp [lookupFid, heq] at h ⊢
      exact ih h

theorem lookupFid_eq_none {α : Type} (fs : List (Nat × α)) (fid : Nat)
    (h : ∀ kv ∈ fs, kv.1 ≠ fid) : lookupFid fs fid = none := by
  induction fs with
  | nil => rfl
  | cons hd t ih =>
    obtain ⟨k0, v0⟩ := hd
    have h0 : k0 ≠ fid := h (k0, v0) (by simp)
    have hne : fid ≠ k0 := fun hc => h0 hc.symm
    simp only [lookupFid, if_neg hne]
    exact ih (fun kv hkv => h kv (by simp [hkv]))

theorem lookupFid_append_right_self {α : Type} (fs : List (Nat × α)) (fid : Nat)
    (v : α) (h : lookupFid fs fid = none) :
    lookupFid (fs ++ [(fid, v)]) fid = some v := by
  induction fs with
  | nil => simp [lookupFid]
  | cons hd t ih =>
    obtain ⟨k0, v0⟩ := hd
    by_cases heq : fid = k0
    · subst heq
      simp [lookupFid] at h
    · simp [lookupFid, heq] at h ⊢
      exact ih h

theorem lookupFid_mem {fs : List (Nat × FileEntry)} {fid : Nat} {e : FileEntry}
    (h : lookupFid fs fid = some e) : (fid, e) ∈ fs := by
  induction fs with
  | nil => simp [lookupFid] at h
  | cons hd t ih =>
    obtain ⟨k0, v0⟩ := hd
    by_cases heq : fid = k0
    · subst heq
      simp [lookupFid] at h
      simp [h]
    · simp [lookupFid, heq] at h
      simp [ih h]

theorem mem_filesAppend {fs : List (Nat × FileEntry)} {fid : Nat} {bs : Bytes}
    {kv : Nat × FileEntry} (h : kv ∈ filesAppend fs fid bs) :
    ∃ kv0 ∈ fs, kv.1 = kv0.1 ∧ kv.2.io = kv0.2.io := by
  induction fs with
  | nil => simp [filesAppend] at h
  | cons hd t ih =>
    obtain ⟨k0, e0⟩ := hd
    by_cases heq : k0 = fid
    · subst heq
      simp [filesAppend] at h
      rcases h with h | h
      · exact ⟨(k0, e0), by simp, by simp [h]⟩
      · obtain ⟨kv0, hkv0, he⟩ := ih h
        exact ⟨kv0, by simp [hkv0], he⟩
    · simp [filesAppend, heq] at h
      rcases h with h | h
      · exact ⟨(k0, e0), by simp, by simp [h]⟩
      · obtain ⟨kv0, hkv0, he⟩ := ih h
        exact ⟨kv0, by simp [hkv0], he⟩

theorem mem_filesSetIo {fs : List (Nat × FileEntry)} {fid : Nat} {io : IoType}
    {kv : Nat × FileEntry} (h : kv ∈ filesSetIo fs fid io) :
    ∃ kv0 ∈ fs, kv.1 = kv0.1 ∧ (kv.2.io = io ∨ kv.2.io = kv0.2.io) := by
  induction fs with
  | nil => simp [filesSetIo] at h
  | cons hd t ih =>
    obtain ⟨k0, e0⟩ := hd
    by_cases heq : k0 = fid
    · subst heq
      simp [filesSetIo] at h
      rcases h with h | h
      · exact ⟨(k0, e0), by simp, by simp [h]⟩
      · obtain ⟨kv0, hkv0, he⟩ := ih h
        exact ⟨kv0, by simp [hkv0], he⟩
    · simp [filesSetIo, heq] at h
      rcases h with h | h
      · exact ⟨(k0, e0), by simp, by simp [h]⟩
      · obtain ⟨kv0, hkv0, he⟩ := ih h
        exact ⟨kv0, by simp [hkv0], he⟩

/-! ## The reachable-state invariant and the live-record predicate -/

/-- The active file is present, fd-backed, and its cached write offset is
its on-disk length. -/
def activeOk (s : EngineState) : Prop :=
  match lookupFid s.files s.activeFid with
  | some f => s.writeOff = f.data.length ∧ f.io = IoType.fileIo
  | none => False

instance (s : EngineState) : Decidable (activeOk s) := by
  unfold activeOk
  cases lookupFid s.files s.activeFid <;> infer_instance

/-- The light engine invariant: the active file is consistent
(`activeOk`), every file id is at most the active id, and every data file
is fd-backed (as `reset_io_type` leaves them after a non-B+-tree open). -/
def InvL (s : EngineState) : Prop :=
  activeOk s ∧ ∀ kv ∈ s.files, kv.1 ≤ s.activeFid ∧ kv.2.io = IoType.fileIo

instance (s : EngineState) : Decidable (InvL s) := by
  unfold InvL
  infer_instance

/-- Key `k` is live with value `v`: the keydir names a position, and at
that position of the named (fd-backed) file sits an encoded Normal record
carrying `v`. -/
def Good (s : EngineState) (k v : Bytes) : Prop :=
  ∃ pos record rest f,
    idxGet s.index k = some pos ∧
    lookupFid s.files pos.file_id = some f ∧
    f.io = IoType.fileIo ∧
    pos.offset ≤ f.data.length ∧
    f.data.drop pos.offset = record.encode ++ rest ∧
    WFRecord record ∧ record.rec_type = .NOAMAL ∧ record.value = v

/-- Reading with the fd backend at an offset where an encoded record
starts recovers that record. -/
theorem dataFileRead_at (content : Bytes) (off : Nat) (r : LogRecord)
    (rest : Bytes) (hwf : WFRecord r) (hdrop : content.drop off = r.encode ++ rest) :
    dataFileRead .fileIo content off = .ok (r, r.encode.length) := by
  have h0 : ∀ L, ioRead .fileIo content off L =
      ioRead .fileIo (r.encode ++ rest) 0 L := by
    intro L
    simp [ioRead, hdrop]
  have h1 : ∀ h L, ioRead .fileIo content (off + h) L =
      ioRead .fileIo (r.encode ++ rest) (0 + h) L := by
    intro h L
    have hd : content.drop (off + h) = (r.encode ++ rest).drop (0 + h) := by
      rw [Nat.zero_add, ← List.drop_drop, hdrop]
    simp [ioRead, hd]
  calc dataFileRead .fileIo content off
      = dataFileRead .fileIo (r.encode ++ rest) 0 := by
        unfold dataFileRead
        simp only [h0, h1]
    _ = .ok (r, r.encode.length) := dataFileRead_encode r rest hwf

/-- A live key reads back its value. -/
theorem good_get (s : EngineState) (k v : Bytes) (hk : k ≠ [])
    (hG : Good s k v) : engineGet s k = .ok v := by
  obtain ⟨pos, record, rest, f, hidx, hfile, hio, _hle, hdrop, hwf, hty, hval⟩ := hG
  unfold engineGet
  rw [if_neg hk, hidx]
  dsimp only
  unfold getValueByPosition
  rw [hfile]
  dsimp only
  rw [hio, dataFileRead_at f.data pos.offset record rest hwf hdrop]
  dsimp only
  rw [hty]
  dsimp only
  rw [hval]

/-- Case characterization of `appendLogRecord`. -/
theorem appendLogRecord_eq (s : EngineState) (record : LogRecord) :
    appendLogRecord s record =
      if s.writeOff + record.encode.length > s.opts.dataFileSize then
        ({ s with
            files := filesAppend (filesSetIo s.files s.activeFid .fileIo ++
              [(s.activeFid + 1, ⟨[], .fileIo⟩)]) (s.activeFid + 1) record.encode,
            activeFid := s.activeFid + 1,
            writeOff := 0 + record.encode.length },
         ⟨s.activeFid + 1, 0, record.encode.length⟩)
      else
        ({ s with
            files := filesAppend s.files s.activeFid record.encode,
            writeOff := s.writeOff + record.encode.length },
         ⟨s.activeFid, s.writeOff, record.encode.length⟩) := by
  unfold appendLogRecord
  by_cases h : s.writeOff + record.encode.length > s.opts.dataFileSize <;> simp [h]

/-- `appendLogRecord` preserves the light invariant. -/
theorem invL_append (s : EngineState) (record : LogRecord) (hInv : InvL s) :
    InvL (appendLogRecord s record).1 := by
  obtain ⟨hact, hall⟩ := hInv
  unfold activeOk at hact
  cases hf : lookupFid s.files s.activeFid with
  | none => rw [hf] at hact; exact hact.elim
  | some f =>
    rw [hf] at hact
    obtain ⟨hoff, hio⟩ := hact
    rw [appendLogRecord_eq]
    by_cases hroll : s.writeOff + record.encode.length > s.opts.dataFileSize
    · simp only [if_pos hroll]
      have hnone : lookupFid (filesSetIo s.files s.activeFid .fileIo)
          (s.activeFid + 1) = none := by
        apply lookupFid_eq_none
        intro kv hkv
        obtain ⟨kv0, hkv0, hid, _⟩ := mem_filesSetIo hkv
        have h1 := (hall kv0 hkv0).1
        omega
      have hnew : lookupFid (filesSetIo s.files s.activeFid .fileIo ++
          [(s.activeFid + 1, (⟨[], .fileIo⟩ : FileEntry))]) (s.activeFid + 1) =
          some ⟨[], .fileIo⟩ := lookupFid_append_right_self _ _ _ hnone
      constructor
      · unfold activeOk
        simp only
        rw [lookupFid_filesAppend_self _ _ _ _ hnew]
        simp
      · intro kv hkv
        simp only at hkv
        obtain ⟨kv0, hkv0, hid, hioeq⟩ := mem_filesAppend hkv
        rcases List.mem_append.mp hkv0 with h0 | h0
        · obtain ⟨kv1, hkv1, hid1, hio1⟩ := mem_filesSetIo h0
          have h2 := hall kv1 hkv1
          refine ⟨by simp only [hid, hid1]; omega, ?_⟩
          rcases hio1 with hio1 | hio1
          · rw [hioeq, hio1]
          · rw [hioeq, hio1, h2.2]
        · simp at h0
          subst h0
          simp at hid hioeq
          exact ⟨by simp [hid], by rw [hioeq]⟩
    · simp only [if_neg hroll]
      constructor
      · unfold activeOk
        simp only
        rw [lookupFid_filesAppend_self _ _ _ _ hf]
        simp [hoff, hio]
      · intro kv hkv
        simp only at hkv
        obtain ⟨kv0, hkv0, hid, hioeq⟩ := mem_filesAppend hkv
        have h1 := hall kv0 hkv0
        exact ⟨by simp [hid, h1.1], by rw [hioeq, h1.2]⟩

/-- `appendLogRecord` leaves every live record live. -/
theorem good_append (s : EngineState) (record : LogRecord) (k v : Bytes)
    (hInv : InvL s) (hG : Good s k v) :
    Good (appendLogRecord s record).1 k v := by
  obtain ⟨hact, hall⟩ := hInv
  obtain ⟨pos, rcd, rest, f, hidx, hfile, hio, hle, hdrop, hwf, hty, hval⟩ := hG
  have hlt : pos.file_id ≤ s.activeFid := (hall _ (lookupFid_mem hfile)).1
  rw [appendLogRecord_eq]
  by_cases hroll : s.writeOff + record.encode.length > s.opts.dataFileSize
  · simp only [if_pos hroll]
    by_cases hc : pos.file_id = s.activeFid
    · refine ⟨pos, rcd, rest, ⟨f.data, .fileIo⟩, hidx, ?_, rfl, hle, hdrop,
        hwf, hty, hval⟩
      simp only
      rw [lookupFid_filesAppend_ne _ _ _ _ (by omega)]
      rw [hc]
      apply lookupFid_append_left
      exact lookupFid_filesSetIo_self _ _ _ _ (hc ▸ hfile)
    · refine ⟨pos, rcd, rest, f, hidx, ?_, hio, hle, hdrop, hwf, hty, hval⟩
      simp only
      rw [lookupFid_filesAppend_ne _ _ _ _ (by omega)]
      apply lookupFid_append_left
      rw [lookupFid_filesSetIo_ne _ _ _ _ hc]
      exact hfile
  · simp only [if_neg hroll]
    by_cases hc : pos.file_id = s.activeFid
    · refine ⟨pos, rcd, rest ++ record.encode,
        ⟨f.data ++ record.encode, f.io⟩, hidx, ?_, hio, ?_, ?_, hwf, hty, hval⟩
      · simp only
        rw [hc]
        exact lookupFid_filesAppend_self _ _ _ _ (hc ▸ hfile)
      · simp
        omega
      · simp only
        rw [List.drop_append_of_le_length hle, hdrop, List.append_assoc]
    · refine ⟨pos, rcd, rest, f, hidx, ?_, hio, hle, hdrop, hwf, hty, hval⟩
      simp only
      rw [lookupFid_filesAppend_ne _ _ _ _ hc]
      exact hfile


/-- `Good` depends only on the keydir entry for `k` and the file store. -/
theorem good_of_eq (s s' : EngineState) (k v : Bytes)
    (hidx : idxGet s'.index k = idxGet s.index k) (hfiles : s'.files = s.files)
    (hG : Good s k v) : Good s' k v := by
  obtain ⟨pos, rcd, rest, f, h1, h2, h3, h4, h5, h6, h7, h8⟩ := hG
  exact ⟨pos, rcd, rest, f, by rw [hidx, h1], by rw [hfiles]; exact h2,
    h3, h4, h5, h6, h7, h8⟩

/-- `InvL` depends only on the file store, active id and write offset. -/
theorem invL_of_eq (s s' : EngineState)
    (hfiles : s'.files = s.files) (hact : s'.activeFid = s.activeFid)
    (hoff : s'.writeOff = s.writeOff) (hInv : InvL s) : InvL s' := by
  obtain ⟨h1, h2⟩ := hInv
  constructor
  · unfold activeOk at h1 ⊢
    rw [hfiles, hact, hoff]
    exact h1
  · intro kv hkv
    rw [hfiles] at hkv
    rw [hact]
    exact h2 kv hkv

/-- What one append establishes: the record's bytes sit at the returned
position, which names the new active file, the pre-append write offset
and the encoded size. -/
theorem append_establishes (s : EngineState) (record : LogRecord) (hInv : InvL s) :
    ∃ f, lookupFid (appendLogRecord s record).1.files
        (appendLogRecord s record).1.activeFid = some f ∧
      f.io = .fileIo ∧
      (appendLogRecord s record).2.file_id = (appendLogRecord s record).1.activeFid ∧
      (appendLogRecord s record).2.size = record.encode.length ∧
      (appendLogRecord s record).2.offset ≤ f.data.length ∧
      f.data.drop (appendLogRecord s record).2.offset = record.encode ++ [] ∧
      (appendLogRecord s record).2.offset + record.encode.length =
        (appendLogRecord s record).1.writeOff ∧
      f.data.length = (appendLogRecord s record).1.writeOff := by
  obtain ⟨hact, hall⟩ := hInv
  unfold activeOk at hact
  cases hf : lookupFid s.files s.activeFid with
  | none => rw [hf] at hact; exact hact.elim
  | some f0 =>
    rw [hf] at hact
    obtain ⟨hoff, hio⟩ := hact
    rw [appendLogRecord_eq]
    by_cases hroll : s.writeOff + record.encode.length > s.opts.dataFileSize
    · rw [if_pos hroll]
      have hnone : lookupFid (filesSetIo s.files s.activeFid .fileIo)
          (s.activeFid + 1) = none := by
        apply lookupFid_eq_none
        intro kv hkv
        obtain ⟨kv0, hkv0, hid, _⟩ := mem_filesSetIo hkv
        have h1 := (hall kv0 hkv0).1
        omega
      have hnew : lookupFid (filesSetIo s.files s.activeFid .fileIo ++
          [(s.activeFid + 1, (⟨[], .fileIo⟩ : FileEntry))]) (s.activeFid + 1) =
          some ⟨[], .fileIo⟩ := lookupFid_append_right_self _ _ _ hnone
      refine ⟨⟨[] ++ record.encode, .fileIo⟩, ?_, rfl, rfl, rfl, by simp, by simp,
        rfl, by simp⟩
      exact lookupFid_filesAppend_self _ _ _ _ hnew
    · rw [if_neg hroll]
      refine ⟨⟨f0.data ++ record.encode, f0.io⟩, ?_, by rw [hio], rfl, rfl, ?_, ?_,
        rfl, ?_⟩
      · exact lookupFid_filesAppend_self _ _ _ _ hf
      · show s.writeOff ≤ (f0.data ++ record.encode).length
        simp [hoff]
      · show (f0.data ++ record.encode).drop s.writeOff = record.encode ++ []
        rw [hoff, List.drop_left]
        simp
      · show (f0.data ++ record.encode).length = s.writeOff + record.encode.length
        simp [hoff]

/-- `updateIndex` on a different key preserves the invariant and
liveness. -/
theorem updateIndex_preserves (st : EngineState) (k' : Bytes)
    (rt : LogRecordType) (pos : LogRecordPos) (k v : Bytes) (hne : k' ≠ k)
    (hInv : InvL st) (hG : Good st k v) :
    InvL (updateIndex st k' rt pos) ∧ Good (updateIndex st k' rt pos) k v := by
  have hne' : k ≠ k' := fun hc => hne hc.symm
  cases rt with
  | NOAMAL =>
    refine ⟨invL_of_eq st _ rfl rfl rfl hInv, good_of_eq st _ k v ?_ rfl hG⟩
    simp [updateIndex, idxPut, idxGet]
    exact assocGet_insert_ne _ _ _ _ hne'
  | DELETED =>
    refine ⟨invL_of_eq st _ rfl rfl rfl hInv, good_of_eq st _ k v ?_ rfl hG⟩
    simp [updateIndex, idxDel, idxGet]
    exact assocGet_erase_ne _ _ _ hne'
  | TXNFINISHED =>
    exact ⟨invL_of_eq st _ rfl rfl rfl hInv, good_of_eq st _ k v rfl rfl hG⟩

/-- The operations an open engine serves (the batch operation carries its
staged map and `max_batch_num`). -/
inductive EngOp where
  | put (k v : Bytes)
  | del (k : Bytes)
  | commit (pending : PendingMap) (maxBatchNum : Nat)

/-- Whether an operation touches key `k`. -/
def touches (k : Bytes) : EngOp → Bool
  | .put k' _ => k' == k
  | .del k' => k' == k
  | .commit pending _ => pending.any (fun kv => kv.1 == k)

/-- Run one operation; a failing operation leaves the state unchanged
(the failing paths of the embedded operations write nothing the later
reads observe). -/
def applyOp (s : EngineState) : EngOp → EngineState
  | .put k v =>
    match enginePut s k v with
    | .ok s1 => s1
    | .error _ => s
  | .del k => engineDelete s k
  | .commit pending maxN =>
    match wbCommit s pending maxN with
    | .ok s1 => s1
    | .error _ => s

def applyOps (s : EngineState) (ops : List EngOp) : EngineState :=
  ops.foldl applyOp s

/-- `appendPending` (the commit append loop) preserves the invariant and
liveness. -/
theorem appendPending_preserves (seqNo : Nat) (k v : Bytes) :
    ∀ (pending : PendingMap) (st : EngineState) (ps : List (Bytes × LogRecordPos)),
      InvL st → Good st k v →
      InvL (appendPending seqNo st ps pending).1 ∧
        Good (appendPending seqNo st ps pending).1 k v := by
  intro pending
  induction pending with
  | nil => intro st ps hInv hG; exact ⟨hInv, hG⟩
  | cons hd rest ih =>
    intro st ps hInv hG
    obtain ⟨k0, item⟩ := hd
    unfold appendPending
    exact ih _ _ (invL_append _ _ hInv) (good_append _ _ _ _ hInv hG)

/-- `applyPendingIndex` (the commit index loop) preserves the invariant
and liveness when no staged key is `k`. -/
theorem applyPendingIndex_preserves (positions : List (Bytes × LogRecordPos))
    (k v : Bytes) :
    ∀ (pending : PendingMap) (st s' : EngineState),
      (∀ kv ∈ pending, kv.1 ≠ k) → InvL st → Good st k v →
      applyPendingIndex positions st pending = .ok s' →
      InvL s' ∧ Good s' k v := by
  intro pending
  induction pending with
  | nil =>
    intro st s' _ hInv hG h
    unfold applyPendingIndex at h
    cases h
    exact ⟨hInv, hG⟩
  | cons hd rest ih =>
    intro st s' hne hInv hG h
    obtain ⟨k0, record⟩ := hd
    unfold applyPendingIndex at h
    cases hp : assocGet positions k0 with
    | none => rw [hp] at h; cases h
    | some pos =>
      rw [hp] at h
      have hk0 : k0 ≠ k := hne (k0, record) (by simp)
      obtain ⟨hInv1, hG1⟩ :=
        updateIndex_preserves st k0 record.rec_type pos k v hk0 hInv hG
      exact ih _ _ (fun kv hkv => hne kv (by simp [hkv])) hInv1 hG1 h

/-- One operation that does not touch `k` preserves the invariant and
liveness of `k`. -/
theorem applyOp_preserves (s : EngineState) (op : EngOp) (k v : Bytes)
    (hInv : InvL s) (hG : Good s k v) (ht : touches k op = false) :
    InvL (applyOp s op) ∧ Good (applyOp s op) k v := by
  cases op with
  | put k' v' =>
    simp only [touches, beq_eq_false_iff_ne, ne_eq] at ht
    cases hp : enginePut s k' v' with
    | error e =>
      simp only [applyOp, hp]
      exact ⟨hInv, hG⟩
    | ok s1 =>
      simp only [applyOp, hp]
      by_cases hk' : k' = []
      · unfold enginePut at hp
        rw [if_pos hk'] at hp
        cases hp
      · unfold enginePut at hp
        rw [if_neg hk'] at hp
        dsimp only at hp
        injection hp with hp1
        subst hp1
        have hInv1 := invL_append s
          ⟨logRecordKeyWithSeq k' NON_TXN_SEQ_NO, v', .NOAMAL⟩ hInv
        have hG1 := good_append s
          ⟨logRecordKeyWithSeq k' NON_TXN_SEQ_NO, v', .NOAMAL⟩ k v hInv hG
        refine ⟨invL_of_eq _ _ rfl rfl rfl hInv1, ?_⟩
        refine good_of_eq _ _ k v ?_ ?_ hG1
        · simp only [idxPut, idxGet]
          exact assocGet_insert_ne _ _ _ _ (fun hc => ht hc.symm)
        · rfl
  | del k' =>
    simp only [touches, beq_eq_false_iff_ne, ne_eq] at ht
    simp only [applyOp]
    unfold engineDelete
    by_cases hk' : k' = []
    · rw [if_pos hk']
      exact ⟨hInv, hG⟩
    · rw [if_neg hk']
      cases hq : idxGet s.index k' with
      | none => exact ⟨hInv, hG⟩
      | some pos0 =>
        dsimp only
        have hInv1 := invL_append s
          ⟨logRecordKeyWithSeq k' NON_TXN_SEQ_NO, [], .DELETED⟩ hInv
        have hG1 := good_append s
          ⟨logRecordKeyWithSeq k' NON_TXN_SEQ_NO, [], .DELETED⟩ k v hInv hG
        refine ⟨invL_of_eq _ _ rfl rfl rfl hInv1, ?_⟩
        refine good_of_eq _ _ k v ?_ ?_ hG1
        · simp only [idxDel, idxGet]
          exact assocGet_erase_ne _ _ _ (fun hc => ht hc.symm)
        · rfl
  | commit pending maxN =>
    have hne : ∀ kv ∈ pending, kv.1 ≠ k := by
      intro kv hkv hc
      have h2 : touches k (EngOp.commit pending maxN) = true := by
        simp only [touches, List.any_eq_true]
        exact ⟨kv, hkv, by simp [hc]⟩
      rw [ht] at h2
      exact Bool.false_ne_true h2
    cases hp : wbCommit s pending maxN with
    | error e =>
      simp only [applyOp, hp]
      exact ⟨hInv, hG⟩
    | ok s2 =>
      simp only [applyOp, hp]
      unfold wbCommit at hp
      by_cases h0 : pending.length = 0
      · rw [if_pos h0] at hp
        injection hp with hp1
        subst hp1
        exact ⟨hInv, hG⟩
      · rw [if_neg h0] at hp
        by_cases h1 : pending.length > maxN
        · rw [if_pos h1] at hp
          cases hp
        · rw [if_neg h1] at hp
          dsimp only at hp
          have hInv0 : InvL { s with seqNo := s.seqNo + 1 } :=
            invL_of_eq _ _ rfl rfl rfl hInv
          have hG0 : Good { s with seqNo := s.seqNo + 1 } k v :=
            good_of_eq _ _ k v rfl rfl hG
          obtain ⟨hInv1, hG1⟩ := appendPending_preserves s.seqNo k v pending
            { s with seqNo := s.seqNo + 1 } [] hInv0 hG0
          have hInv2 := invL_append _
            ⟨logRecordKeyWithSeq TXN_FIN_KEY s.seqNo, [], .TXNFINISHED⟩ hInv1
          have hG2 := good_append _
            ⟨logRecordKeyWithSeq TXN_FIN_KEY s.seqNo, [], .TXNFINISHED⟩ k v hInv1 hG1
          exact applyPendingIndex_preserves _ k v pending _ _ hne hInv2 hG2 hp

/-- A sequence of operations not touching `k` preserves the invariant and
liveness of `k`. -/
theorem applyOps_preserves (k v : Bytes) :
    ∀ (ops : List EngOp) (s : EngineState), InvL s → Good s k v →
      (∀ op ∈ ops, touches k op = false) →
      InvL (applyOps s ops) ∧ Good (applyOps s ops) k v := by
  intro ops
  induction ops with
  | nil => intro s hInv hG _; exact ⟨hInv, hG⟩
  | cons op rest ih =>
    intro s hInv hG hops
    obtain ⟨hInv1, hG1⟩ := applyOp_preserves s op k v hInv hG (hops op (by simp))
    exact ih _ hInv1 hG1 (fun o ho => hops o (by simp [ho]))

/-- A successful `put` leaves the invariant intact and the key live. -/
theorem put_establishes (s : EngineState) (k v : Bytes) (s1 : EngineState)
    (hk : k ≠ []) (hk31 : k.length < 2 ^ 31) (hv31 : v.length < 2 ^ 31)
    (hInv : InvL s) (hput : enginePut s k v = .ok s1) :
    InvL s1 ∧ Good s1 k v := by
  unfold enginePut at hput
  rw [if_neg hk] at hput
  dsimp only at hput
  set record : LogRecord := ⟨logRecordKeyWithSeq k NON_TXN_SEQ_NO, v, .NOAMAL⟩ with hrec
  have hwf : WFRecord record := by
    refine ⟨?_, ?_, ?_⟩
    · rw [hrec]
      intro hcontra
      have h2 := List.append_eq_nil.mp
        (show vEnc NON_TXN_SEQ_NO ++ k = [] from hcontra)
      exact vEnc_ne_nil _ h2.1
    · rw [hrec]
      simp [logRecordKeyWithSeq, NON_TXN_SEQ_NO]
      have h1 : (vEnc 0).length = 1 := by rw [vEnc_eq]; simp
      rw [h1]
      omega
    · rw [hrec]
      simp only
      omega
  obtain ⟨f, hlk, hio, hfid, hsz, hle, hdropf, _hoffw, _hlenw⟩ :=
    append_establishes s record hInv
  have hInv1 := invL_append s record hInv
  injection hput with hput1
  subst hput1
  constructor
  · exact invL_of_eq _ _ rfl rfl rfl hInv1
  · refine ⟨(appendLogRecord s record).2, record, [], f, ?_, ?_, hio, ?_, ?_, hwf, rfl, rfl⟩
    · simp [idxPut, idxGet]
      exact assocGet_insert_self _ _ _
    · simp only
      rw [hfid]
      exact hlk
    · exact hle
    · exact hdropf


/-- Claim C6: a successful append returns a position descriptor whose
`file_id` is the id of the active file that received the record, whose
`offset` is that file's write offset immediately before the append (the
record's bytes are the file's tail starting there, and offset plus
encoded length is the post-append write offset), and whose `size` is the
encoded record's byte length. -/
theorem C6_append_log_record_position (s : EngineState) (record : LogRecord)
    (hInv : InvL s) :
    (appendLogRecord s record).2.file_id = (appendLogRecord s record).1.activeFid ∧
    (appendLogRecord s record).2.size = record.encode.length ∧
    (appendLogRecord s record).2.offset + record.encode.length =
      (appendLogRecord s record).1.writeOff ∧
    ∃ f, lookupFid (appendLogRecord s record).1.files
        (appendLogRecord s record).1.activeFid = some f ∧
      f.data.drop (appendLogRecord s record).2.offset = record.encode ++ [] ∧
      f.data.length = (appendLogRecord s record).1.writeOff := by
  obtain ⟨f, h1, _h2, h3, h4, _h5, h6, h7, h8⟩ := append_establishes s record hInv
  exact ⟨h3, h4, h7, f, h1, h6, h8⟩

/-- A freshly opened engine on an empty directory (active file 0, empty,
fd-backed), used to instantiate the universal theorems. -/
def witState0 : EngineState :=
  ⟨⟨256, .SkipList, false⟩, [(0, ⟨[], .fileIo⟩)], 0, 0, [], 1, 0, false, true⟩

/-- Witness for C6 at a concrete input. -/
theorem C6_append_log_record_position_witness :
    (appendLogRecord witState0 ⟨[0, 97], [98], .NOAMAL⟩).2.file_id =
      (appendLogRecord witState0 ⟨[0, 97], [98], .NOAMAL⟩).1.activeFid ∧
    (appendLogRecord witState0 ⟨[0, 97], [98], .NOAMAL⟩).2.size =
      (LogRecord.mk [0, 97] [98] .NOAMAL).encode.length ∧
    (appendLogRecord witState0 ⟨[0, 97], [98], .NOAMAL⟩).2.offset +
        (LogRecord.mk [0, 97] [98] .NOAMAL).encode.length =
      (appendLogRecord witState0 ⟨[0, 97], [98], .NOAMAL⟩).1.writeOff ∧
    ∃ f, lookupFid (appendLogRecord witState0 ⟨[0, 97], [98], .NOAMAL⟩).1.files
        (appendLogRecord witState0 ⟨[0, 97], [98], .NOAMAL⟩).1.activeFid = some f ∧
      f.data.drop (appendLogRecord witState0 ⟨[0, 97], [98], .NOAMAL⟩).2.offset =
        (LogRecord.mk [0, 97] [98] .NOAMAL).encode ++ [] ∧
      f.data.length = (appendLogRecord witState0 ⟨[0, 97], [98], .NOAMAL⟩).1.writeOff :=
  C6_append_log_record_position witState0 ⟨[0, 97], [98], .NOAMAL⟩ (by decide)

/-- Claim C1 (amended): for a non-empty key `k` and value `v` of
`u32`-bounded lengths, if `put(k, v)` succeeds on an open engine
satisfying the light invariant (fd-backed files, active write offset
equal to the active file's length — true after open for the ordered-map
and skip-list index types and for freshly initialized directories), and
no later put, delete or committed batch touches `k`, then `get(k)`
returns `v`. -/
theorem C1_put_then_get (s s1 : EngineState) (k v : Bytes) (ops : List EngOp)
    (hk : k ≠ []) (hk31 : k.length < 2 ^ 31) (hv31 : v.length < 2 ^ 31)
    (hInv : InvL s) (hput : enginePut s k v = .ok s1)
    (hops : ∀ op ∈ ops, touches k op = false) :
    engineGet (applyOps s1 ops) k = .ok v := by
  obtain ⟨hInv1, hG1⟩ := put_establishes s k v s1 hk hk31 hv31 hInv hput
  obtain ⟨_, hG2⟩ := applyOps_preserves k v ops s1 hInv1 hG1 hops
  exact good_get _ k v hk hG2

/-- The engine state after the witness put. -/
def c1AfterPut : EngineState :=
  match enginePut witState0 [97] [98, 99] with
  | .ok t => t
  | .error _ => witState0

set_option maxRecDepth 40000 in
/-- Witness for C1 at a concrete input: put key `[97]`, run a put, a
delete and a committed batch on other keys, read `[97]` back. -/
theorem C1_put_then_get_witness :
    engineGet (applyOps c1AfterPut
      [EngOp.put [100] [1], EngOp.del [100],
       EngOp.commit [([101], ⟨[101], [2], .NOAMAL⟩)] 1000]) [97] = .ok [98, 99] :=
  C1_put_then_get witState0 c1AfterPut [97] [98, 99]
    [EngOp.put [100] [1], EngOp.del [100],
     EngOp.commit [([101], ⟨[101], [2], .NOAMAL⟩)] 1000]
    (by decide) (by decide) (by decide) (by decide) (by decide) (by decide)


/-! ## Startup: directory contents, replay and `Engine::open`

A `Directory` is what survives between a close and the next open: the
data files, the `seq-no` sidecar (as its stored value) and the
`bptree-index` file (as the stored bucket). A fresh, not-yet-existing
data directory is `emptyDir`. Merge artifacts (`hint-index`,
`merge-finished`, a leftover merge directory) never exist in directories
produced by put/delete/commit/close and are not modelled. -/

structure Directory where
  dataFiles : List (Nat × Bytes)
  seqNoFile : Option Nat
  bptFile : BptBucket
  deriving DecidableEq, Repr

def emptyDir : Directory := ⟨[], none, []⟩

/-- Insertion sort by file id (`file_ids.sort()` in `load_data_files`). -/
def insertByFid (kv : Nat × Bytes) : List (Nat × Bytes) → List (Nat × Bytes)
  | [] => [kv]
  | hd :: t => if kv.1 ≤ hd.1 then kv :: hd :: t else hd :: insertByFid kv t

def sortByFid : List (Nat × Bytes) → List (Nat × Bytes)
  | [] => []
  | hd :: t => insertByFid hd (sortByFid t)

/-- Rebind every data file to fd I/O (`Engine::reset_io_type`). -/
def filesAllFileIo : List (Nat × FileEntry) → List (Nat × FileEntry)
  | [] => []
  | (k, f) :: t => (k, ⟨f.data, .fileIo⟩) :: filesAllFileIo t

/-- Decode a persisted B+-tree bucket into the keydir view. -/
def decodeBucket : BptBucket → Option IdxMap
  | [] => some []
  | (k, v) :: t =>
    match decodeLogRecordPos v, decodeBucket t with
    | some p, some m => some ((k, p) :: m)
    | _, _ => none

/-- Encode the keydir for persisting in the B+-tree bucket. -/
def encodeIdx : IdxMap → BptBucket
  | [] => []
  | (k, p) :: t => (k, p.encode) :: encodeIdx t

theorem decodeBucket_encodeIdx (m : IdxMap) : decodeBucket (encodeIdx m) = some m := by
  induction m with
  | nil => rfl
  | cons hd t ih =>
    obtain ⟨k, p⟩ := hd
    simp [encodeIdx, decodeBucket, decode_encode_pos, ih]

/-- The replay accumulator of `Engine::load_index`: the keydir under
construction, the staged transactions (`txn_batch`), the sequence counter
and the reclaimable-bytes counter. -/
structure ReplayAcc where
  index : IdxMap
  txn : List (Nat × List (LogRecord × LogRecordPos))
  seqNo : Nat
  reclaim : Nat
  deriving DecidableEq, Repr

def initAcc : ReplayAcc := ⟨[], [], 1, 0⟩

/-- Remove a staged transaction (`txn_batch.remove`). -/
def natErase {α : Type} : List (Nat × α) → Nat → List (Nat × α)
  | [], _ => []
  | (k0, v0) :: rest, k => if k0 = k then rest else (k0, v0) :: natErase rest k

/-- Stage one transactional record
(`txn_batch.entry(seq).or_insert(Vec::new()).push(..)`). -/
def txnPush (txn : List (Nat × List (LogRecord × LogRecordPos))) (sq : Nat)
    (item : LogRecord × LogRecordPos) : List (Nat × List (LogRecord × LogRecordPos)) :=
  match txn with
  | [] => [(sq, [item])]
  | (k0, l) :: t => if k0 = sq then (k0, l ++ [item]) :: t
    else (k0, l) :: txnPush t sq item

/-- `Engine::update_index` acting on the replay accumulator. -/
def updateIndexAcc (acc : ReplayAcc) (key : Bytes) (rt : LogRecordType)
    (pos : LogRecordPos) : ReplayAcc :=
  match rt with
  | .NOAMAL =>
    let (idx1, old) := idxPut acc.index key pos
    { acc with index := idx1, reclaim := acc.reclaim + (match old with
      | some oldPos => oldPos.size
      | none => 0) }
  | .DELETED =>
    let (idx1, old) := idxDel acc.index key
    { acc with index := idx1, reclaim := acc.reclaim + pos.size + (match old with
      | some oldPos => oldPos.size
      | none => 0) }
  | .TXNFINISHED => acc

/-- One record of the replay loop body of `Engine::load_index`: parse the
key, bump the sequence counter, then either apply directly (sequence 0),
flush a finished transaction, or stage. `unwrap` panics are `ModelPanic`. -/
def replayRecordStep (fid offset : Nat) (record : LogRecord) (size : Nat)
    (acc : ReplayAcc) : Except Errors ReplayAcc :=
  let pos : LogRecordPos := ⟨fid, offset, size⟩
  match parseLogRecordKey record.key with
  | none => .error .ModelPanic
  | some (realKey, seqNo) =>
    let acc1 := { acc with seqNo := max acc.seqNo (seqNo + 1) }
    if seqNo = NON_TXN_SEQ_NO then
      .ok (updateIndexAcc acc1 realKey record.rec_type pos)
    else if record.rec_type = .TXNFINISHED then
      match lookupFid acc1.txn seqNo with
      | none => .error .ModelPanic
      | some staged =>
        let acc2 := staged.foldl
          (fun a rp => updateIndexAcc a rp.1.key rp.1.rec_type rp.2) acc1
        .ok { acc2 with txn := natErase acc2.txn seqNo }
    else
      .ok { acc1 with
        txn := txnPush acc1.txn seqNo (⟨realKey, record.value, record.rec_type⟩, pos) }

/-- The per-file replay loop: read records until `ReadDataFileEOF`, feed
each to `replayRecordStep`, return the final offset. The fuel argument
only bounds the iteration count; `replayFile` supplies enough for any
content, since every record consumes at least seven bytes. -/
def replayFileLoop (io : IoType) (fid : Nat) (content : Bytes) :
    Nat → Nat → ReplayAcc → Except Errors (ReplayAcc × Nat)
  | 0, _, _ => .error .ModelPanic
  | fuel + 1, offset, acc =>
    match dataFileRead io content offset with
    | .error e => if e = .ReadDataFileEOF then .ok (acc, offset) else .error e
    | .ok (record, size) =>
      match replayRecordStep fid offset record size acc with
      | .error e => .error e
      | .ok acc1 => replayFileLoop io fid content fuel (offset + size) acc1

def replayFile (io : IoType) (fid : Nat) (content : Bytes) (acc : ReplayAcc) :
    Except Errors (ReplayAcc × Nat) :=
  replayFileLoop io fid content (content.length + 1) 0 acc

/-- Replay every data file in ascending id order, keeping the staged
transactions across files; the returned offset is where the scan of the
last (active) file stopped, which `load_index` installs as its
`write_off`. -/
def loadIndexFiles : List (Nat × FileEntry) → ReplayAcc →
    Except Errors (ReplayAcc × Nat)
  | [], acc => .ok (acc, 0)
  | [(fid, f)], acc => replayFile f.io fid f.data acc
  | (fid, f) :: rest, acc =>
    match replayFile f.io fid f.data acc with
    | .error e => .error e
    | .ok (acc1, _) => loadIndexFiles rest acc1

/-- The `index_type == BTree` tail of `Engine::open`: read (and delete)
the `seq-no` sidecar — storing its value, zero when the file is absent —
and set the active file's write offset to its on-disk size. -/
def btreeBranch (d : Directory) (opts : EngineOptions) (s : EngineState) :
    EngineState :=
  if opts.indexType = .BTree then
    let p := match d.seqNoFile with
      | none => (false, 0)
      | some v => (true, v)
    let fsize := match lookupFid s.files s.activeFid with
      | some f => f.data.length
      | none => 0
    { s with seqFileExists := p.1, seqNo := p.2, writeOff := fsize }
  else s

/-- The body of `Engine::open` once the data files are enumerated. -/
def openRest (d : Directory) (opts : EngineOptions)
    (files : List (Nat × FileEntry)) (activeFid : Nat) (isInit hadData : Bool) :
    Except Errors EngineState :=
  let base : EngineState := ⟨opts, files, activeFid, 0, [], 1, 0, false, isInit⟩
  if opts.indexType ≠ .BPlusTree then
    if hadData then
      match loadIndexFiles files initAcc with
      | .error e => .error e
      | .ok (acc, lastOff) =>
        .ok (btreeBranch d opts
          { base with
            index := acc.index, seqNo := acc.seqNo, reclaimSize := acc.reclaim,
            writeOff := lastOff, files := filesAllFileIo files })
    else .ok (btreeBranch d opts base)
  else
    match decodeBucket d.bptFile with
    | none => .error .ModelPanic
    | some idx => .ok (btreeBranch d opts { base with index := idx })

/-- `Engine::open` on a directory: validate the options, enumerate and
sort the data files (mmap-backed when `mmap_at_startup`), make the
highest id active (creating an empty fd-backed file 0 when none exist),
then — unless the keydir is the disk B+-tree — replay the log into the
keydir and reset every file to fd I/O; for the ordered-map keydir also
consume the `seq-no` sidecar and set the active write offset. -/
def openModel (d : Directory) (opts : EngineOptions) : Except Errors EngineState :=
  if opts.dataFileSize = 0 then .error .DataFileSizeInvalid
  else
    let isInit := d.dataFiles.isEmpty && d.seqNoFile.isNone && d.bptFile.isEmpty
    let ioT := if opts.mmapAtStartup then IoType.mmapIo else IoType.fileIo
    let loaded := (sortByFid d.dataFiles).map
      (fun kv => (kv.1, (⟨kv.2, ioT⟩ : FileEntry)))
    match loaded.getLast? with
    | none => openRest d opts [(0, ⟨[], .fileIo⟩)] 0 isInit false
    | some lastkv => openRest d opts loaded lastkv.1 isInit true

/-- `Engine::close`: write the sequence counter to the `seq-no` sidecar
and sync; the B+-tree bucket already holds the keydir (it is written
through on every keydir update). -/
def closeModel (s : EngineState) : Directory :=
  ⟨s.files.map (fun kv => (kv.1, kv.2.data)),
   some s.seqNo,
   if s.opts.indexType = .BPlusTree then encodeIdx s.index else []⟩


/-! ## A concrete close/reopen run

One engine run under the disk B+-tree keydir with mmap off: open a fresh
directory, put `[97] ↦ [1]`, close. The directory it leaves behind is
reopened below under several options. -/

def bptOptsOff : EngineOptions := ⟨256, .BPlusTree, false⟩

def c1xS0 : EngineState := ((openModel emptyDir bptOptsOff).toOption).getD witState0

def c1xS1 : EngineState := ((enginePut c1xS0 [97] [1]).toOption).getD witState0

def c1xS2 : EngineState :=
  ((openModel (closeModel c1xS1) bptOptsOff).toOption).getD witState0

def c1xS3 : EngineState := ((enginePut c1xS2 [98] [2]).toOption).getD witState0

set_option maxRecDepth 40000 in
/-- Under the disk B+-tree keydir, `Engine::open` never restores the
active file's `write_off` (the `load_index` replay and the BTree-branch
`set_write_off` are both skipped), so the first append after a reopen is
assigned offset 0 and overwrites nothing on disk while its keydir entry
points at the offset-0 record: after reopening the one-put directory,
`put [98] [2]` succeeds, no later operation touches `[98]`, yet
`get [98]` returns the first put's value `[1]`, not `[2]`. -/
theorem C1_bptree_reopen_counterexample :
    openModel (closeModel c1xS1) bptOptsOff = .ok c1xS2 ∧
    enginePut c1xS2 [98] [2] = .ok c1xS3 ∧
    engineGet c1xS3 [98] = .ok [1] ∧
    (Except.ok [1] : Except Errors Bytes) ≠ .ok [2] :=
  ⟨by decide, by decide, by decide, by decide⟩

def mmapBptOpts : EngineOptions := ⟨256, .BPlusTree, true⟩

def c8St : EngineState :=
  ((openModel (closeModel c1xS1) mmapBptOpts).toOption).getD witState0

def mmapSkipOpts : EngineOptions := ⟨256, .SkipList, true⟩

def c8StSkip : EngineState :=
  ((openModel (closeModel c1xS1) mmapSkipOpts).toOption).getD witState0

set_option maxRecDepth 40000 in
/-- With `mmap_at_startup` and the disk B+-tree keydir, `Engine::open`
returns successfully while the active data file is still backed by the
mmap manager — `reset_io_type` only runs in the `index_type ≠ BPlusTree`
branch — so the first `put` (or `sync`) after open reaches
`MMapIO::write`/`sync`, which are `unimplemented!()` panics. Under the
skip-list keydir the same directory and the same `mmap_at_startup`
setting come back fd-backed, as the claim expects. -/
theorem C8_bptree_mmap_not_reset :
    openModel (closeModel c1xS1) mmapBptOpts = .ok c8St ∧
    lookupFid c8St.files c8St.activeFid =
      some ⟨(LogRecord.mk (logRecordKeyWithSeq [97] NON_TXN_SEQ_NO) [1]
        .NOAMAL).encode, .mmapIo⟩ ∧
    openModel (closeModel c1xS1) mmapSkipOpts = .ok c8StSkip ∧
    lookupFid c8StSkip.files c8StSkip.activeFid =
      some ⟨(LogRecord.mk (logRecordKeyWithSeq [97] NON_TXN_SEQ_NO) [1]
        .NOAMAL).encode, .fileIo⟩ :=
  ⟨by decide, by decide, by decide, by decide⟩

set_option maxRecDepth 40000 in
/-- After reopening the one-put directory under the disk B+-tree keydir,
the active file's cached write offset is 0 while the file's on-disk size
is 10 bytes: the claimed invariant fails for `index_type = BPlusTree`. -/
theorem C10_bptree_write_off_counterexample :
    openModel (closeModel c1xS1) bptOptsOff = .ok c1xS2 ∧
    c1xS2.writeOff = 0 ∧
    (lookupFid c1xS2.files c1xS2.activeFid).map (fun f => f.data.length) =
      some 10 ∧
    (0 : Nat) ≠ 10 :=
  ⟨by decide, by decide, by decide, by decide⟩


/-- C7: encode/decode round-trip. For every record with a non-empty key
(and `u32`-sized key and value), reading back from the offset at which
the encoding was written — any prefix before it, any bytes after it —
recovers the same record (key, value and type) and consumes exactly the
encoding's length. -/
theorem C7_encode_decode_roundtrip (r : LogRecord) (pre rest : Bytes)
    (hk : r.key ≠ []) (hk32 : r.key.length < 2 ^ 32)
    (hv32 : r.value.length < 2 ^ 32) :
    dataFileRead .fileIo (pre ++ r.encode ++ rest) pre.length =
      .ok (r, r.encode.length) := by
  refine dataFileRead_at _ _ r rest ⟨hk, hk32, hv32⟩ ?_
  rw [List.append_assoc]
  exact List.drop_left _ _

/-- Witness for C7 at a concrete input: the record `[0,97] ↦ [98]`
written after three junk bytes and before one junk byte. -/
theorem C7_encode_decode_roundtrip_witness :
    ([0, 97] : Bytes) ≠ [] ∧ ([0, 97] : Bytes).length < 2 ^ 32 ∧
    ([98] : Bytes).length < 2 ^ 32 ∧
    dataFileRead .fileIo
        ([1, 2, 3] ++ (LogRecord.mk [0, 97] [98] .NOAMAL).encode ++ [9])
        ([1, 2, 3] : Bytes).length =
      .ok (LogRecord.mk [0, 97] [98] .NOAMAL,
        (LogRecord.mk [0, 97] [98] .NOAMAL).encode.length) :=
  ⟨by decide, by decide, by decide,
    C7_encode_decode_roundtrip (LogRecord.mk [0, 97] [98] .NOAMAL) [1, 2, 3] [9]
      (by decide) (by decide) (by decide)⟩


/-! ## Record-level view of data files and of the replay -/

/-- The bytes of a data file holding the given records in order. -/
def recsEncode : List LogRecord → Bytes
  | [] => []
  | r :: rs => r.encode ++ recsEncode rs

theorem recsEncode_append (a b : List LogRecord) :
    recsEncode (a ++ b) = recsEncode a ++ recsEncode b := by
  induction a with
  | nil => rfl
  | cons r t ih => simp [recsEncode, ih]

/-- The replay loop of `load_index`, phrased over the records a file
holds rather than over its raw bytes. -/
def replayRecords (fid : Nat) : Nat → List LogRecord → ReplayAcc →
    Except Errors (ReplayAcc × Nat)
  | off, [], acc => .ok (acc, off)
  | off, r :: rs, acc =>
    match replayRecordStep fid off r r.encode.length acc with
    | .error e => .error e
    | .ok acc1 => replayRecords fid (off + r.encode.length) rs acc1

/-- Reading at or past the end of an fd-backed file reports end-of-file:
the zero-filled header buffer parses as the `key_size == 0 &&
value_size == 0` end marker. -/
theorem dataFileRead_end (content : Bytes) (off : Nat)
    (h : content.drop off = []) :
    dataFileRead .fileIo content off = .error .ReadDataFileEOF := by
  have h0 : ∀ L, ioRead .fileIo content off L =
      ioRead .fileIo ([] : Bytes) 0 L := by
    intro L
    simp [ioRead, h]
  have h1 : ∀ d L, ioRead .fileIo content (off + d) L =
      ioRead .fileIo ([] : Bytes) (0 + d) L := by
    intro d L
    have hd : content.drop (off + d) = ([] : Bytes).drop (0 + d) := by
      rw [Nat.zero_add, ← List.drop_drop, h]
    simp [ioRead, hd]
  calc dataFileRead .fileIo content off
      = dataFileRead .fileIo ([] : Bytes) 0 := by
        unfold dataFileRead
        simp only [h0, h1]
    _ = .error .ReadDataFileEOF := by decide

theorem recsEncode_length_ge (rs : List LogRecord) :
    rs.length ≤ (recsEncode rs).length := by
  induction rs with
  | nil => simp [recsEncode]
  | cons r t ih =>
    have h7 : 7 ≤ r.encode.length := by
      rw [encode_length]
      have := vLen_pos r.key.length
      have := vLen_pos r.value.length
      omega
    simp only [recsEncode, List.length_cons, List.length_append]
    omega

/-- With the fd backend, the byte-level replay loop on a file holding
exactly the records `rs` agrees with the record-level replay, for any
fuel exceeding the record count. -/
theorem replayFileLoop_eq (fid : Nat) (content : Bytes) :
    ∀ (rs : List LogRecord) (fuel off : Nat) (acc : ReplayAcc),
      (∀ r ∈ rs, WFRecord r) →
      content.drop off = recsEncode rs →
      rs.length < fuel →
      replayFileLoop .fileIo fid content fuel off acc =
        replayRecords fid off rs acc := by
  intro rs
  induction rs with
  | nil =>
    intro fuel off acc _ hdrop hfuel
    cases fuel with
    | zero => omega
    | succ f =>
      unfold replayFileLoop
      rw [dataFileRead_end content off hdrop]
      dsimp only
      rw [if_pos rfl]
      rfl
  | cons r rs ih =>
    intro fuel off acc hwf hdrop hfuel
    cases fuel with
    | zero => simp at hfuel
    | succ f =>
      have hdrop1 : content.drop off = r.encode ++ recsEncode rs := hdrop
      unfold replayFileLoop
      rw [dataFileRead_at content off r (recsEncode rs) (hwf r (by simp)) hdrop1]
      dsimp only
      cases hstep : replayRecordStep fid off r r.encode.length acc with
      | error e => simp [replayRecords, hstep]
      | ok acc1 =>
        have hd2 : content.drop (off + r.encode.length) = recsEncode rs := by
          rw [← List.drop_drop, hdrop1]
          exact List.drop_left _ _
        dsimp only
        rw [ih f (off + r.encode.length) acc1
          (fun r' hr' => hwf r' (by simp [hr'])) hd2
          (by simp only [List.length_cons] at hfuel; omega)]
        simp [replayRecords, hstep]

theorem replayFile_eq (fid : Nat) (rs : List LogRecord) (acc : ReplayAcc)
    (hwf : ∀ r ∈ rs, WFRecord r) :
    replayFile .fileIo fid (recsEncode rs) acc = replayRecords fid 0 rs acc := by
  unfold replayFile
  refine replayFileLoop_eq fid _ rs _ 0 acc hwf (by simp) ?_
  have := recsEncode_length_ge rs
  omega

/-- The store of fd-backed files holding the given records. -/
def filesOfRecs : List (Nat × List LogRecord) → List (Nat × FileEntry)
  | [] => []
  | (fid, rs) :: t => (fid, ⟨recsEncode rs, .fileIo⟩) :: filesOfRecs t

/-- `load_index` over all files, phrased over the records each file
holds. -/
def loadIndexRecords : List (Nat × List LogRecord) → ReplayAcc →
    Except Errors (ReplayAcc × Nat)
  | [], acc => .ok (acc, 0)
  | [(fid, rs)], acc => replayRecords fid 0 rs acc
  | (fid, rs) :: kv :: t, acc =>
    match replayRecords fid 0 rs acc with
    | .error e => .error e
    | .ok (acc1, _) => loadIndexRecords (kv :: t) acc1

theorem loadIndexFiles_eq : ∀ (rl : List (Nat × List LogRecord)) (acc : ReplayAcc),
    (∀ kv ∈ rl, ∀ r ∈ kv.2, WFRecord r) →
    loadIndexFiles (filesOfRecs rl) acc = loadIndexRecords rl acc
  | [], _, _ => rfl
  | [(fid, rs)], acc, hwf => by
    show loadIndexFiles [(fid, ⟨recsEncode rs, .fileIo⟩)] acc =
      loadIndexRecords [(fid, rs)] acc
    unfold loadIndexFiles loadIndexRecords
    exact replayFile_eq fid rs acc (fun r hr => hwf (fid, rs) (by simp) r hr)
  | (fid, rs) :: (fid2, rs2) :: t, acc, hwf => by
    show loadIndexFiles
        ((fid, ⟨recsEncode rs, .fileIo⟩) :: (fid2, ⟨recsEncode rs2, .fileIo⟩) ::
          filesOfRecs t) acc =
      loadIndexRecords ((fid, rs) :: (fid2, rs2) :: t) acc
    unfold loadIndexFiles loadIndexRecords
    rw [replayFile_eq fid rs acc (fun r hr => hwf (fid, rs) (by simp) r hr)]
    cases hrep : replayRecords fid 0 rs acc with
    | error e => rfl
    | ok p =>
      obtain ⟨acc1, off1⟩ := p
      dsimp only
      exact loadIndexFiles_eq ((fid2, rs2) :: t) acc1
        (fun kv hkv r hr => hwf kv (by simp at hkv ⊢; tauto) r hr)


/-! ## Sequence-number accounting of the replay -/

theorem updateIndexAcc_seqNo (acc : ReplayAcc) (k : Bytes) (rt : LogRecordType)
    (pos : LogRecordPos) : (updateIndexAcc acc k rt pos).seqNo = acc.seqNo := by
  cases rt <;> rfl

theorem updateIndexAcc_txn (acc : ReplayAcc) (k : Bytes) (rt : LogRecordType)
    (pos : LogRecordPos) : (updateIndexAcc acc k rt pos).txn = acc.txn := by
  cases rt <;> rfl

theorem foldUpd_seqNo (l : List (LogRecord × LogRecordPos)) :
    ∀ acc : ReplayAcc,
      (l.foldl (fun a rp => updateIndexAcc a rp.1.key rp.1.rec_type rp.2) acc).seqNo
        = acc.seqNo := by
  induction l with
  | nil => intro acc; rfl
  | cons hd t ih =>
    intro acc
    rw [List.foldl_cons, ih, updateIndexAcc_seqNo]

theorem foldUpd_txn (l : List (LogRecord × LogRecordPos)) :
    ∀ acc : ReplayAcc,
      (l.foldl (fun a rp => updateIndexAcc a rp.1.key rp.1.rec_type rp.2) acc).txn
        = acc.txn := by
  induction l with
  | nil => intro acc; rfl
  | cons hd t ih =>
    intro acc
    rw [List.foldl_cons, ih, updateIndexAcc_txn]

/-- The replay step on a record whose stored key does not parse. -/
theorem replayRecordStep_noparse (fid off : Nat) (r : LogRecord) (sz : Nat)
    (acc : ReplayAcc) (hp : parseLogRecordKey r.key = none) :
    replayRecordStep fid off r sz acc = .error .ModelPanic := by
  unfold replayRecordStep
  rw [hp]

/-- The replay step on a non-transactional record applies it to the
keydir directly. -/
theorem replayRecordStep_nontxn (fid off : Nat) (r : LogRecord) (sz : Nat)
    (acc : ReplayAcc) (rk : Bytes)
    (hp : parseLogRecordKey r.key = some (rk, 0)) :
    replayRecordStep fid off r sz acc =
      .ok (updateIndexAcc { acc with seqNo := max acc.seqNo 1 } rk
        r.rec_type ⟨fid, off, sz⟩) := by
  unfold replayRecordStep
  rw [hp]
  dsimp only
  rw [if_pos (show (0 : Nat) = NON_TXN_SEQ_NO from rfl)]

/-- The replay step on a transactional payload record stages it. -/
theorem replayRecordStep_stage (fid off : Nat) (r : LogRecord) (sz : Nat)
    (acc : ReplayAcc) (rk : Bytes) (sq : Nat)
    (hp : parseLogRecordKey r.key = some (rk, sq)) (h0 : sq ≠ NON_TXN_SEQ_NO)
    (hfin : r.rec_type ≠ .TXNFINISHED) :
    replayRecordStep fid off r sz acc =
      .ok { acc with
            seqNo := max acc.seqNo (sq + 1),
            txn := txnPush acc.txn sq
              (⟨rk, r.value, r.rec_type⟩, ⟨fid, off, sz⟩) } := by
  unfold replayRecordStep
  rw [hp]
  dsimp only
  rw [if_neg h0, if_neg hfin]

/-- The replay step on a transaction terminator with no staged records
panics (`txn_batch.get(&seq_no).unwrap()`). -/
theorem replayRecordStep_fin_none (fid off : Nat) (r : LogRecord) (sz : Nat)
    (acc : ReplayAcc) (rk : Bytes) (sq : Nat)
    (hp : parseLogRecordKey r.key = some (rk, sq)) (h0 : sq ≠ NON_TXN_SEQ_NO)
    (hfin : r.rec_type = .TXNFINISHED)
    (hl : lookupFid acc.txn sq = none) :
    replayRecordStep fid off r sz acc = .error .ModelPanic := by
  unfold replayRecordStep
  rw [hp]
  dsimp only
  rw [if_neg h0, if_pos hfin, hl]

/-- The replay step on a transaction terminator flushes the staged
records to the keydir and drops them from the staging map. -/
theorem replayRecordStep_fin (fid off : Nat) (r : LogRecord) (sz : Nat)
    (acc : ReplayAcc) (rk : Bytes) (sq : Nat)
    (staged : List (LogRecord × LogRecordPos))
    (hp : parseLogRecordKey r.key = some (rk, sq)) (h0 : sq ≠ NON_TXN_SEQ_NO)
    (hfin : r.rec_type = .TXNFINISHED)
    (hl : lookupFid acc.txn sq = some staged) :
    replayRecordStep fid off r sz acc =
      .ok { (staged.foldl
          (fun a rp => updateIndexAcc a rp.1.key rp.1.rec_type rp.2)
          { acc with seqNo := max acc.seqNo (sq + 1) }) with
        txn := natErase acc.txn sq } := by
  unfold replayRecordStep
  rw [hp]
  dsimp only
  rw [if_neg h0, if_pos hfin, hl]
  dsimp only
  rw [foldUpd_txn]

/-- A successful replay step sets the sequence counter to the max of the
old counter and the record's sequence number plus one. -/
theorem replayRecordStep_seqNo (fid off : Nat) (r : LogRecord) (sz : Nat)
    (acc acc1 : ReplayAcc) (rk : Bytes) (sq : Nat)
    (hp : parseLogRecordKey r.key = some (rk, sq))
    (h : replayRecordStep fid off r sz acc = .ok acc1) :
    acc1.seqNo = max acc.seqNo (sq + 1) := by
  by_cases h0 : sq = NON_TXN_SEQ_NO
  · subst h0
    rw [replayRecordStep_nontxn fid off r sz acc rk hp] at h
    injection h with h1
    rw [← h1, updateIndexAcc_seqNo]
    rfl
  · by_cases hfin : r.rec_type = .TXNFINISHED
    · cases hl : lookupFid acc.txn sq with
      | none =>
        rw [replayRecordStep_fin_none fid off r sz acc rk sq hp h0 hfin hl] at h
        exact absurd h (by simp)
      | some staged =>
        rw [replayRecordStep_fin fid off r sz acc rk sq staged hp h0 hfin hl] at h
        injection h with h1
        rw [← h1]
        dsimp only
        rw [foldUpd_seqNo]
    · rw [replayRecordStep_stage fid off r sz acc rk sq hp h0 hfin] at h
      injection h with h1
      rw [← h1]

theorem replayRecords_seqNo_le (fid : Nat) :
    ∀ (rs : List LogRecord) (off : Nat) (acc acc' : ReplayAcc) (off' : Nat),
      replayRecords fid off rs acc = .ok (acc', off') → acc.seqNo ≤ acc'.seqNo := by
  intro rs
  induction rs with
  | nil =>
    intro off acc acc' off' h
    simp [replayRecords] at h
    rw [h.1]
  | cons r rs ih =>
    intro off acc acc' off' h
    simp only [replayRecords] at h
    cases hstep : replayRecordStep fid off r r.encode.length acc with
    | error e => rw [hstep] at h; exact absurd h (by simp)
    | ok acc1 =>
      rw [hstep] at h
      dsimp only at h
      cases hp : parseLogRecordKey r.key with
      | none =>
        rw [replayRecordStep_noparse fid off r r.encode.length acc hp] at hstep
        exact absurd hstep (by simp)
      | some p =>
        obtain ⟨rk, sq⟩ := p
        have hs := replayRecordStep_seqNo fid off r r.encode.length acc acc1 rk sq hp hstep
        have hle := ih (off + r.encode.length) acc1 acc' off' h
        omega

/-- Every sequence number stored in a successfully replayed file is
strictly below the final sequence counter. -/
theorem replayRecords_seq_bound (fid : Nat) :
    ∀ (rs : List LogRecord) (off : Nat) (acc acc' : ReplayAcc) (off' : Nat),
      replayRecords fid off rs acc = .ok (acc', off') →
      ∀ r ∈ rs, ∀ rk sq, parseLogRecordKey r.key = some (rk, sq) →
        sq < acc'.seqNo := by
  intro rs
  induction rs with
  | nil => intro off acc acc' off' _ r hr; simp at hr
  | cons r0 rs ih =>
    intro off acc acc' off' h r hr rk sq hp
    simp only [replayRecords] at h
    cases hstep : replayRecordStep fid off r0 r0.encode.length acc with
    | error e => rw [hstep] at h; exact absurd h (by simp)
    | ok acc1 =>
      rw [hstep] at h
      dsimp only at h
      rcases List.mem_cons.mp hr with hr0 | hrt
      · subst hr0
        have hs := replayRecordStep_seqNo fid off r r.encode.length acc acc1 rk sq hp hstep
        have hle := replayRecords_seqNo_le fid rs (off + r.encode.length) acc1 acc' off' h
        omega
      · exact ih (off + r0.encode.length) acc1 acc' off' h r hrt rk sq hp

theorem loadIndexRecords_seqNo_le :
    ∀ (rl : List (Nat × List LogRecord)) (acc acc' : ReplayAcc) (off' : Nat),
      loadIndexRecords rl acc = .ok (acc', off') → acc.seqNo ≤ acc'.seqNo
  | [], acc, acc', off', h => by
    simp [loadIndexRecords] at h
    rw [h.1]
  | [(fid, rs)], acc, acc', off', h =>
    replayRecords_seqNo_le fid rs 0 acc acc' off' h
  | (fid, rs) :: (fid2, rs2) :: t, acc, acc', off', h => by
    simp only [loadIndexRecords] at h
    cases hrep : replayRecords fid 0 rs acc with
    | error e => rw [hrep] at h; exact absurd h (by simp)
    | ok p =>
      obtain ⟨acc1, off1⟩ := p
      rw [hrep] at h
      dsimp only at h
      have h1 := replayRecords_seqNo_le fid rs 0 acc acc1 off1 hrep
      have h2 := loadIndexRecords_seqNo_le ((fid2, rs2) :: t) acc1 acc' off' h
      omega

theorem loadIndexRecords_seq_bound :
    ∀ (rl : List (Nat × List LogRecord)) (acc acc' : ReplayAcc) (off' : Nat),
      loadIndexRecords rl acc = .ok (acc', off') →
      ∀ kv ∈ rl, ∀ r ∈ kv.2, ∀ rk sq,
        parseLogRecordKey r.key = some (rk, sq) → sq < acc'.seqNo
  | [], acc, acc', off', h => by
    intro kv hkv
    simp at hkv
  | [(fid, rs)], acc, acc', off', h => by
    intro kv hkv r hr rk sq hp
    simp at hkv
    subst hkv
    exact replayRecords_seq_bound fid rs 0 acc acc' off' h r hr rk sq hp
  | (fid, rs) :: (fid2, rs2) :: t, acc, acc', off', h => by
    intro kv hkv r hr rk sq hp
    simp only [loadIndexRecords] at h
    cases hrep : replayRecords fid 0 rs acc with
    | error e => rw [hrep] at h; exact absurd h (by simp)
    | ok p =>
      obtain ⟨acc1, off1⟩ := p
      rw [hrep] at h
      dsimp only at h
      rcases List.mem_cons.mp hkv with hkv0 | hkvt
      · subst hkv0
        have hb := replayRecords_seq_bound fid rs 0 acc acc1 off1 hrep r hr rk sq hp
        have hle := loadIndexRecords_seqNo_le ((fid2, rs2) :: t) acc1 acc' off' h
        omega
      · exact loadIndexRecords_seq_bound ((fid2, rs2) :: t) acc1 acc' off' h
          kv hkvt r hr rk sq hp

/-! ## Sorted file-id lists -/

/-- Strictly ascending list of naturals. -/
def ascNat : List Nat → Bool
  | [] => true
  | [_] => true
  | a :: b :: t => decide (a < b) && ascNat (b :: t)

/-- `file_ids.sort()` is the identity on already-sorted directories. -/
theorem sortByFid_asc_eq : ∀ (l : List (Nat × Bytes)),
    ascNat (l.map Prod.fst) = true → sortByFid l = l
  | [], _ => rfl
  | [x], _ => rfl
  | a :: b :: t, h => by
    have h2 : a.1 < b.1 ∧ ascNat ((b :: t).map Prod.fst) = true := by
      simp only [List.map, ascNat, Bool.and_eq_true, decide_eq_true_eq] at h
      exact ⟨h.1, h.2⟩
    show insertByFid a (sortByFid (b :: t)) = a :: b :: t
    rw [sortByFid_asc_eq (b :: t) h2.2]
    unfold insertByFid
    rw [if_pos (Nat.le_of_lt h2.1)]

theorem filesOfRecs_eq_map (rl : List (Nat × List LogRecord)) :
    filesOfRecs rl =
      rl.map (fun kv => (kv.1, (⟨recsEncode kv.2, .fileIo⟩ : FileEntry))) := by
  induction rl with
  | nil => rfl
  | cons kv t ih =>
    obtain ⟨fid, rs⟩ := kv
    simp [filesOfRecs, ih]

theorem getLast_of_cons {α : Type} :
    ∀ (l : List α) (a : α), ∃ x, (a :: l).getLast? = some x
  | [], a => ⟨a, rfl⟩
  | b :: t, a => by
    obtain ⟨x, hx⟩ := getLast_of_cons t b
    exact ⟨x, by rw [List.getLast?_cons_cons]; exact hx⟩


/-! ## Characterizations of `Engine::open` on described directories -/

theorem getLast_map {α β : Type} (f : α → β) :
    ∀ l : List α, (l.map f).getLast? = l.getLast?.map f
  | [] => rfl
  | [_] => rfl
  | a :: b :: t => by
    rw [List.map_cons, List.map_cons, List.getLast?_cons_cons,
      List.getLast?_cons_cons, ← List.map_cons]
    exact getLast_map f (b :: t)

/-- `Engine::open` with mmap off on a directory whose data files hold the
records `rl` (sorted by file id): the loaded store is `filesOfRecs rl`
and the active file is the last one. -/
theorem openModel_described (d : Directory) (opts : EngineOptions)
    (rl : List (Nat × List LogRecord)) (lastkv : Nat × List LogRecord)
    (hsz : opts.dataFileSize ≠ 0)
    (hfiles : d.dataFiles = rl.map (fun kv => (kv.1, recsEncode kv.2)))
    (hasc : ascNat (rl.map Prod.fst) = true)
    (hlast : rl.getLast? = some lastkv)
    (hmm : opts.mmapAtStartup = false) :
    openModel d opts = openRest d opts (filesOfRecs rl) lastkv.1
      (d.dataFiles.isEmpty && d.seqNoFile.isNone && d.bptFile.isEmpty) true := by
  have hsz' : ¬ (opts.dataFileSize = 0) := hsz
  unfold openModel
  rw [if_neg hsz']
  dsimp only
  have hio : (if opts.mmapAtStartup then IoType.mmapIo else IoType.fileIo) =
      IoType.fileIo := by
    rw [hmm]
    rfl
  simp only [hio]
  have hasc' : ascNat
      ((rl.map (fun kv => (kv.1, recsEncode kv.2))).map Prod.fst) = true := by
    rw [List.map_map]
    exact hasc
  rw [hfiles, sortByFid_asc_eq _ hasc', List.map_map, getLast_map, hlast]
  rw [filesOfRecs_eq_map]
  rfl

theorem openModel_nodata (d : Directory) (opts : EngineOptions)
    (hsz : opts.dataFileSize ≠ 0) (hfiles : d.dataFiles = []) :
    openModel d opts = openRest d opts [(0, ⟨[], .fileIo⟩)] 0
      (d.dataFiles.isEmpty && d.seqNoFile.isNone && d.bptFile.isEmpty) false := by
  have hsz' : ¬ (opts.dataFileSize = 0) := hsz
  unfold openModel
  rw [if_neg hsz']
  dsimp only
  rw [hfiles]
  rfl

theorem btreeBranch_not_btree (d : Directory) (opts : EngineOptions)
    (s : EngineState) (h : opts.indexType ≠ .BTree) :
    btreeBranch d opts s = s := by
  unfold btreeBranch
  rw [if_neg h]

/-- The replaying branch of `Engine::open` (keydir not the disk
B+-tree). -/
theorem openRest_replay (d : Directory) (opts : EngineOptions)
    (files : List (Nat × FileEntry)) (activeFid : Nat) (isInit : Bool)
    (acc : ReplayAcc) (lastOff : Nat)
    (hbpt : opts.indexType ≠ .BPlusTree)
    (hload : loadIndexFiles files initAcc = .ok (acc, lastOff)) :
    openRest d opts files activeFid isInit true =
      .ok (btreeBranch d opts
        ⟨opts, filesAllFileIo files, activeFid, lastOff, acc.index,
          acc.seqNo, acc.reclaim, false, isInit⟩) := by
  unfold openRest
  rw [if_pos hbpt, if_pos rfl, hload]

theorem openRest_nodata (d : Directory) (opts : EngineOptions)
    (files : List (Nat × FileEntry)) (activeFid : Nat) (isInit : Bool)
    (hbpt : opts.indexType ≠ .BPlusTree) :
    openRest d opts files activeFid isInit false =
      .ok (btreeBranch d opts
        ⟨opts, files, activeFid, 0, [], 1, 0, false, isInit⟩) := by
  unfold openRest
  rw [if_pos hbpt]
  rfl

theorem openRest_bpt (d : Directory) (opts : EngineOptions)
    (files : List (Nat × FileEntry)) (activeFid : Nat) (isInit hd : Bool)
    (idx : IdxMap)
    (hbpt : opts.indexType = .BPlusTree)
    (hdec : decodeBucket d.bptFile = some idx) :
    openRest d opts files activeFid isInit hd =
      .ok (btreeBranch d opts
        ⟨opts, files, activeFid, 0, idx, 1, 0, false, isInit⟩) := by
  unfold openRest
  rw [if_neg (by simp [hbpt]), hdec]


theorem openRest_replay_error (d : Directory) (opts : EngineOptions)
    (files : List (Nat × FileEntry)) (activeFid : Nat) (isInit : Bool)
    (e : Errors)
    (hbpt : opts.indexType ≠ .BPlusTree)
    (hload : loadIndexFiles files initAcc = .error e) :
    openRest d opts files activeFid isInit true = .error e := by
  unfold openRest
  rw [if_pos hbpt, if_pos rfl, hload]

/-- C5 amended: with the skip-list keydir and mmap off, on a directory
whose data files are sorted concatenations of well-formed records, every
successful open leaves the sequence counter at least 1 and strictly above
every sequence number stored in an on-disk record key. -/
theorem C5_seq_monotone (sz : Nat) (d : Directory) (st : EngineState)
    (rl : List (Nat × List LogRecord))
    (hsz : sz ≠ 0)
    (hfiles : d.dataFiles = rl.map (fun kv => (kv.1, recsEncode kv.2)))
    (hasc : ascNat (rl.map Prod.fst) = true)
    (hwf : ∀ kv ∈ rl, ∀ r ∈ kv.2, WFRecord r)
    (hopen : openModel d ⟨sz, .SkipList, false⟩ = .ok st) :
    1 ≤ st.seqNo ∧
      ∀ kv ∈ rl, ∀ r ∈ kv.2, ∀ rk sq,
        parseLogRecordKey r.key = some (rk, sq) → sq < st.seqNo := by
  cases rl with
  | nil =>
    rw [openModel_nodata d _ hsz (by simpa using hfiles)] at hopen
    rw [openRest_nodata d _ _ _ _ (by simp)] at hopen
    rw [btreeBranch_not_btree d _ _ (by simp)] at hopen
    injection hopen with h1
    constructor
    · rw [← h1]
    · intro kv hkv
      simp at hkv
  | cons kv0 rl' =>
    obtain ⟨lastkv, hlast⟩ := getLast_of_cons rl' kv0
    rw [openModel_described d _ _ lastkv hsz hfiles hasc hlast rfl] at hopen
    cases hload : loadIndexFiles (filesOfRecs (kv0 :: rl')) initAcc with
    | error e =>
      rw [openRest_replay_error d _ _ lastkv.1 _ e (by simp) hload] at hopen
      exact absurd hopen (by simp)
    | ok p =>
      obtain ⟨acc, lastOff⟩ := p
      rw [openRest_replay d _ _ lastkv.1 _ acc lastOff (by simp) hload] at hopen
      rw [btreeBranch_not_btree d _ _ (by simp)] at hopen
      injection hopen with h1
      rw [loadIndexFiles_eq _ _ hwf] at hload
      constructor
      · have hle := loadIndexRecords_seqNo_le _ _ _ _ hload
        rw [← h1]
        exact hle
      · intro kv hkv r hr rk sq hp
        have hb := loadIndexRecords_seq_bound _ _ _ _ hload kv hkv r hr rk sq hp
        rw [← h1]
        exact hb

def c5wRecA : LogRecord := ⟨logRecordKeyWithSeq [97] 0, [1], .NOAMAL⟩

def c5wRecB : LogRecord := ⟨logRecordKeyWithSeq [98] 5, [2], .NOAMAL⟩

def c5wRl : List (Nat × List LogRecord) := [(0, [c5wRecA, c5wRecB])]

def c5wDir : Directory :=
  ⟨c5wRl.map (fun kv => (kv.1, recsEncode kv.2)), none, []⟩

def c5wSt : EngineState :=
  ((openModel c5wDir ⟨256, .SkipList, false⟩).toOption).getD witState0

set_option maxRecDepth 40000 in
/-- Witness for C5 at a concrete input: a directory holding one
non-transactional record (sequence 0) and one staged transactional record
with sequence 5; after the open the counter is 6. -/
theorem C5_seq_monotone_witness :
    (256 : Nat) ≠ 0 ∧
    openModel c5wDir ⟨256, .SkipList, false⟩ = .ok c5wSt ∧
    (1 ≤ c5wSt.seqNo ∧ ∀ kv ∈ c5wRl, ∀ r ∈ kv.2, ∀ rk sq,
      parseLogRecordKey r.key = some (rk, sq) → sq < c5wSt.seqNo) :=
  ⟨by decide, by decide,
    C5_seq_monotone 256 c5wDir c5wSt c5wRl (by decide) rfl (by decide)
      (by decide) (by decide)⟩

def c5Rec : LogRecord := ⟨logRecordKeyWithSeq [97] 0, [1], .NOAMAL⟩

def c5Dir : Directory := ⟨[(0, c5Rec.encode)], none, []⟩

def c5St : EngineState :=
  ((openModel c5Dir ⟨256, .BTree, false⟩).toOption).getD witState0

set_option maxRecDepth 40000 in
/-- With the ordered-map keydir, opening a directory whose previous
shutdown wrote no `seq-no` sidecar stores `load_seq_no`'s miss value 0
into the engine's counter, erasing the replay's `fetch_max` result: the
counter ends at 0, not strictly above the on-disk sequence numbers and
not at least 1. -/
theorem C5_btree_missing_seq_counterexample :
    openModel c5Dir ⟨256, .BTree, false⟩ = .ok c5St ∧
    parseLogRecordKey c5Rec.key = some ([97], 0) ∧
    c5St.seqNo = 0 ∧ ¬ 1 ≤ c5St.seqNo :=
  ⟨by decide, by decide, by decide, by decide⟩


/-! ## Offsets, last files and lookups after a replay -/

theorem replayRecords_off (fid : Nat) :
    ∀ (rs : List LogRecord) (off : Nat) (acc acc' : ReplayAcc) (off' : Nat),
      replayRecords fid off rs acc = .ok (acc', off') →
      off' = off + (recsEncode rs).length := by
  intro rs
  induction rs with
  | nil =>
    intro off acc acc' off' h
    simp [replayRecords] at h
    rw [← h.2]
    simp [recsEncode]
  | cons r rs ih =>
    intro off acc acc' off' h
    simp only [replayRecords] at h
    cases hstep : replayRecordStep fid off r r.encode.length acc with
    | error e => rw [hstep] at h; exact absurd h (by simp)
    | ok acc1 =>
      rw [hstep] at h
      dsimp only at h
      have := ih (off + r.encode.length) acc1 acc' off' h
      simp only [recsEncode, List.length_append]
      omega

theorem getLast_mem {α : Type} : ∀ (l : List α) (a : α),
    l.getLast? = some a → a ∈ l
  | [], a, h => by simp at h
  | [x], a, h => by
    have hx : x = a := by simpa using h
    rw [hx]
    simp
  | x :: y :: t, a, h => by
    rw [List.getLast?_cons_cons] at h
    exact List.mem_cons_of_mem x (getLast_mem (y :: t) a h)

theorem loadIndexRecords_last_off :
    ∀ (rl : List (Nat × List LogRecord)) (acc acc' : ReplayAcc) (off' : Nat)
      (kvlast : Nat × List LogRecord),
      loadIndexRecords rl acc = .ok (acc', off') → rl.getLast? = some kvlast →
      off' = (recsEncode kvlast.2).length
  | [], _, _, _, _, _, hl => by simp at hl
  | [(fid, rs)], acc, acc', off', kvlast, h, hl => by
    have hx : (fid, rs) = kvlast := by simpa using hl
    have hoff := replayRecords_off fid rs 0 acc acc' off' h
    rw [← hx]
    dsimp only
    omega
  | (f1, r1) :: (f2, r2) :: t, acc, acc', off', kvlast, h, hl => by
    simp only [loadIndexRecords] at h
    cases hrep : replayRecords f1 0 r1 acc with
    | error e => rw [hrep] at h; exact absurd h (by simp)
    | ok p =>
      obtain ⟨acc1, o1⟩ := p
      rw [hrep] at h
      dsimp only at h
      rw [List.getLast?_cons_cons] at hl
      exact loadIndexRecords_last_off ((f2, r2) :: t) acc1 acc' off' kvlast h hl

theorem lookupFid_some_of_mem {α : Type} :
    ∀ (l : List (Nat × α)) (kv : Nat × α), kv ∈ l →
      ∃ v, lookupFid l kv.1 = some v
  | [], kv, h => absurd h (by simp)
  | (k0, v0) :: t, kv, h => by
    by_cases he : kv.1 = k0
    · exact ⟨v0, by simp [lookupFid, he]⟩
    · rcases List.mem_cons.mp h with h0 | ht
      · rw [h0] at he
        exact absurd rfl he
      · obtain ⟨v, hv⟩ := lookupFid_some_of_mem t kv ht
        exact ⟨v, by simp [lookupFid, he, hv]⟩

theorem lookupFid_filesAllFileIo :
    ∀ (l : List (Nat × FileEntry)) (fid : Nat),
      lookupFid (filesAllFileIo l) fid =
        (lookupFid l fid).map (fun e => (⟨e.data, .fileIo⟩ : FileEntry))
  | [], _ => rfl
  | (k0, e0) :: t, fid => by
    by_cases he : fid = k0
    · simp [filesAllFileIo, lookupFid, he]
    · simp [filesAllFileIo, lookupFid, he, lookupFid_filesAllFileIo t fid]

theorem filesAllFileIo_filesOfRecs (rl : List (Nat × List LogRecord)) :
    filesAllFileIo (filesOfRecs rl) = filesOfRecs rl := by
  induction rl with
  | nil => rfl
  | cons kv t ih =>
    obtain ⟨fid, rs⟩ := kv
    simp [filesOfRecs, filesAllFileIo, ih]

theorem asc_head_lt {α : Type} (x : Nat × α) :
    ∀ (t : List (Nat × α)), ascNat ((x :: t).map Prod.fst) = true →
      ∀ kv ∈ t, x.1 < kv.1
  | [], _, kv, hkv => absurd hkv (by simp)
  | y :: t, h, kv, hkv => by
    simp only [List.map_cons, ascNat, Bool.and_eq_true, decide_eq_true_eq] at h
    rcases List.mem_cons.mp hkv with h0 | ht
    · rw [h0]
      exact h.1
    · exact Nat.lt_trans h.1 (asc_head_lt y t h.2 kv ht)

theorem asc_tail {α : Type} (x : Nat × α) (t : List (Nat × α))
    (h : ascNat ((x :: t).map Prod.fst) = true) :
    ascNat (t.map Prod.fst) = true := by
  cases t with
  | nil => rfl
  | cons y t' =>
    simp only [List.map_cons, ascNat, Bool.and_eq_true] at h
    exact h.2

/-- In a store with strictly ascending file ids, looking up the last
file's id finds the last file. -/
theorem lookup_getLast {α : Type} :
    ∀ (l : List (Nat × α)) (kv : Nat × α),
      ascNat (l.map Prod.fst) = true → l.getLast? = some kv →
      lookupFid l kv.1 = some kv.2
  | [], kv, _, h => by simp at h
  | [x], kv, _, h => by
    have hx : x = kv := by simpa using h
    rw [← hx]
    simp [lookupFid]
  | x :: y :: t, kv, hasc, h => by
    rw [List.getLast?_cons_cons] at h
    have hmem : kv ∈ y :: t := getLast_mem (y :: t) kv h
    have hlt : x.1 < kv.1 := asc_head_lt x (y :: t) hasc kv hmem
    obtain ⟨k0, v0⟩ := x
    have hne : kv.1 ≠ k0 := Nat.ne_of_gt hlt
    show lookupFid ((k0, v0) :: y :: t) kv.1 = some kv.2
    simp only [lookupFid, if_neg hne]
    exact lookup_getLast (y :: t) kv (asc_tail (k0, v0) (y :: t) hasc) h


/-- With the ordered-map keydir, every successful open ends in the
BTree branch, which sets the active write offset from the active file's
size. -/
theorem openModel_btree_writeoff (d : Directory) (opts : EngineOptions)
    (st : EngineState) (hsz : opts.dataFileSize ≠ 0)
    (hbt : opts.indexType = .BTree)
    (hopen : openModel d opts = .ok st) :
    ∃ f, lookupFid st.files st.activeFid = some f ∧
      st.writeOff = f.data.length := by
  have hsz' : ¬ (opts.dataFileSize = 0) := hsz
  unfold openModel at hopen
  rw [if_neg hsz'] at hopen
  dsimp only at hopen
  cases hlast : ((sortByFid d.dataFiles).map (fun kv =>
      (kv.1, (⟨kv.2, if opts.mmapAtStartup then IoType.mmapIo
        else IoType.fileIo⟩ : FileEntry)))).getLast? with
  | none =>
    rw [hlast] at hopen
    dsimp only at hopen
    rw [openRest_nodata d _ _ _ _ (by rw [hbt]; simp)] at hopen
    unfold btreeBranch at hopen
    rw [if_pos hbt] at hopen
    dsimp only at hopen
    injection hopen with h1
    subst h1
    exact ⟨⟨[], .fileIo⟩, rfl, rfl⟩
  | some lastkv =>
    rw [hlast] at hopen
    dsimp only at hopen
    cases hload : loadIndexFiles ((sortByFid d.dataFiles).map (fun kv =>
        (kv.1, (⟨kv.2, if opts.mmapAtStartup then IoType.mmapIo
          else IoType.fileIo⟩ : FileEntry)))) initAcc with
    | error e =>
      rw [openRest_replay_error d _ _ lastkv.1 _ e (by rw [hbt]; simp) hload]
        at hopen
      exact absurd hopen (by simp)
    | ok p =>
      obtain ⟨acc, lastOff⟩ := p
      rw [openRest_replay d _ _ lastkv.1 _ acc lastOff (by rw [hbt]; simp)
        hload] at hopen
      unfold btreeBranch at hopen
      rw [if_pos hbt] at hopen
      dsimp only at hopen
      injection hopen with h1
      subst h1
      have hmem := getLast_mem _ _ hlast
      obtain ⟨v, hv⟩ := lookupFid_some_of_mem _ _ hmem
      have hv2 : lookupFid (filesAllFileIo ((sortByFid d.dataFiles).map
          (fun kv => (kv.1, (⟨kv.2, if opts.mmapAtStartup then IoType.mmapIo
            else IoType.fileIo⟩ : FileEntry))))) lastkv.1 =
          some ⟨v.data, .fileIo⟩ := by
        rw [lookupFid_filesAllFileIo, hv]
        rfl
      refine ⟨⟨v.data, .fileIo⟩, hv2, ?_⟩
      show (match lookupFid (filesAllFileIo _) lastkv.1 with
        | some f => f.data.length
        | none => 0) = _
      rw [hv2]

/-- C10 amended: after a successful open the active file's cached write
offset equals its on-disk size with the ordered-map keydir always, and
with the skip-list keydir when mmap is off and the directory's data files
are id-sorted concatenations of well-formed records; with the disk
B+-tree keydir the offset stays 0 (refuted separately). -/
theorem C10_write_off_restored (d : Directory) (opts : EngineOptions)
    (st : EngineState)
    (hsz : opts.dataFileSize ≠ 0)
    (hcase : opts.indexType = .BTree ∨
      (opts.indexType = .SkipList ∧ opts.mmapAtStartup = false ∧
        ∃ rl : List (Nat × List LogRecord),
          d.dataFiles = rl.map (fun kv => (kv.1, recsEncode kv.2)) ∧
          ascNat (rl.map Prod.fst) = true ∧
          ∀ kv ∈ rl, ∀ r ∈ kv.2, WFRecord r))
    (hopen : openModel d opts = .ok st) :
    ∃ f, lookupFid st.files st.activeFid = some f ∧
      st.writeOff = f.data.length := by
  rcases hcase with hbt | ⟨hsl, hmm, rl, hfiles, hasc, hwf⟩
  · exact openModel_btree_writeoff d opts st hsz hbt hopen
  · cases rl with
    | nil =>
      rw [openModel_nodata d _ hsz (by simpa using hfiles)] at hopen
      rw [openRest_nodata d _ _ _ _ (by rw [hsl]; simp)] at hopen
      rw [btreeBranch_not_btree d _ _ (by rw [hsl]; simp)] at hopen
      injection hopen with h1
      subst h1
      exact ⟨⟨[], .fileIo⟩, rfl, rfl⟩
    | cons kv0 rl' =>
      obtain ⟨lastkv, hlast⟩ := getLast_of_cons rl' kv0
      rw [openModel_described d _ _ lastkv hsz hfiles hasc hlast hmm] at hopen
      cases hload : loadIndexFiles (filesOfRecs (kv0 :: rl')) initAcc with
      | error e =>
        rw [openRest_replay_error d _ _ lastkv.1 _ e (by rw [hsl]; simp)
          hload] at hopen
        exact absurd hopen (by simp)
      | ok p =>
        obtain ⟨acc, lastOff⟩ := p
        rw [openRest_replay d _ _ lastkv.1 _ acc lastOff (by rw [hsl]; simp)
          hload] at hopen
        rw [btreeBranch_not_btree d _ _ (by rw [hsl]; simp)] at hopen
        injection hopen with h1
        subst h1
        rw [loadIndexFiles_eq _ _ hwf] at hload
        have hofl := loadIndexRecords_last_off (kv0 :: rl') initAcc acc
          lastOff lastkv hload hlast
        have hlast2 : (filesOfRecs (kv0 :: rl')).getLast? =
            some (lastkv.1, ⟨recsEncode lastkv.2, .fileIo⟩) := by
          rw [filesOfRecs_eq_map, getLast_map, hlast]
          rfl
        have hasc2 : ascNat ((filesOfRecs (kv0 :: rl')).map Prod.fst) =
            true := by
          rw [filesOfRecs_eq_map, List.map_map]
          exact hasc
        have hl1 := lookup_getLast _ _ hasc2 hlast2
        refine ⟨⟨recsEncode lastkv.2, .fileIo⟩, ?_, hofl⟩
        show lookupFid (filesAllFileIo (filesOfRecs (kv0 :: rl')))
          lastkv.1 = _
        rw [filesAllFileIo_filesOfRecs]
        exact hl1

set_option maxRecDepth 40000 in
/-- Witness for C10 at a concrete input: the ordered-map engine opened on
a one-record directory restores the active write offset to the file
size. -/
theorem C10_write_off_restored_witness :
    (256 : Nat) ≠ 0 ∧
    (∃ f, lookupFid c5St.files c5St.activeFid = some f ∧
      c5St.writeOff = f.data.length) :=
  ⟨by decide,
    C10_write_off_restored c5Dir ⟨256, .BTree, false⟩ c5St (by decide)
      (Or.inl rfl) (by decide)⟩


/-! ## Restart equivalence: the history invariant -/

/-- A record the engine itself writes: a sequence-prefixed key with
`u32`-sized key and value. -/
def EngRecord (r : LogRecord) : Prop :=
  (∃ rk sq, r.key = logRecordKeyWithSeq rk sq) ∧
  r.key.length < 2 ^ 32 ∧ r.value.length < 2 ^ 32

theorem engRecord_wf (r : LogRecord) (h : EngRecord r) : WFRecord r := by
  obtain ⟨⟨rk, sq, hk⟩, hk32, hv32⟩ := h
  refine ⟨?_, hk32, hv32⟩
  rw [hk]
  intro hc
  exact vEnc_ne_nil sq (List.append_eq_nil.mp hc).1

/-- The effect of one replayed or committed record on the keydir. -/
def idxStep (m : IdxMap) (k : Bytes) (rt : LogRecordType)
    (pos : LogRecordPos) : IdxMap :=
  match rt with
  | .NOAMAL => assocInsert m k pos
  | .DELETED => assocErase m k
  | .TXNFINISHED => m

theorem updateIndexAcc_index (acc : ReplayAcc) (k : Bytes)
    (rt : LogRecordType) (pos : LogRecordPos) :
    (updateIndexAcc acc k rt pos).index = idxStep acc.index k rt pos := by
  cases rt <;> rfl

theorem updateIndex_index (s : EngineState) (k : Bytes) (rt : LogRecordType)
    (pos : LogRecordPos) :
    (updateIndex s k rt pos).index = idxStep s.index k rt pos := by
  cases rt <;> rfl

theorem updateIndex_rest (s : EngineState) (k : Bytes) (rt : LogRecordType)
    (pos : LogRecordPos) :
    (updateIndex s k rt pos).files = s.files ∧
    (updateIndex s k rt pos).activeFid = s.activeFid ∧
    (updateIndex s k rt pos).writeOff = s.writeOff ∧
    (updateIndex s k rt pos).seqNo = s.seqNo := by
  cases rt <;> exact ⟨rfl, rfl, rfl, rfl⟩

theorem appendLogRecord_rest (s : EngineState) (record : LogRecord) :
    (appendLogRecord s record).1.index = s.index ∧
    (appendLogRecord s record).1.seqNo = s.seqNo ∧
    (appendLogRecord s record).1.opts = s.opts := by
  rw [appendLogRecord_eq]
  by_cases h : s.writeOff + record.encode.length > s.opts.dataFileSize
  · rw [if_pos h]
    exact ⟨rfl, rfl, rfl⟩
  · rw [if_neg h]
    exact ⟨rfl, rfl, rfl⟩

/-- The staging map built by one in-flight transaction. -/
def txnOf (seq : Nat) (staged : List (LogRecord × LogRecordPos)) :
    List (Nat × List (LogRecord × LogRecordPos)) :=
  if staged = [] then [] else [(seq, staged)]

theorem txnPush_txnOf (seq : Nat) (staged : List (LogRecord × LogRecordPos))
    (item : LogRecord × LogRecordPos) :
    txnPush (txnOf seq staged) seq item = txnOf seq (staged ++ [item]) := by
  cases staged with
  | nil => simp [txnOf, txnPush]
  | cons a t => simp [txnOf, txnPush]

/-- Replaying a file extended by one record: replay the prefix, then step
on the new record at the end offset. -/
theorem replayRecords_append1 (fid : Nat) :
    ∀ (rs : List LogRecord) (off : Nat) (acc : ReplayAcc) (r : LogRecord),
      replayRecords fid off (rs ++ [r]) acc =
        match replayRecords fid off rs acc with
        | .error e => .error e
        | .ok (acc2, off2) =>
          match replayRecordStep fid off2 r r.encode.length acc2 with
          | .error e => .error e
          | .ok acc3 => .ok (acc3, off2 + r.encode.length) := by
  intro rs
  induction rs with
  | nil =>
    intro off acc r
    show replayRecords fid off [r] acc = _
    simp only [replayRecords]
  | cons r0 rs ih =>
    intro off acc r
    rw [List.cons_append]
    simp only [replayRecords]
    cases hstep : replayRecordStep fid off r0 r0.encode.length acc with
    | error e => rfl
    | ok acc1 =>
      dsimp only
      exact ih (off + r0.encode.length) acc1 r

/-- Replaying a directory extended by one (new, last) file. -/
theorem loadIndexRecords_snoc :
    ∀ (front : List (Nat × List LogRecord)) (fid : Nat)
      (rs : List LogRecord) (acc : ReplayAcc),
      loadIndexRecords (front ++ [(fid, rs)]) acc =
        match loadIndexRecords front acc with
        | .error e => .error e
        | .ok (acc1, _) => replayRecords fid 0 rs acc1
  | [], fid, rs, acc => rfl
  | [(f1, r1)], fid, rs, acc => by
    show loadIndexRecords ((f1, r1) :: [(fid, rs)]) acc = _
    simp only [loadIndexRecords]
  | (f1, r1) :: (f2, r2) :: t, fid, rs, acc => by
    rw [List.cons_append]
    simp only [loadIndexRecords]
    cases h : replayRecords f1 0 r1 acc with
    | error e => rfl
    | ok p =>
      obtain ⟨acc1, o1⟩ := p
      dsimp only
      exact loadIndexRecords_snoc ((f2, r2) :: t) fid rs acc1

theorem asc_snoc_lt {α : Type} :
    ∀ (front : List (Nat × α)) (x : Nat × α),
      ascNat ((front ++ [x]).map Prod.fst) = true →
      ∀ kv ∈ front, kv.1 < x.1
  | [], _, _, kv, hkv => absurd hkv (by simp)
  | y :: front', x, h, kv, hkv => by
    rcases List.mem_cons.mp hkv with h0 | ht
    · subst h0
      exact asc_head_lt kv (front' ++ [x]) h x (by simp)
    · exact asc_snoc_lt front' x (asc_tail y (front' ++ [x]) h) kv ht

theorem ascNat_snoc :
    ∀ (l : List Nat) (n : Nat), ascNat l = true → (∀ m ∈ l, m < n) →
      ascNat (l ++ [n]) = true
  | [], n, _, _ => rfl
  | [a], n, _, hlt => by
    have : a < n := hlt a (by simp)
    simp [ascNat, this]
  | a :: b :: t, n, h, hlt => by
    simp only [ascNat, Bool.and_eq_true, decide_eq_true_eq] at h
    rw [List.cons_append]
    have := ascNat_snoc (b :: t) n h.2 (fun m hm => hlt m (by simp [hm]))
    rw [List.cons_append] at this
    simp [ascNat, h.1, this]

theorem filesOfRecs_append (a b : List (Nat × List LogRecord)) :
    filesOfRecs (a ++ b) = filesOfRecs a ++ filesOfRecs b := by
  induction a with
  | nil => rfl
  | cons kv t ih =>
    obtain ⟨fid, rs⟩ := kv
    simp [filesOfRecs, ih]

theorem filesSetIo_filesOfRecs (rl : List (Nat × List LogRecord))
    (fid : Nat) :
    filesSetIo (filesOfRecs rl) fid .fileIo = filesOfRecs rl := by
  induction rl with
  | nil => rfl
  | cons kv t ih =>
    obtain ⟨f1, rs⟩ := kv
    by_cases h : f1 = fid
    · simp [filesOfRecs, filesSetIo, h, ih]
    · simp [filesOfRecs, filesSetIo, h, ih]

/-- Appending bytes to a file id that only occurs as the final store
entry. -/
theorem filesAppend_skip :
    ∀ (front : List (Nat × FileEntry)) (fid : Nat) (e : FileEntry)
      (bs : Bytes),
      (∀ kv ∈ front, kv.1 ≠ fid) →
      filesAppend (front ++ [(fid, e)]) fid bs =
        front ++ [(fid, ⟨e.data ++ bs, e.io⟩)]
  | [], fid, e, bs, _ => by simp [filesAppend]
  | (k0, e0) :: t, fid, e, bs, hne => by
    have h0 : k0 ≠ fid := hne (k0, e0) (by simp)
    rw [List.cons_append]
    simp only [filesAppend, if_neg h0]
    rw [filesAppend_skip t fid e bs (fun kv hkv => hne kv (by simp [hkv]))]
    rfl

/-- The file-store part of the history invariant: the on-disk bytes are
the encodings of `rl`, file ids ascend, the last file is the active one
with the cached write offset at its end, every record is engine-written,
and the byte replay succeeds, ending with accumulator `acc` at the active
offset. -/
def HistFiles (s : EngineState) (rl : List (Nat × List LogRecord))
    (acc : ReplayAcc) : Prop :=
  s.files = filesOfRecs rl ∧
  ascNat (rl.map Prod.fst) = true ∧
  (∃ front rsA, rl = front ++ [(s.activeFid, rsA)] ∧
    s.writeOff = (recsEncode rsA).length) ∧
  (∀ kv ∈ rl, ∀ r ∈ kv.2, EngRecord r) ∧
  loadIndexRecords rl initAcc = .ok (acc, s.writeOff)

/-- `HistFiles` only reads the store fields. -/
theorem histFiles_mod (s s' : EngineState)
    (rl : List (Nat × List LogRecord)) (acc : ReplayAcc)
    (hH : HistFiles s rl acc) (hf : s'.files = s.files)
    (ha : s'.activeFid = s.activeFid) (hw : s'.writeOff = s.writeOff) :
    HistFiles s' rl acc := by
  obtain ⟨h1, h2, ⟨front, rsA, h3, h4⟩, h5, h6⟩ := hH
  exact ⟨by rw [hf, h1], h2, ⟨front, rsA, by rw [ha, h3], by rw [hw, h4]⟩,
    h5, by rw [hw]; exact h6⟩


theorem mem_filesOfRecs_fst :
    ∀ (rl : List (Nat × List LogRecord)) (kv : Nat × FileEntry),
      kv ∈ filesOfRecs rl → ∃ rs, (kv.1, rs) ∈ rl
  | [], kv, h => absurd h (by simp [filesOfRecs])
  | (f1, rs1) :: t, kv, h => by
    rcases List.mem_cons.mp h with h0 | ht
    · exact ⟨rs1, by rw [h0]; exact List.mem_cons_self _ _⟩
    · obtain ⟨rs, hrs⟩ := mem_filesOfRecs_fst t kv ht
      exact ⟨rs, by simp [hrs]⟩

theorem hist_fid_le (front : List (Nat × List LogRecord)) (fid : Nat)
    (rsA : List LogRecord)
    (hasc : ascNat ((front ++ [(fid, rsA)]).map Prod.fst) = true) :
    ∀ kv ∈ front ++ [(fid, rsA)], kv.1 ≤ fid := by
  intro kv hkv
  rcases List.mem_append.mp hkv with h1 | h2
  · exact Nat.le_of_lt (asc_snoc_lt front (fid, rsA) hasc kv h1)
  · have hx : kv = (fid, rsA) := by simpa using h2
    rw [hx]

/-- Appending one engine record extends the history: the new record lands
at the end of the active file (or alone in a fresh rollover file), and
the byte replay of the extended directory is the old replay followed by
one replay step on the new record at its append position. -/
theorem hist_append (s : EngineState) (rl : List (Nat × List LogRecord))
    (acc : ReplayAcc) (record : LogRecord) (acc1 : ReplayAcc)
    (hH : HistFiles s rl acc) (hrec : EngRecord record)
    (hstep : replayRecordStep (appendLogRecord s record).2.file_id
      (appendLogRecord s record).2.offset record record.encode.length acc =
      .ok acc1) :
    ∃ rl', HistFiles (appendLogRecord s record).1 rl' acc1 := by
  obtain ⟨hfiles, hasc, ⟨front, rsA, hrl, hwo⟩, hER, hload⟩ := hH
  rw [appendLogRecord_eq] at hstep ⊢
  by_cases hroll : s.writeOff + record.encode.length > s.opts.dataFileSize
  · rw [if_pos hroll] at hstep ⊢
    dsimp only at hstep ⊢
    refine ⟨rl ++ [(s.activeFid + 1, [record])], ?_, ?_, ?_, ?_, ?_⟩
    · show filesAppend (filesSetIo s.files s.activeFid .fileIo ++
          [(s.activeFid + 1, ⟨[], .fileIo⟩)]) (s.activeFid + 1)
          record.encode =
        filesOfRecs (rl ++ [(s.activeFid + 1, [record])])
      rw [hfiles, filesSetIo_filesOfRecs]
      have hne : ∀ kv ∈ filesOfRecs rl, kv.1 ≠ s.activeFid + 1 := by
        intro kv hkv
        obtain ⟨rs, hrs⟩ := mem_filesOfRecs_fst rl kv hkv
        have hle := hist_fid_le front s.activeFid rsA (by rw [← hrl]; exact hasc)
          (kv.1, rs) (by rw [← hrl]; exact hrs)
        omega
      rw [filesAppend_skip (filesOfRecs rl) (s.activeFid + 1) ⟨[], .fileIo⟩
        record.encode hne]
      rw [filesOfRecs_append]
      simp [filesOfRecs, recsEncode]
    · rw [List.map_append]
      refine ascNat_snoc _ _ hasc ?_
      intro m hm
      obtain ⟨kv, hkv, heq⟩ := List.mem_map.mp hm
      have hle := hist_fid_le front s.activeFid rsA (by rw [← hrl]; exact hasc)
        kv (by rw [← hrl]; exact hkv)
      omega
    · exact ⟨rl, [record], rfl, by simp [recsEncode]⟩
    · intro kv hkv r hr
      rcases List.mem_append.mp hkv with h1 | h2
      · exact hER kv h1 r hr
      · have hx : kv = (s.activeFid + 1, [record]) := by simpa using h2
        rw [hx] at hr
        have hy : r = record := by simpa using hr
        rw [hy]
        exact hrec
    · rw [loadIndexRecords_snoc rl (s.activeFid + 1) [record] initAcc, hload]
      dsimp only
      simp only [replayRecords]
      rw [hstep]
  · rw [if_neg hroll] at hstep ⊢
    dsimp only at hstep ⊢
    have hne : ∀ kv ∈ filesOfRecs front, kv.1 ≠ s.activeFid := by
      intro kv hkv
      obtain ⟨rs, hrs⟩ := mem_filesOfRecs_fst front kv hkv
      have hlt := asc_snoc_lt front (s.activeFid, rsA)
        (by rw [← hrl]; exact hasc) (kv.1, rs) hrs
      omega
    refine ⟨front ++ [(s.activeFid, rsA ++ [record])], ?_, ?_, ?_, ?_, ?_⟩
    · show filesAppend s.files s.activeFid record.encode = _
      rw [hfiles, hrl, filesOfRecs_append, filesOfRecs_append]
      simp only [filesOfRecs]
      rw [filesAppend_skip (filesOfRecs front) s.activeFid
        ⟨recsEncode rsA, .fileIo⟩ record.encode hne]
      simp [recsEncode_append, recsEncode]
    · rw [hrl] at hasc
      rw [List.map_append] at hasc ⊢
      simp only [List.map_cons, List.map_nil] at hasc ⊢
      exact hasc
    · refine ⟨front, rsA ++ [record], rfl, ?_⟩
      show s.writeOff + record.encode.length = _
      rw [hwo, recsEncode_append]
      simp [recsEncode]
    · intro kv hkv r hr
      rcases List.mem_append.mp hkv with h1 | h2
      · exact hER kv (by rw [hrl]; exact List.mem_append.mpr (Or.inl h1)) r hr
      · have hx : kv = (s.activeFid, rsA ++ [record]) := by simpa using h2
        rw [hx] at hr
        rcases List.mem_append.mp hr with hr1 | hr2
        · exact hER (s.activeFid, rsA) (by rw [hrl]; simp) r hr1
        · have hy : r = record := by simpa using hr2
          rw [hy]
          exact hrec
    · rw [hrl, loadIndexRecords_snoc front s.activeFid rsA initAcc] at hload
      rw [loadIndexRecords_snoc front s.activeFid (rsA ++ [record]) initAcc]
      cases hfr : loadIndexRecords front initAcc with
      | error e => rw [hfr] at hload; exact absurd hload (by simp)
      | ok p =>
        obtain ⟨accF, offF⟩ := p
        rw [hfr] at hload
        dsimp only at hload
        dsimp only
        rw [replayRecords_append1, hload]
        dsimp only
        rw [hstep]


/-- The staged replay records of an in-flight commit match the batch's
pending entries pointwise in key and type. -/
def StagedMatch : PendingMap → List (LogRecord × LogRecordPos) → Prop
  | [], [] => True
  | (k, item) :: p', rp :: s' =>
    rp.1.key = k ∧ rp.1.rec_type = item.rec_type ∧ StagedMatch p' s'
  | _, _ => False

theorem stagedMatch_keys :
    ∀ (p : PendingMap) (s' : List (LogRecord × LogRecordPos)),
      StagedMatch p s' → s'.map (fun rp => rp.1.key) = p.map Prod.fst
  | [], [], _ => rfl
  | [], _ :: _, h => (h : False).elim
  | (_, _) :: _, [], h => (h : False).elim
  | (k, item) :: p', rp :: s', h => by
    obtain ⟨h1, _, h3⟩ := h
    simp [stagedMatch_keys p' s' h3, h1]

theorem assocGet_append {α : Type} :
    ∀ (l1 l2 : List (Bytes × α)) (k : Bytes),
      assocGet (l1 ++ l2) k =
        match assocGet l1 k with
        | some v => some v
        | none => assocGet l2 k
  | [], _, _ => rfl
  | (k0, v0) :: t, l2, k => by
    by_cases h : k = k0
    · simp [assocGet, h]
    · simp [assocGet, h, assocGet_append t l2 k]

theorem assocGet_staged :
    ∀ (s' : List (LogRecord × LogRecordPos)),
      (s'.map (fun rp => rp.1.key)).Nodup →
      ∀ rp ∈ s',
        assocGet (s'.map (fun rp => (rp.1.key, rp.2))) rp.1.key = some rp.2
  | [], _, rp, h => absurd h (by simp)
  | rp0 :: t, hnd, rp, h => by
    simp only [List.map_cons, List.nodup_cons] at hnd
    rcases List.mem_cons.mp h with h0 | ht
    · subst h0
      simp [assocGet]
    · have hne : rp.1.key ≠ rp0.1.key := by
        intro hc
        exact hnd.1 (hc ▸ List.mem_map.mpr ⟨rp, ht, rfl⟩)
      simp only [List.map_cons, assocGet]
      rw [if_neg hne]
      exact assocGet_staged t hnd.2 rp ht

theorem foldUpd_index :
    ∀ (l : List (LogRecord × LogRecordPos)) (acc : ReplayAcc),
      (l.foldl (fun a rp => updateIndexAcc a rp.1.key rp.1.rec_type rp.2)
        acc).index =
      l.foldl (fun m rp => idxStep m rp.1.key rp.1.rec_type rp.2) acc.index := by
  intro l
  induction l with
  | nil => intro acc; rfl
  | cons hd t ih =>
    intro acc
    rw [List.foldl_cons, List.foldl_cons, ih, updateIndexAcc_index]

/-- The index-update loop of commit step 7 succeeds when every staged key
resolves in `positions`, leaves the store untouched, and folds the staged
records' index effects. -/
theorem flush_apply :
    ∀ (pending : PendingMap) (staged' : List (LogRecord × LogRecordPos))
      (positions : List (Bytes × LogRecordPos)) (st : EngineState),
      StagedMatch pending staged' →
      (∀ rp ∈ staged', assocGet positions rp.1.key = some rp.2) →
      ∃ st', applyPendingIndex positions st pending = .ok st' ∧
        st'.files = st.files ∧ st'.activeFid = st.activeFid ∧
        st'.writeOff = st.writeOff ∧ st'.seqNo = st.seqNo ∧
        st'.index = staged'.foldl
          (fun m rp => idxStep m rp.1.key rp.1.rec_type rp.2) st.index
  | [], [], positions, st, _, _ => ⟨st, rfl, rfl, rfl, rfl, rfl, rfl⟩
  | [], _ :: _, _, _, h, _ => (h : False).elim
  | (_, _) :: _, [], _, _, h, _ => (h : False).elim
  | (k, item) :: p', rp :: s', positions, st, h, hget => by
    obtain ⟨h1, h2, h3⟩ := h
    have hg := hget rp (by simp)
    rw [h1] at hg
    simp only [applyPendingIndex]
    rw [hg]
    dsimp only
    obtain ⟨st', happ, hf, ha, hw, hs, hidx⟩ :=
      flush_apply p' s' positions (updateIndex st k item.rec_type rp.2) h3
        (fun rp' hrp' => hget rp' (by simp [hrp']))
    refine ⟨st', happ, ?_, ?_, ?_, ?_, ?_⟩
    · rw [hf]
      exact (updateIndex_rest st k item.rec_type rp.2).1
    · rw [ha]
      exact (updateIndex_rest st k item.rec_type rp.2).2.1
    · rw [hw]
      exact (updateIndex_rest st k item.rec_type rp.2).2.2.1
    · rw [hs]
      exact (updateIndex_rest st k item.rec_type rp.2).2.2.2
    · rw [hidx]
      simp only [List.foldl_cons]
      rw [updateIndex_index, h1, h2]


theorem appendLogRecord_pos_size (s : EngineState) (r : LogRecord) :
    (appendLogRecord s r).2.size = r.encode.length := by
  rw [appendLogRecord_eq]
  by_cases h : s.writeOff + r.encode.length > s.opts.dataFileSize
  · rw [if_pos h]
  · rw [if_neg h]

theorem engRecord_key_with_seq (rk : Bytes) (seq : Nat) (v : Bytes)
    (rt : LogRecordType) (hk : rk.length < 2 ^ 31) (hv : v.length < 2 ^ 31)
    (hs : vLen seq < 2 ^ 31) :
    EngRecord ⟨logRecordKeyWithSeq rk seq, v, rt⟩ := by
  refine ⟨⟨rk, seq, rfl⟩, ?_, by exact lt_trans hv (by norm_num)⟩
  show (vEnc seq ++ rk).length < 2 ^ 32
  rw [List.length_append]
  have : (vEnc seq).length = vLen seq := rfl
  omega

/-- The commit append loop with a nonzero sequence number: each record
is staged by the replay; the runtime keydir is untouched; the returned
positions are the staged keys with their append positions. -/
theorem hist_commit_append_stage :
    ∀ (pending : PendingMap) (seq : Nat) (st : EngineState)
      (rl : List (Nat × List LogRecord)) (acc : ReplayAcc)
      (ps : List (Bytes × LogRecordPos))
      (staged : List (LogRecord × LogRecordPos)),
      HistFiles st rl acc →
      acc.txn = txnOf seq staged →
      seq ≠ NON_TXN_SEQ_NO →
      vLen seq < 2 ^ 31 →
      (∀ kv ∈ pending, kv.1.length < 2 ^ 31 ∧ kv.2.value.length < 2 ^ 31 ∧
        kv.2.rec_type ≠ .TXNFINISHED ∧ kv.2.key = kv.1) →
      (∀ kv ∈ pending, assocGet ps kv.1 = none) →
      (pending.map Prod.fst).Nodup →
      ∃ rl' acc' staged',
        HistFiles (appendPending seq st ps pending).1 rl' acc' ∧
        acc'.index = acc.index ∧
        acc'.txn = txnOf seq (staged ++ staged') ∧
        StagedMatch pending staged' ∧
        (appendPending seq st ps pending).2 =
          ps ++ staged'.map (fun rp => (rp.1.key, rp.2)) ∧
        (appendPending seq st ps pending).1.index = st.index ∧
        (appendPending seq st ps pending).1.seqNo = st.seqNo
  | [], seq, st, rl, acc, ps, staged, hH, htxn, _, _, _, _, _ =>
    ⟨rl, acc, [], hH, rfl, by rw [List.append_nil]; exact htxn, trivial,
      by simp [appendPending], rfl, rfl⟩
  | (k, item) :: rest, seq, st, rl, acc, ps, staged, hH, htxn, h0, hvl,
      hwfp, hfresh, hnodup => by
    obtain ⟨hk31, hv31, hfin, hkey⟩ := hwfp (k, item) (by simp)
    simp only [appendPending]
    set record : LogRecord :=
      ⟨logRecordKeyWithSeq k seq, item.value, item.rec_type⟩ with hrec_def
    have hrec : EngRecord record :=
      engRecord_key_with_seq k seq item.value item.rec_type hk31 hv31 hvl
    have hpos : (⟨(appendLogRecord st record).2.file_id,
        (appendLogRecord st record).2.offset,
        record.encode.length⟩ : LogRecordPos) = (appendLogRecord st record).2 := by
      rw [← appendLogRecord_pos_size st record]
    have hstep := replayRecordStep_stage (appendLogRecord st record).2.file_id
      (appendLogRecord st record).2.offset record record.encode.length acc
      k seq (parse_key_with_seq k seq) h0 hfin
    obtain ⟨rl1, hH1⟩ := hist_append st rl acc record _ hH hrec hstep
    have htxn1 : ({ acc with
        seqNo := max acc.seqNo (seq + 1),
        txn := txnPush acc.txn seq
          (⟨k, record.value, record.rec_type⟩,
            ⟨(appendLogRecord st record).2.file_id,
              (appendLogRecord st record).2.offset,
              record.encode.length⟩) } : ReplayAcc).txn =
        txnOf seq (staged ++ [(⟨k, item.value, item.rec_type⟩,
          (appendLogRecord st record).2)]) := by
      show txnPush acc.txn seq _ = _
      rw [htxn, hpos]
      exact txnPush_txnOf seq staged _
    have hps1 : hashInsert ps item.key (appendLogRecord st record).2 =
        ps ++ [(k, (appendLogRecord st record).2)] := by
      rw [hkey]
      exact hashInsert_not_mem ps k _ (hfresh (k, item) (by simp))
    have hfresh1 : ∀ kv ∈ rest,
        assocGet (hashInsert ps item.key (appendLogRecord st record).2)
          kv.1 = none := by
      intro kv hkv
      rw [hps1, assocGet_append, hfresh kv (by simp [hkv])]
      have hne : kv.1 ≠ k := by
        intro hc
        simp only [List.map_cons, List.nodup_cons] at hnodup
        exact hnodup.1 (hc ▸ List.mem_map.mpr ⟨kv, hkv, rfl⟩)
      simp [assocGet, hne]
    obtain ⟨rl', acc', staged'', ihH, ihIdx, ihTxn, ihMatch, ihPs, ihStIdx,
        ihStSeq⟩ :=
      hist_commit_append_stage rest seq (appendLogRecord st record).1 rl1 _
        (hashInsert ps item.key (appendLogRecord st record).2)
        (staged ++ [(⟨k, item.value, item.rec_type⟩,
          (appendLogRecord st record).2)])
        hH1 htxn1 h0 hvl (fun kv hkv => hwfp kv (by simp [hkv])) hfresh1
        (by simp only [List.map_cons, List.nodup_cons] at hnodup
            exact hnodup.2)
    refine ⟨rl', acc', (⟨k, item.value, item.rec_type⟩,
      (appendLogRecord st record).2) :: staged'', ihH, ?_, ?_, ?_, ?_, ?_, ?_⟩
    · rw [ihIdx]
    · rw [ihTxn]
      simp [List.append_assoc]
    · exact ⟨rfl, rfl, ihMatch⟩
    · rw [ihPs, hps1]
      simp
    · rw [ihStIdx]
      exact (appendLogRecord_rest st record).1
    · rw [ihStSeq]
      exact (appendLogRecord_rest st record).2.1


/-- The commit append loop with sequence number 0 (reachable via the
ordered-map keydir when no `seq-no` sidecar existed): the replay applies
each record directly instead of staging. -/
theorem hist_commit_append_zero :
    ∀ (pending : PendingMap) (st : EngineState)
      (rl : List (Nat × List LogRecord)) (acc : ReplayAcc)
      (ps : List (Bytes × LogRecordPos)),
      HistFiles st rl acc →
      (∀ kv ∈ pending, kv.1.length < 2 ^ 31 ∧ kv.2.value.length < 2 ^ 31 ∧
        kv.2.key = kv.1) →
      (∀ kv ∈ pending, assocGet ps kv.1 = none) →
      (pending.map Prod.fst).Nodup →
      ∃ rl' acc' staged',
        HistFiles (appendPending 0 st ps pending).1 rl' acc' ∧
        acc'.index = staged'.foldl
          (fun m rp => idxStep m rp.1.key rp.1.rec_type rp.2) acc.index ∧
        acc'.txn = acc.txn ∧
        StagedMatch pending staged' ∧
        (appendPending 0 st ps pending).2 =
          ps ++ staged'.map (fun rp => (rp.1.key, rp.2)) ∧
        (appendPending 0 st ps pending).1.index = st.index ∧
        (appendPending 0 st ps pending).1.seqNo = st.seqNo
  | [], st, rl, acc, ps, hH, _, _, _ =>
    ⟨rl, acc, [], hH, rfl, rfl, trivial, by simp [appendPending], rfl, rfl⟩
  | (k, item) :: rest, st, rl, acc, ps, hH, hwfp, hfresh, hnodup => by
    obtain ⟨hk31, hv31, hkey⟩ := hwfp (k, item) (by simp)
    simp only [appendPending]
    set record : LogRecord :=
      ⟨logRecordKeyWithSeq k 0, item.value, item.rec_type⟩ with hrec_def
    have hrec : EngRecord record :=
      engRecord_key_with_seq k 0 item.value item.rec_type hk31 hv31
        (by decide)
    have hpos : (⟨(appendLogRecord st record).2.file_id,
        (appendLogRecord st record).2.offset,
        record.encode.length⟩ : LogRecordPos) = (appendLogRecord st record).2 := by
      rw [← appendLogRecord_pos_size st record]
    have hstep := replayRecordStep_nontxn (appendLogRecord st record).2.file_id
      (appendLogRecord st record).2.offset record record.encode.length acc
      k (parse_key_with_seq k 0)
    obtain ⟨rl1, hH1⟩ := hist_append st rl acc record _ hH hrec hstep
    have hps1 : hashInsert ps item.key (appendLogRecord st record).2 =
        ps ++ [(k, (appendLogRecord st record).2)] := by
      rw [hkey]
      exact hashInsert_not_mem ps k _ (hfresh (k, item) (by simp))
    have hfresh1 : ∀ kv ∈ rest,
        assocGet (hashInsert ps item.key (appendLogRecord st record).2)
          kv.1 = none := by
      intro kv hkv
      rw [hps1, assocGet_append, hfresh kv (by simp [hkv])]
      have hne : kv.1 ≠ k := by
        intro hc
        simp only [List.map_cons, List.nodup_cons] at hnodup
        exact hnodup.1 (hc ▸ List.mem_map.mpr ⟨kv, hkv, rfl⟩)
      simp [assocGet, hne]
    obtain ⟨rl', acc', staged'', ihH, ihIdx, ihTxn, ihMatch, ihPs, ihStIdx,
        ihStSeq⟩ :=
      hist_commit_append_zero rest (appendLogRecord st record).1 rl1 _
        (hashInsert ps item.key (appendLogRecord st record).2)
        hH1 (fun kv hkv => hwfp kv (by simp [hkv])) hfresh1
        (by simp only [List.map_cons, List.nodup_cons] at hnodup
            exact hnodup.2)
    refine ⟨rl', acc', (⟨k, item.value, item.rec_type⟩,
      (appendLogRecord st record).2) :: staged'', ihH, ?_, ?_, ?_, ?_, ?_, ?_⟩
    · rw [ihIdx]
      simp only [List.foldl_cons]
      rw [updateIndexAcc_index]
      show _ = staged''.foldl _
        (idxStep acc.index k item.rec_type (appendLogRecord st record).2)
      rw [← hpos]
    · rw [ihTxn, updateIndexAcc_txn]
    · exact ⟨rfl, rfl, ihMatch⟩
    · rw [ihPs, hps1]
      simp
    · rw [ihStIdx]
      exact (appendLogRecord_rest st record).1
    · rw [ihStSeq]
      exact (appendLogRecord_rest st record).2.1


theorem appendPending_seqNo_eq :
    ∀ (pending : PendingMap) (seq : Nat) (st : EngineState)
      (ps : List (Bytes × LogRecordPos)),
      (appendPending seq st ps pending).1.seqNo = st.seqNo
  | [], _, _, _ => rfl
  | (k, item) :: rest, seq, st, ps => by
    simp only [appendPending]
    rw [appendPending_seqNo_eq rest seq _ _]
    exact (appendLogRecord_rest st _).2.1

theorem applyPendingIndex_seqNo :
    ∀ (pending : PendingMap) (positions : List (Bytes × LogRecordPos))
      (st st' : EngineState),
      applyPendingIndex positions st pending = .ok st' → st'.seqNo = st.seqNo
  | [], _, st, st', h => by
    injection h with h1
    rw [← h1]
  | (k, rec) :: p', positions, st, st', h => by
    simp only [applyPendingIndex] at h
    cases hg : assocGet positions k with
    | none => rw [hg] at h; exact absurd h (by simp)
    | some pos =>
      rw [hg] at h
      dsimp only at h
      rw [applyPendingIndex_seqNo p' positions _ st' h]
      exact (updateIndex_rest st k rec.rec_type pos).2.2.2

theorem enginePut_seqNo (s : EngineState) (k v : Bytes) (s1 : EngineState)
    (h : enginePut s k v = .ok s1) : s1.seqNo = s.seqNo := by
  unfold enginePut at h
  by_cases hk : k = []
  · rw [if_pos hk] at h
    exact absurd h (by simp)
  · rw [if_neg hk] at h
    dsimp only at h
    injection h with h1
    rw [← h1]
    exact (appendLogRecord_rest s _).2.1

theorem engineDelete_seqNo (s : EngineState) (k : Bytes) :
    (engineDelete s k).seqNo = s.seqNo := by
  unfold engineDelete
  by_cases hk : k = []
  · rw [if_pos hk]
  · rw [if_neg hk]
    cases hg : idxGet s.index k with
    | none => rfl
    | some pos =>
      dsimp only
      exact (appendLogRecord_rest s _).2.1

theorem wbCommit_seqNo (s : EngineState) (pending : PendingMap) (maxN : Nat)
    (s1 : EngineState) (h : wbCommit s pending maxN = .ok s1) :
    s1.seqNo ≤ s.seqNo + 1 := by
  unfold wbCommit at h
  by_cases hemp : pending.length = 0
  · rw [if_pos hemp] at h
    injection h with h1
    rw [← h1]
    omega
  · rw [if_neg hemp] at h
    by_cases hmax : pending.length > maxN
    · rw [if_pos hmax] at h
      exact absurd h (by simp)
    · rw [if_neg hmax] at h
      dsimp only at h
      have h2 := applyPendingIndex_seqNo pending _ _ s1 h
      rw [h2, (appendLogRecord_rest _ _).2.1, appendPending_seqNo_eq]

/-- `Engine::put` preserves the history invariant. -/
theorem hist_put (s : EngineState) (rl : List (Nat × List LogRecord))
    (acc : ReplayAcc) (k v : Bytes) (s1 : EngineState)
    (hH : HistFiles s rl acc) (hidx : acc.index = s.index)
    (htxn : acc.txn = []) (hk31 : k.length < 2 ^ 31)
    (hv31 : v.length < 2 ^ 31) (hput : enginePut s k v = .ok s1) :
    ∃ rl' acc', HistFiles s1 rl' acc' ∧ acc'.index = s1.index ∧
      acc'.txn = [] := by
  unfold enginePut at hput
  by_cases hk : k = []
  · rw [if_pos hk] at hput
    exact absurd hput (by simp)
  · rw [if_neg hk] at hput
    dsimp only at hput
    injection hput with h1
    set record : LogRecord :=
      ⟨logRecordKeyWithSeq k NON_TXN_SEQ_NO, v, .NOAMAL⟩ with hrd
    have hrec : EngRecord record :=
      engRecord_key_with_seq k NON_TXN_SEQ_NO v .NOAMAL hk31 hv31 (by decide)
    have hpos : (⟨(appendLogRecord s record).2.file_id,
        (appendLogRecord s record).2.offset,
        record.encode.length⟩ : LogRecordPos) = (appendLogRecord s record).2 := by
      rw [← appendLogRecord_pos_size s record]
    have hstep := replayRecordStep_nontxn (appendLogRecord s record).2.file_id
      (appendLogRecord s record).2.offset record record.encode.length acc k
      (parse_key_with_seq k NON_TXN_SEQ_NO)
    obtain ⟨rl', hH'⟩ := hist_append s rl acc record _ hH hrec hstep
    refine ⟨rl', _, histFiles_mod _ _ _ _ hH' (by rw [← h1]) (by rw [← h1])
      (by rw [← h1]), ?_, ?_⟩
    · rw [updateIndexAcc_index, ← h1]
      show idxStep acc.index k record.rec_type _ =
        assocInsert (appendLogRecord s record).1.index k
          (appendLogRecord s record).2
      rw [hidx, (appendLogRecord_rest s record).1, hpos]
      rfl
    · rw [updateIndexAcc_txn]
      exact htxn

/-- `Engine::delete` preserves the history invariant. -/
theorem hist_del (s : EngineState) (rl : List (Nat × List LogRecord))
    (acc : ReplayAcc) (k : Bytes)
    (hH : HistFiles s rl acc) (hidx : acc.index = s.index)
    (htxn : acc.txn = []) (hk31 : k.length < 2 ^ 31) :
    ∃ rl' acc', HistFiles (engineDelete s k) rl' acc' ∧
      acc'.index = (engineDelete s k).index ∧ acc'.txn = [] := by
  unfold engineDelete
  by_cases hk : k = []
  · rw [if_pos hk]
    exact ⟨rl, acc, hH, hidx, htxn⟩
  · rw [if_neg hk]
    cases hg : idxGet s.index k with
    | none => exact ⟨rl, acc, hH, hidx, htxn⟩
    | some pos0 =>
      dsimp only
      set record : LogRecord :=
        ⟨logRecordKeyWithSeq k NON_TXN_SEQ_NO, [], .DELETED⟩ with hrd
      have hrec : EngRecord record :=
        engRecord_key_with_seq k NON_TXN_SEQ_NO [] .DELETED hk31 (by decide)
          (by decide)
      have hstep := replayRecordStep_nontxn
        (appendLogRecord s record).2.file_id
        (appendLogRecord s record).2.offset record record.encode.length acc k
        (parse_key_with_seq k NON_TXN_SEQ_NO)
      obtain ⟨rl', hH'⟩ := hist_append s rl acc record _ hH hrec hstep
      refine ⟨rl', _, histFiles_mod _ _ _ _ hH' rfl rfl rfl, ?_, ?_⟩
      · rw [updateIndexAcc_index]
        show idxStep acc.index k record.rec_type _ =
          assocErase (appendLogRecord s record).1.index k
        rw [hidx, (appendLogRecord_rest s record).1]
        rfl
      · rw [updateIndexAcc_txn]
        exact htxn


theorem stagedMatch_ne_nil :
    ∀ (p : PendingMap) (s' : List (LogRecord × LogRecordPos)),
      StagedMatch p s' → p ≠ [] → s' ≠ []
  | [], _, _, hp => absurd rfl hp
  | (_, _) :: _, [], h, _ => (h : False).elim
  | (_, _) :: _, _ :: _, _, _ => by simp

/-- `WriteBatch::commit` preserves the history invariant. -/
theorem hist_commit (s : EngineState) (pending : PendingMap) (maxN : Nat)
    (s1 : EngineState) (rl : List (Nat × List LogRecord)) (acc : ReplayAcc)
    (hH : HistFiles s rl acc) (hidx : acc.index = s.index)
    (htxn : acc.txn = []) (hvl : vLen s.seqNo < 2 ^ 31)
    (hnodup : (pending.map Prod.fst).Nodup)
    (hwfp : ∀ kv ∈ pending, kv.1.length < 2 ^ 31 ∧
      kv.2.value.length < 2 ^ 31 ∧ kv.2.rec_type ≠ .TXNFINISHED ∧
      kv.2.key = kv.1)
    (hcommit : wbCommit s pending maxN = .ok s1) :
    ∃ rl' acc', HistFiles s1 rl' acc' ∧ acc'.index = s1.index ∧
      acc'.txn = [] := by
  unfold wbCommit at hcommit
  by_cases hemp : pending.length = 0
  · rw [if_pos hemp] at hcommit
    injection hcommit with h1
    exact ⟨rl, acc, h1 ▸ hH, h1 ▸ hidx, htxn⟩
  · rw [if_neg hemp] at hcommit
    by_cases hmax : pending.length > maxN
    · rw [if_pos hmax] at hcommit
      exact absurd hcommit (by simp)
    · rw [if_neg hmax] at hcommit
      dsimp only at hcommit
      by_cases hz : s.seqNo = NON_TXN_SEQ_NO
      · -- zero-sequence commit: records replay as non-transactional
        have hz0 : s.seqNo = 0 := hz
        rw [hz0] at hcommit
        have hH0 : HistFiles { s with seqNo := 0 + 1 } rl acc :=
          histFiles_mod s _ rl acc hH rfl rfl rfl
        obtain ⟨rl1, acc1, staged', hH1, hIdx1, hTxn1, hMatch, hPs, hStIdx,
            hStSeq⟩ :=
          hist_commit_append_zero pending { s with seqNo := 0 + 1 } rl acc []
            hH0
            (fun kv hkv => ⟨(hwfp kv hkv).1, (hwfp kv hkv).2.1,
              (hwfp kv hkv).2.2.2⟩)
            (fun kv _ => rfl) hnodup
        set sP : EngineState :=
          (appendPending 0 { s with seqNo := 0 + 1 } [] pending).1 with hsPd
        set finrec : LogRecord :=
          ⟨logRecordKeyWithSeq TXN_FIN_KEY 0, [], .TXNFINISHED⟩ with hfrd
        have hrecF : EngRecord finrec :=
          engRecord_key_with_seq TXN_FIN_KEY 0 [] .TXNFINISHED (by decide)
            (by decide) (by decide)
        have hstepF := replayRecordStep_nontxn
          (appendLogRecord sP finrec).2.file_id
          (appendLogRecord sP finrec).2.offset finrec finrec.encode.length
          acc1 TXN_FIN_KEY (parse_key_with_seq TXN_FIN_KEY 0)
        obtain ⟨rl2, hH2⟩ := hist_append sP rl1 acc1 finrec _ hH1 hrecF hstepF
        have hkeysnd : (staged'.map (fun rp => rp.1.key)).Nodup := by
          rw [stagedMatch_keys pending staged' hMatch]
          exact hnodup
        have hget : ∀ rp ∈ staged',
            assocGet (appendPending 0 { s with seqNo := 0 + 1 } [] pending).2
              rp.1.key = some rp.2 := by
          intro rp hrp
          rw [hPs, List.nil_append]
          exact assocGet_staged staged' hkeysnd rp hrp
        obtain ⟨st'', happ, hfF, haF, hwF, hsF, hidxF⟩ :=
          flush_apply pending staged' _ (appendLogRecord sP finrec).1 hMatch
            hget
        rw [happ] at hcommit
        injection hcommit with h1
        refine ⟨rl2, _, histFiles_mod _ _ _ _ hH2 (by rw [← h1, hfF])
          (by rw [← h1, haF]) (by rw [← h1, hwF]), ?_, ?_⟩
        · rw [updateIndexAcc_index, ← h1, hidxF]
          show acc1.index = staged'.foldl _ (appendLogRecord sP finrec).1.index
          rw [hIdx1, hidx, (appendLogRecord_rest sP finrec).1, hStIdx]
        · rw [updateIndexAcc_txn, hTxn1]
          exact htxn
      · -- nonzero sequence: records are staged, the terminator flushes
        have hH0 : HistFiles { s with seqNo := s.seqNo + 1 } rl acc :=
          histFiles_mod s _ rl acc hH rfl rfl rfl
        obtain ⟨rl1, acc1, staged', hH1, hIdx1, hTxn1, hMatch, hPs, hStIdx,
            hStSeq⟩ :=
          hist_commit_append_stage pending s.seqNo
            { s with seqNo := s.seqNo + 1 } rl acc [] []
            hH0 (by rw [htxn]; rfl) hz hvl hwfp (fun kv _ => rfl) hnodup
        have hne : staged' ≠ [] :=
          stagedMatch_ne_nil pending staged' hMatch
            (by intro hc; rw [hc] at hemp; simp at hemp)
        have hlook : lookupFid acc1.txn s.seqNo = some staged' := by
          rw [hTxn1, List.nil_append]
          unfold txnOf
          rw [if_neg hne]
          simp [lookupFid]
        set sP : EngineState :=
          (appendPending s.seqNo { s with seqNo := s.seqNo + 1 } []
            pending).1 with hsPd
        set finrec : LogRecord :=
          ⟨logRecordKeyWithSeq TXN_FIN_KEY s.seqNo, [], .TXNFINISHED⟩ with hfrd
        have hrecF : EngRecord finrec :=
          engRecord_key_with_seq TXN_FIN_KEY s.seqNo [] .TXNFINISHED
            (by decide) (by decide) hvl
        have hstepF := replayRecordStep_fin
          (appendLogRecord sP finrec).2.file_id
          (appendLogRecord sP finrec).2.offset finrec finrec.encode.length
          acc1 TXN_FIN_KEY s.seqNo staged'
          (parse_key_with_seq TXN_FIN_KEY s.seqNo) hz rfl hlook
        obtain ⟨rl2, hH2⟩ := hist_append sP rl1 acc1 finrec _ hH1 hrecF hstepF
        have hkeysnd : (staged'.map (fun rp => rp.1.key)).Nodup := by
          rw [stagedMatch_keys pending staged' hMatch]
          exact hnodup
        have hget : ∀ rp ∈ staged',
            assocGet (appendPending s.seqNo { s with seqNo := s.seqNo + 1 }
              [] pending).2 rp.1.key = some rp.2 := by
          intro rp hrp
          rw [hPs, List.nil_append]
          exact assocGet_staged staged' hkeysnd rp hrp
        obtain ⟨st'', happ, hfF, haF, hwF, hsF, hidxF⟩ :=
          flush_apply pending staged' _ (appendLogRecord sP finrec).1 hMatch
            hget
        rw [happ] at hcommit
        injection hcommit with h1
        refine ⟨rl2, _, histFiles_mod _ _ _ _ hH2 (by rw [← h1, hfF])
          (by rw [← h1, haF]) (by rw [← h1, hwF]), ?_, ?_⟩
        · dsimp only
          rw [foldUpd_index, ← h1, hidxF]
          show staged'.foldl _ acc1.index =
            staged'.foldl _ (appendLogRecord sP finrec).1.index
          rw [hIdx1, hidx, (appendLogRecord_rest sP finrec).1, hStIdx]
        · show natErase acc1.txn s.seqNo = []
          rw [hTxn1, List.nil_append]
          unfold txnOf
          rw [if_neg hne]
          simp [natErase]


/-- The full history invariant: the keydir equals the replayed keydir and
no transaction is in flight. -/
def Hist (s : EngineState) : Prop :=
  ∃ rl acc, HistFiles s rl acc ∧ acc.index = s.index ∧ acc.txn = []

/-- Well-formed operations: bounded keys and values, and commit batches
shaped as `WriteBatch::put`/`delete` build them (distinct keys, each
record keyed by its map key, no terminator records). -/
def OpWF : EngOp → Prop
  | .put k v => k.length < 2 ^ 31 ∧ v.length < 2 ^ 31
  | .del k => k.length < 2 ^ 31
  | .commit pending _ =>
    (pending.map Prod.fst).Nodup ∧
    ∀ kv ∈ pending, kv.1.length < 2 ^ 31 ∧ kv.2.value.length < 2 ^ 31 ∧
      kv.2.rec_type ≠ .TXNFINISHED ∧ kv.2.key = kv.1

instance : ∀ op : EngOp, Decidable (OpWF op) := by
  intro op
  cases op <;> (unfold OpWF; infer_instance)

theorem hist_applyOp (s : EngineState) (op : EngOp) (hH : Hist s)
    (hwf : OpWF op) (hseq : vLen s.seqNo < 2 ^ 31) : Hist (applyOp s op) := by
  obtain ⟨rl, acc, hHF, hidx, htxn⟩ := hH
  cases op with
  | put k v =>
    obtain ⟨hk31, hv31⟩ := hwf
    simp only [applyOp]
    cases hp : enginePut s k v with
    | error e => exact ⟨rl, acc, hHF, hidx, htxn⟩
    | ok s1 => exact hist_put s rl acc k v s1 hHF hidx htxn hk31 hv31 hp
  | del k =>
    simp only [applyOp]
    exact hist_del s rl acc k hHF hidx htxn hwf
  | commit pending maxN =>
    obtain ⟨hnodup, hwfp⟩ := hwf
    simp only [applyOp]
    cases hc : wbCommit s pending maxN with
    | error e => exact ⟨rl, acc, hHF, hidx, htxn⟩
    | ok s1 =>
      exact hist_commit s pending maxN s1 rl acc hHF hidx htxn hseq hnodup
        hwfp hc

theorem applyOp_seqNo (s : EngineState) (op : EngOp) :
    (applyOp s op).seqNo ≤ s.seqNo + 1 := by
  cases op with
  | put k v =>
    simp only [applyOp]
    cases hp : enginePut s k v with
    | error e => dsimp only; omega
    | ok s1 =>
      dsimp only
      rw [enginePut_seqNo s k v s1 hp]
      omega
  | del k =>
    simp only [applyOp]
    rw [engineDelete_seqNo]
    omega
  | commit pending maxN =>
    simp only [applyOp]
    cases hc : wbCommit s pending maxN with
    | error e => dsimp only; omega
    | ok s1 =>
      dsimp only
      exact wbCommit_seqNo s pending maxN s1 hc

theorem vLen_lt_of_seq (n : Nat) (h : n < 2 ^ 62) : vLen n < 2 ^ 31 := by
  have h9 : vLen n ≤ 9 := by
    refine vLen_le 9 n ?_ (by omega)
    calc n < 2 ^ 62 := h
      _ ≤ 128 ^ 9 := by norm_num
  omega

theorem hist_applyOps :
    ∀ (ops : List EngOp) (s : EngineState),
      Hist s → (∀ op ∈ ops, OpWF op) → s.seqNo + ops.length < 2 ^ 62 →
      Hist (applyOps s ops)
  | [], _, hH, _, _ => hH
  | op :: ops, s, hH, hwf, hb => by
    show Hist (applyOps (applyOp s op) ops)
    refine hist_applyOps ops (applyOp s op) ?_
      (fun o ho => hwf o (by simp [ho])) ?_
    · refine hist_applyOp s op hH (hwf op (by simp)) ?_
      refine vLen_lt_of_seq s.seqNo ?_
      simp only [List.length_cons] at hb
      omega
    · have := applyOp_seqNo s op
      simp only [List.length_cons] at hb
      omega

theorem histFiles_fresh (s : EngineState)
    (hf : s.files = [(0, ⟨[], .fileIo⟩)]) (ha : s.activeFid = 0)
    (hw : s.writeOff = 0) :
    HistFiles s [(0, [])] initAcc := by
  refine ⟨by rw [hf]; rfl, rfl, ⟨[], [], by rw [ha]; simp, by rw [hw]; rfl⟩,
    ?_, by rw [hw]; rfl⟩
  intro kv hkv r hr
  simp at hkv
  rw [hkv] at hr
  simp at hr

/-- A fresh open (empty directory) establishes the history invariant,
for every keydir type; the initial sequence counter is at most 1 and the
options are stored as given. -/
theorem hist_fresh (opts : EngineOptions) (s0 : EngineState)
    (hsz : opts.dataFileSize ≠ 0)
    (hopen : openModel emptyDir opts = .ok s0) :
    Hist s0 ∧ s0.seqNo ≤ 1 ∧ s0.opts = opts := by
  rw [openModel_nodata emptyDir opts hsz rfl] at hopen
  by_cases hbpt : opts.indexType = .BPlusTree
  · rw [openRest_bpt emptyDir opts _ 0 _ false [] hbpt rfl] at hopen
    rw [btreeBranch_not_btree _ _ _ (by rw [hbpt]; simp)] at hopen
    injection hopen with h1
    subst h1
    exact ⟨⟨[(0, [])], initAcc, histFiles_fresh _ rfl rfl rfl, rfl, rfl⟩,
      Nat.le_refl 1, rfl⟩
  · rw [openRest_nodata emptyDir opts _ 0 _ hbpt] at hopen
    by_cases hbt : opts.indexType = .BTree
    · unfold btreeBranch at hopen
      rw [if_pos hbt] at hopen
      dsimp only at hopen
      injection hopen with h1
      subst h1
      exact ⟨⟨[(0, [])], initAcc, histFiles_fresh _ rfl rfl rfl, rfl, rfl⟩,
        Nat.zero_le 1, rfl⟩
    · rw [btreeBranch_not_btree _ _ _ hbt] at hopen
      injection hopen with h1
      subst h1
      exact ⟨⟨[(0, [])], initAcc, histFiles_fresh _ rfl rfl rfl, rfl, rfl⟩,
        Nat.le_refl 1, rfl⟩


theorem updateIndex_opts (s : EngineState) (k : Bytes) (rt : LogRecordType)
    (pos : LogRecordPos) : (updateIndex s k rt pos).opts = s.opts := by
  cases rt <;> rfl

theorem appendPending_opts :
    ∀ (pending : PendingMap) (seq : Nat) (st : EngineState)
      (ps : List (Bytes × LogRecordPos)),
      (appendPending seq st ps pending).1.opts = st.opts
  | [], _, _, _ => rfl
  | (k, item) :: rest, seq, st, ps => by
    simp only [appendPending]
    rw [appendPending_opts rest seq _ _]
    exact (appendLogRecord_rest st _).2.2

theorem applyPendingIndex_opts :
    ∀ (pending : PendingMap) (positions : List (Bytes × LogRecordPos))
      (st st' : EngineState),
      applyPendingIndex positions st pending = .ok st' → st'.opts = st.opts
  | [], _, st, st', h => by
    injection h with h1
    rw [← h1]
  | (k, rec) :: p', positions, st, st', h => by
    simp only [applyPendingIndex] at h
    cases hg : assocGet positions k with
    | none => rw [hg] at h; exact absurd h (by simp)
    | some pos =>
      rw [hg] at h
      dsimp only at h
      rw [applyPendingIndex_opts p' positions _ st' h]
      exact updateIndex_opts st k rec.rec_type pos

theorem applyOp_opts (s : EngineState) (op : EngOp) :
    (applyOp s op).opts = s.opts := by
  cases op with
  | put k v =>
    simp only [applyOp]
    cases hp : enginePut s k v with
    | error e => rfl
    | ok s1 =>
      dsimp only
      unfold enginePut at hp
      by_cases hk : k = []
      · rw [if_pos hk] at hp
        exact absurd hp (by simp)
      · rw [if_neg hk] at hp
        dsimp only at hp
        injection hp with h1
        rw [← h1]
        exact (appendLogRecord_rest s _).2.2
  | del k =>
    simp only [applyOp]
    unfold engineDelete
    by_cases hk : k = []
    · rw [if_pos hk]
    · rw [if_neg hk]
      cases hg : idxGet s.index k with
      | none => rfl
      | some pos =>
        dsimp only
        exact (appendLogRecord_rest s _).2.2
  | commit pending maxN =>
    simp only [applyOp]
    cases hc : wbCommit s pending maxN with
    | error e => rfl
    | ok s1 =>
      dsimp only
      unfold wbCommit at hc
      by_cases hemp : pending.length = 0
      · rw [if_pos hemp] at hc
        injection hc with h1
        rw [← h1]
      · rw [if_neg hemp] at hc
        by_cases hmax : pending.length > maxN
        · rw [if_pos hmax] at hc
          exact absurd hc (by simp)
        · rw [if_neg hmax] at hc
          dsimp only at hc
          rw [applyPendingIndex_opts pending _ _ s1 hc,
            (appendLogRecord_rest _ _).2.2, appendPending_opts]

theorem applyOps_opts :
    ∀ (ops : List EngOp) (s : EngineState), (applyOps s ops).opts = s.opts
  | [], _ => rfl
  | op :: ops, s => by
    show (applyOps (applyOp s op) ops).opts = s.opts
    rw [applyOps_opts ops (applyOp s op), applyOp_opts]

theorem btreeBranch_index (d : Directory) (opts : EngineOptions)
    (s : EngineState) : (btreeBranch d opts s).index = s.index := by
  unfold btreeBranch
  split <;> rfl

theorem btreeBranch_files (d : Directory) (opts : EngineOptions)
    (s : EngineState) : (btreeBranch d opts s).files = s.files := by
  unfold btreeBranch
  split <;> rfl

theorem engineGet_congr (s1 s2 : EngineState) (hidx : s1.index = s2.index)
    (hfiles : s1.files = s2.files) (k : Bytes) :
    engineGet s1 k = engineGet s2 k := by
  simp only [engineGet, getValueByPosition, idxGet, hidx, hfiles]

theorem closeModel_dataFiles (s : EngineState)
    (rl : List (Nat × List LogRecord)) (hf : s.files = filesOfRecs rl) :
    (closeModel s).dataFiles = rl.map (fun kv => (kv.1, recsEncode kv.2)) := by
  show s.files.map _ = _
  rw [hf, filesOfRecs_eq_map, List.map_map]
  rfl

/-- Reopening a directory written by an engine satisfying the history
invariant (with mmap off) restores the keydir and the file store. -/
theorem hist_reopen (s st : EngineState)
    (hH : Hist s)
    (hsz : s.opts.dataFileSize ≠ 0) (hmm : s.opts.mmapAtStartup = false)
    (hreopen : openModel (closeModel s) s.opts = .ok st) :
    st.index = s.index ∧ st.files = s.files := by
  obtain ⟨rl, acc, ⟨hfiles, hasc, ⟨front, rsA, hrl, hwo⟩, hER, hload⟩, hidx,
    htxn⟩ := hH
  have hdf := closeModel_dataFiles s rl hfiles
  have hlast : rl.getLast? = some (s.activeFid, rsA) := by
    rw [hrl]
    exact List.getLast?_concat _
  rw [openModel_described (closeModel s) s.opts rl (s.activeFid, rsA) hsz hdf
    hasc hlast hmm] at hreopen
  by_cases hbpt : s.opts.indexType = .BPlusTree
  · rw [openRest_bpt _ _ _ _ _ _ s.index hbpt
      (by show decodeBucket (if s.opts.indexType = .BPlusTree then
            encodeIdx s.index else []) = some s.index
          rw [if_pos hbpt]
          exact decodeBucket_encodeIdx s.index)] at hreopen
    rw [btreeBranch_not_btree _ _ _ (by rw [hbpt]; simp)] at hreopen
    injection hreopen with h1
    subst h1
    exact ⟨rfl, hfiles.symm⟩
  · have hloadF : loadIndexFiles (filesOfRecs rl) initAcc =
        .ok (acc, s.writeOff) := by
      rw [loadIndexFiles_eq rl initAcc
        (fun kv hkv r hr => engRecord_wf r (hER kv hkv r hr))]
      exact hload
    rw [openRest_replay _ _ _ _ _ acc s.writeOff hbpt hloadF] at hreopen
    injection hreopen with h1
    subst h1
    constructor
    · rw [btreeBranch_index]
      exact hidx
    · rw [btreeBranch_files]
      show filesAllFileIo (filesOfRecs rl) = s.files
      rw [filesAllFileIo_filesOfRecs]
      exact hfiles.symm


/-- C2 amended: restart equivalence holds for all three keydir types when
`mmap_at_startup` is off. For any sequence of well-formed put/delete/
commit operations run from a freshly opened empty directory, closing and
reopening with the same options yields a keydir with the same key set and
the same `get` result for every key. (With `mmap_at_startup` on — the
default — it fails: the mmap read path drops a trailing record shorter
than the 11-byte header window; refuted separately.) -/
theorem C2_restart_equivalence (opts : EngineOptions) (ops : List EngOp)
    (s0 st : EngineState)
    (hsz : opts.dataFileSize ≠ 0) (hmm : opts.mmapAtStartup = false)
    (hopen0 : openModel emptyDir opts = .ok s0)
    (hops : ∀ op ∈ ops, OpWF op) (hlen : ops.length < 2 ^ 61)
    (hreopen : openModel (closeModel (applyOps s0 ops)) opts = .ok st) :
    idxKeys st.index = idxKeys (applyOps s0 ops).index ∧
      ∀ k, engineGet st k = engineGet (applyOps s0 ops) k := by
  obtain ⟨hH0, hs1, hsopts⟩ := hist_fresh opts s0 hsz hopen0
  have hHs : Hist (applyOps s0 ops) := by
    refine hist_applyOps ops s0 hH0 hops ?_
    have h61 : (2 : Nat) ^ 61 + 1 < 2 ^ 62 := by norm_num
    omega
  have hopts : (applyOps s0 ops).opts = opts := by
    rw [applyOps_opts, hsopts]
  obtain ⟨hidxe, hfe⟩ := hist_reopen (applyOps s0 ops) st hHs
    (by rw [hopts]; exact hsz) (by rw [hopts]; exact hmm)
    (by rw [hopts]; exact hreopen)
  exact ⟨by rw [hidxe], fun k => engineGet_congr st _ hidxe hfe k⟩

def c2wOpts : EngineOptions := ⟨256, .SkipList, false⟩

def c2wOps : List EngOp :=
  [.put [97] [1], .commit [([98], ⟨[98], [2], .NOAMAL⟩)] 10, .del [97]]

def c2wS0 : EngineState :=
  ((openModel emptyDir c2wOpts).toOption).getD witState0

def c2wSt : EngineState :=
  ((openModel (closeModel (applyOps c2wS0 c2wOps)) c2wOpts).toOption).getD
    witState0

set_option maxRecDepth 200000 in
/-- Witness for C2 at a concrete input: a put, a committed batch and a
delete on a fresh skip-list engine with mmap off, then close and
reopen. -/
theorem C2_restart_equivalence_witness :
    (256 : Nat) ≠ 0 ∧
    openModel emptyDir c2wOpts = .ok c2wS0 ∧
    (∀ op ∈ c2wOps, OpWF op) ∧
    c2wOps.length < 2 ^ 61 ∧
    openModel (closeModel (applyOps c2wS0 c2wOps)) c2wOpts = .ok c2wSt ∧
    (idxKeys c2wSt.index = idxKeys (applyOps c2wS0 c2wOps).index ∧
      ∀ k, engineGet c2wSt k = engineGet (applyOps c2wS0 c2wOps) k) :=
  ⟨by decide, by decide, by decide, by decide, by decide,
    C2_restart_equivalence c2wOpts c2wOps c2wS0 c2wSt (by decide) rfl
      (by decide) (by decide) (by decide) (by decide)⟩

def c2xS0 : EngineState :=
  ((openModel emptyDir mmapSkipOpts).toOption).getD witState0

def c2xS1 : EngineState :=
  ((enginePut c2xS0 [97] []).toOption).getD witState0

def c2xS2 : EngineState :=
  ((openModel (closeModel c2xS1) mmapSkipOpts).toOption).getD witState0

set_option maxRecDepth 100000 in
/-- With the default `mmap_at_startup = true`, restart equivalence fails:
a 9-byte trailing record (`put [97] []`) is silently dropped by the mmap
replay, whose header read errors `ReadDataFileEOF` once fewer than 11
bytes remain. The reopened engine loses the key. -/
theorem C2_mmap_restart_counterexample :
    enginePut c2xS0 [97] [] = .ok c2xS1 ∧
    openModel (closeModel c2xS1) mmapSkipOpts = .ok c2xS2 ∧
    engineGet c2xS1 [97] = .ok [] ∧
    engineGet c2xS2 [97] = .error .KeyIsNotFound ∧
    idxKeys c2xS1.index = [[97]] ∧
    idxKeys c2xS2.index = [] :=
  ⟨by decide, by decide, by decide, by decide, by decide, by decide⟩

end Bitcask
